import Mathlib

/-!
Verification of the Simple_AICATS diagnosis pipeline core: a shallow embedding
of the repository's JSON response parsing (src/services/json_parser.py), score
aggregation (src/services/scoring_engine.py), category mapping
(src/core/category_mapper.py), respondent validation (src/services/validation.py),
configuration loading (src/core/config.py) and the retry-bounded evaluation
runner of src/main.py, together with theorems settling the specification's
claims about them.

Modelling conventions:
- Python floats are idealised as exact decimal numbers `m / 10 ^ e` plus the
  special values NaN / inf / -inf.  Python's binary doubles round ties at the
  binary value rather than the decimal one; no claim below depends on a tie.
- Python `int` and `float` are conflated into one numeric type: Python itself
  treats `3 == 3.0` as true wherever the claims compare values.
- Python dicts are association lists in insertion order; assigning to an
  existing key updates it in place, assigning a fresh key appends.
- A Python exception escaping a modelled function is modelled as `none` /
  `Except.error` as noted at each definition.
-/

namespace AICATS

/-! ## Python number model -/

/-- A Python float, idealised: `fin m e` is the exact decimal `m / 10 ^ e`
(`int` and `float` conflated), and the three special values. -/
inductive PyFloat where
  | fin (m : Int) (e : Nat)
  | nan
  | inf
  | ninf
deriving DecidableEq

def PyFloat.toRat : PyFloat → Rat
  | .fin m e => (m : Rat) / 10 ^ e
  | _ => 0

/-- Python `<` on floats: NaN compares false with everything.  The finite
case compares the exact values `m₁ / 10 ^ e₁ < m₂ / 10 ^ e₂` by
cross-multiplication (see `pyLt_fin_fin`). -/
def pyLt : PyFloat → PyFloat → Bool
  | .nan, _ => false
  | _, .nan => false
  | .fin m₁ e₁, .fin m₂ e₂ => decide (m₁ * 10 ^ e₂ < m₂ * 10 ^ e₁)
  | .ninf, .ninf => false
  | .ninf, _ => true
  | _, .ninf => false
  | .inf, _ => false
  | _, .inf => true

/-- Python `>` on floats. -/
def pyGt (a b : PyFloat) : Bool := pyLt b a

/-- Python `==` on floats: value equality, except NaN is equal to nothing
(including itself). -/
def pyEqF : PyFloat → PyFloat → Bool
  | .nan, _ => false
  | _, .nan => false
  | .fin m₁ e₁, .fin m₂ e₂ => decide (m₁ * 10 ^ e₂ = m₂ * 10 ^ e₁)
  | .inf, .inf => true
  | .ninf, .ninf => true
  | _, _ => false

/-- Nearest integer to a rational, ties to the even integer (the rounding used
by Python's `round`). -/
def roundHalfEven (q : Rat) : Int :=
  let f := Int.floor q
  let r := q - (f : Rat)
  if r < 1 / 2 then f
  else if 1 / 2 < r then f + 1
  else if Even f then f else f + 1

/-- `roundHalfEven (a / d)` computed on the integer pair `(a, d)` (with `d` a
positive denominator), so that concrete runs reduce inside the kernel; see
`roundHalfEvenInt_eq`. -/
def roundHalfEvenInt (a : Int) (d : Nat) : Int :=
  if 2 * (a - a / (d : Int) * (d : Int)) < (d : Int) then a / (d : Int)
  else if (d : Int) < 2 * (a - a / (d : Int) * (d : Int)) then a / (d : Int) + 1
  else if Even (a / (d : Int)) then a / (d : Int) else a / (d : Int) + 1

/-- Python `round(q, n)` on an exact rational. -/
def pyRound (q : Rat) (n : Nat) : Rat :=
  (roundHalfEven (q * 10 ^ n) : Rat) / 10 ^ n

/-- Python `round(x, n)` on a float, idealised to exact decimals.  The result
keeps exactly `n` fractional digits in its representation, matching the way
`repr` prints a rounded double with its decimal point. -/
def pyRoundF (x : PyFloat) (n : Nat) : PyFloat :=
  match x with
  | .fin m e => .fin (roundHalfEvenInt (m * 10 ^ n) (10 ^ e)) n
  | s => s

/-! ## JSON value model -/

/-- A decoded JSON value as Python's `json.loads` produces it: objects are
insertion-ordered association lists with unique keys. -/
inductive JValue where
  | null
  | bool (b : Bool)
  | num (x : PyFloat)
  | str (s : String)
  | arr (elems : List JValue)
  | obj (members : List (String × JValue))

/-- Python dict lookup (`d.get(k)`), `none` when the key is absent. -/
def jGet : List (String × JValue) → String → Option JValue
  | [], _ => none
  | (k₂, v) :: rest, k => if k₂ = k then some v else jGet rest k

/-- Python dict assignment `d[k] = v`: update in place if the key is present,
append otherwise. -/
def dictSet : List (String × JValue) → String → JValue → List (String × JValue)
  | [], k, v => [(k, v)]
  | (k₂, v₂) :: rest, k, v =>
    if k₂ = k then (k₂, v) :: rest else (k₂, v₂) :: dictSet rest k v

/-- Python truthiness of a decoded value (`bool(v)`):  NaN and the infinities
are truthy, zero and the empty containers are falsy. -/
def JValue.truthy : JValue → Bool
  | .null => false
  | .bool b => b
  | .num (.fin m _) => decide (m ≠ 0)
  | .num _ => true
  | .str s => decide (s ≠ "")
  | .arr xs => !xs.isEmpty
  | .obj kvs => !kvs.isEmpty

-- Keys of every object in the value are pairwise distinct.  `json.loads`
-- output always satisfies this, since Python dicts cannot repeat a key.
mutual

def uniqKeysV : JValue → Prop
  | .arr xs => uniqKeysL xs
  | .obj kvs => (kvs.map Prod.fst).Nodup ∧ uniqKeysM kvs
  | _ => True

def uniqKeysL : List JValue → Prop
  | [] => True
  | x :: rest => uniqKeysV x ∧ uniqKeysL rest

def uniqKeysM : List (String × JValue) → Prop
  | [] => True
  | (_, v) :: rest => uniqKeysV v ∧ uniqKeysM rest

end

/-! ## Serializer: model of `json.dumps` (default options: `ensure_ascii=True`,
separators `", "` and `": "`, no indent) -/

def quoteChar : Char := '"'
def backslashChar : Char := '\\'
def lbrace : Char := Char.ofNat 123
def rbrace : Char := Char.ofNat 125

def nullChars : List Char := "null".toList
def trueChars : List Char := "true".toList
def falseChars : List Char := "false".toList
def nanChars : List Char := "NaN".toList
def infChars : List Char := "Infinity".toList
def ninfChars : List Char := "-Infinity".toList

def digitChar (d : Nat) : Char := Char.ofNat (48 + d)

def hexDigitChar (d : Nat) : Char :=
  if d < 10 then digitChar d else Char.ofNat (97 + (d - 10))

def hex4 (n : Nat) : List Char :=
  [hexDigitChar (n / 4096 % 16), hexDigitChar (n / 256 % 16),
   hexDigitChar (n / 16 % 16), hexDigitChar (n % 16)]

/-- Decimal digits of a natural number, most significant first (`"0"` for 0). -/
def natDigits (n : Nat) : List Char :=
  if n = 0 then [digitChar 0] else (Nat.digits 10 n).reverse.map digitChar

/-- Pad a digit list on the left with zeros up to width `w`. -/
def padZeros (ds : List Char) (w : Nat) : List Char :=
  List.replicate (w - ds.length) (digitChar 0) ++ ds

/-- Render a number the way `repr` prints the idealised float: `fin m e` with
`e = 0` prints as an integer, otherwise with exactly `e` fractional digits. -/
def dumpNum : PyFloat → List Char
  | .fin m e =>
    if e = 0 then (if m < 0 then ['-'] else []) ++ natDigits m.natAbs
    else
      (if m < 0 then ['-'] else []) ++
        (padZeros (natDigits m.natAbs) (e + 1)).take
          ((padZeros (natDigits m.natAbs) (e + 1)).length - e) ++
        '.' :: (padZeros (natDigits m.natAbs) (e + 1)).drop
          ((padZeros (natDigits m.natAbs) (e + 1)).length - e)
  | .nan => nanChars
  | .inf => infChars
  | .ninf => ninfChars

/-- How `json.dumps` escapes one character under `ensure_ascii`: the named
escapes, `\uXXXX` (with a surrogate pair beyond the BMP) for everything
outside printable ASCII, the character itself otherwise. -/
def escapeChar (c : Char) : List Char :=
  if c = quoteChar then [backslashChar, quoteChar]
  else if c = backslashChar then [backslashChar, backslashChar]
  else if c = '\n' then [backslashChar, 'n']
  else if c = '\r' then [backslashChar, 'r']
  else if c = '\t' then [backslashChar, 't']
  else if c = Char.ofNat 8 then [backslashChar, 'b']
  else if c = Char.ofNat 12 then [backslashChar, 'f']
  else if c.toNat < 32 || 126 < c.toNat then
    if c.toNat < 65536 then backslashChar :: 'u' :: hex4 c.toNat
    else
      let n := c.toNat - 65536
      backslashChar :: 'u' :: hex4 (55296 + n / 1024) ++
        backslashChar :: 'u' :: hex4 (56320 + n % 1024)
  else [c]

def escapeList (l : List Char) : List Char := (l.map escapeChar).flatten

/-- A serialized object key together with the `": "` separator. -/
def dumpKey (k : String) : List Char :=
  quoteChar :: escapeList k.toList ++ [quoteChar, ':', ' ']

mutual

def dumpV : JValue → List Char
  | .null => nullChars
  | .bool true => trueChars
  | .bool false => falseChars
  | .num x => dumpNum x
  | .str s => quoteChar :: escapeList s.toList ++ [quoteChar]
  | .arr [] => ['[', ']']
  | .arr (x :: rest) => '[' :: (dumpV x ++ dumpElems rest) ++ [']']
  | .obj [] => [lbrace, rbrace]
  | .obj ((k, v) :: rest) => lbrace :: (dumpKey k ++ dumpV v ++ dumpMembers rest) ++ [rbrace]

def dumpElems : List JValue → List Char
  | [] => []
  | x :: rest => ',' :: ' ' :: dumpV x ++ dumpElems rest

def dumpMembers : List (String × JValue) → List Char
  | [] => []
  | (k, v) :: rest => ',' :: ' ' :: (dumpKey k ++ dumpV v) ++ dumpMembers rest

end

/-- Model of `json.dumps` with its default options. -/
def dumps (v : JValue) : String := String.mk (dumpV v)

/-! ## Decoder: model of `json.loads` (strict mode, default hooks).
Deviation noted: a lone UTF-16 surrogate escape is accepted by CPython as a
lone-surrogate `str`, which Lean's `Char` cannot represent; the model rejects
those inputs. -/

def isJsonWs (c : Char) : Bool := c = ' ' || c = '\t' || c = '\n' || c = '\r'

def skipWs (cs : List Char) : List Char := cs.dropWhile isJsonWs

def isDigitChar (c : Char) : Bool := 48 ≤ c.toNat && c.toNat ≤ 57

def digitVal (c : Char) : Nat := c.toNat - 48

/-- Value of a most-significant-first digit string. -/
def digitsVal (ds : List Char) : Nat := ds.foldl (fun a c => 10 * a + digitVal c) 0

def hexVal (c : Char) : Option Nat :=
  if 48 ≤ c.toNat && c.toNat ≤ 57 then some (c.toNat - 48)
  else if 97 ≤ c.toNat && c.toNat ≤ 102 then some (c.toNat - 87)
  else if 65 ≤ c.toNat && c.toNat ≤ 70 then some (c.toNat - 55)
  else none

def parseHex4 : List Char → Option (Nat × List Char)
  | c₁ :: c₂ :: c₃ :: c₄ :: rest =>
    match hexVal c₁, hexVal c₂, hexVal c₃, hexVal c₄ with
    | some d₁, some d₂, some d₃, some d₄ =>
      some (((d₁ * 16 + d₂) * 16 + d₃) * 16 + d₄, rest)
    | _, _, _, _ => none
  | _ => none

def escShorthand (c : Char) : Option Char :=
  if c = quoteChar then some quoteChar
  else if c = backslashChar then some backslashChar
  else if c = '/' then some '/'
  else if c = 'b' then some (Char.ofNat 8)
  else if c = 'f' then some (Char.ofNat 12)
  else if c = 'n' then some '\n'
  else if c = 'r' then some '\r'
  else if c = 't' then some '\t'
  else none

/-- String body scanner (`py_scanstring`), positioned after the opening quote;
returns the decoded characters and the input after the closing quote. -/
def parseStrBody : Nat → List Char → Option (List Char × List Char)
  | 0, _ => none
  | _ + 1, [] => none
  | f + 1, c :: rest =>
    if c = quoteChar then some ([], rest)
    else if c = backslashChar then
      match rest with
      | [] => none
      | e :: r₂ =>
        if e = 'u' then
          match parseHex4 r₂ with
          | none => none
          | some (h, r₃) =>
            if 55296 ≤ h && h < 56320 then
              match r₃ with
              | b₂ :: u₂ :: r₄ =>
                if b₂ = backslashChar && u₂ = 'u' then
                  match parseHex4 r₄ with
                  | some (l, r₅) =>
                    if 56320 ≤ l && l < 57344 then
                      match parseStrBody f r₅ with
                      | some (out, r₆) =>
                        some (Char.ofNat (65536 + (h - 55296) * 1024 + (l - 56320)) :: out, r₆)
                      | none => none
                    else none
                  | none => none
                else none
              | _ => none
            else if 56320 ≤ h && h < 57344 then none
            else
              match parseStrBody f r₃ with
              | some (out, r₄) => some (Char.ofNat h :: out, r₄)
              | none => none
        else
          match escShorthand e with
          | some c₂ =>
            match parseStrBody f r₂ with
            | some (out, r₃) => some (c₂ :: out, r₃)
            | none => none
          | none => none
    else if c.toNat < 32 then none
    else
      match parseStrBody f rest with
      | some (out, r₂) => some (c :: out, r₂)
      | none => none

/-- Combine sign, integer digits, fraction digits and decimal exponent into the
idealised float the decoder produces. -/
def mkNum (neg : Bool) (intDs fracDs : List Char) (k : Int) : PyFloat :=
  let mAbs : Int := (digitsVal (intDs ++ fracDs) : Int)
  let m : Int := if neg then -mAbs else mAbs
  let e₀ : Nat := fracDs.length
  if 0 ≤ k then
    let d := k.toNat
    if d ≤ e₀ then .fin m (e₀ - d) else .fin (m * 10 ^ (d - e₀)) 0
  else .fin m (e₀ + (-k).toNat)

/-- Optional leading minus sign of a number token. -/
def splitSign : List Char → Bool × List Char
  | c :: r => if c = '-' then (true, r) else (false, c :: r)
  | [] => (false, [])

/-- Integer part of a number token: `0` or `[1-9]\d*` (a leading zero is
never followed by more integer digits). -/
def splitInt : List Char → Option (List Char × List Char)
  | [] => none
  | c :: r =>
    if ¬ isDigitChar c then none
    else if c = digitChar 0 then some ([c], r)
    else some (c :: r.takeWhile isDigitChar, r.dropWhile isDigitChar)

/-- Optional fraction part `\.\d+` of a number token. -/
def splitFrac : List Char → Option (List Char × List Char)
  | [] => some ([], [])
  | p :: r₂ =>
    if p = '.' then
      let ds := r₂.takeWhile isDigitChar
      if ds.isEmpty then none else some (ds, r₂.dropWhile isDigitChar)
    else some ([], p :: r₂)

/-- Optional exponent part `[eE][-+]?\d+` of a number token, as a signed
decimal exponent. -/
def splitExp : List Char → Option (Int × List Char)
  | [] => some (0, [])
  | p :: r₃ =>
    if p = 'e' || p = 'E' then
      let esignSplit : Bool × List Char :=
        match r₃ with
        | q :: r₄ =>
          if q = '-' then (true, r₄)
          else if q = '+' then (false, r₄)
          else (false, q :: r₄)
        | [] => (false, [])
      let ds := esignSplit.2.takeWhile isDigitChar
      if ds.isEmpty then none
      else
        let mag : Int := (digitsVal ds : Int)
        some (if esignSplit.1 then -mag else mag, esignSplit.2.dropWhile isDigitChar)
    else some (0, p :: r₃)

/-- JSON number scanner (`NUMBER_RE` plus conversion): `-?(0|[1-9]\d*)`
optionally followed by a fraction and an exponent. -/
def parseNumTok (cs : List Char) : Option (PyFloat × List Char) :=
  match splitSign cs with
  | (neg, cs₁) =>
    match splitInt cs₁ with
    | none => none
    | some (intDs, cs₂) =>
      match splitFrac cs₂ with
      | none => none
      | some (fracDs, cs₃) =>
        match splitExp cs₃ with
        | none => none
        | some (k, cs₄) => some (mkNum neg intDs fracDs k, cs₄)

/-- Match a literal word at the head of the input, returning what follows. -/
def dropWord : List Char → List Char → Option (List Char)
  | [], cs => some cs
  | _ :: _, [] => none
  | wc :: wrest, c :: rest => if c = wc then dropWord wrest rest else none

def ullWord : List Char := "ull".toList
def rueWord : List Char := "rue".toList
def alseWord : List Char := "alse".toList
def aNWord : List Char := "aN".toList
def nfinityWord : List Char := "nfinity".toList
def infinityWord : List Char := "Infinity".toList

mutual

/-- Value scanner (`_scan_once`): dispatch on the first character.  Whitespace
is not skipped here; the container scanners and the top level skip it, as
CPython's decoder does. -/
def parseValue : Nat → List Char → Option (JValue × List Char)
  | 0, _ => none
  | f + 1, cs =>
    match cs with
    | [] => none
    | c :: rest =>
      if c = quoteChar then
        match parseStrBody f rest with
        | some (content, r) => some (.str (String.mk content), r)
        | none => none
      else if c = lbrace then
        match skipWs rest with
        | c₂ :: r₂ =>
          if c₂ = rbrace then some (.obj [], r₂)
          else
            match parseMembers f (skipWs rest) with
            | some (pairs, r) =>
              some (.obj (pairs.foldl (fun d kv => dictSet d kv.1 kv.2) []), r)
            | none => none
        | [] => none
      else if c = '[' then
        match skipWs rest with
        | c₂ :: r₂ =>
          if c₂ = ']' then some (.arr [], r₂)
          else
            match parseElems f (skipWs rest) with
            | some (xs, r) => some (.arr xs, r)
            | none => none
        | [] => none
      else if c = 'n' then
        match dropWord ullWord rest with
        | some r => some (.null, r)
        | none => none
      else if c = 't' then
        match dropWord rueWord rest with
        | some r => some (.bool true, r)
        | none => none
      else if c = 'f' then
        match dropWord alseWord rest with
        | some r => some (.bool false, r)
        | none => none
      else if c = 'N' then
        match dropWord aNWord rest with
        | some r => some (.num .nan, r)
        | none => none
      else if c = 'I' then
        match dropWord nfinityWord rest with
        | some r => some (.num .inf, r)
        | none => none
      else if c = '-' then
        match dropWord infinityWord rest with
        | some r => some (.num .ninf, r)
        | none =>
          match parseNumTok cs with
          | some (x, r) => some (.num x, r)
          | none => none
      else
        match parseNumTok cs with
        | some (x, r) => some (.num x, r)
        | none => none

/-- Non-empty array tail (`JSONArray`'s loop): value, then `]` or `,`. -/
def parseElems : Nat → List Char → Option (List JValue × List Char)
  | 0, _ => none
  | f + 1, cs =>
    match parseValue f cs with
    | none => none
    | some (v, r) =>
      match skipWs r with
      | c :: r₂ =>
        if c = ']' then some ([v], r₂)
        else if c = ',' then
          match parseElems f (skipWs r₂) with
          | some (vs, r₃) => some (v :: vs, r₃)
          | none => none
        else none
      | [] => none

/-- Non-empty member list (`JSONObject`'s loop): quoted key, `:`, value, then
a closing brace or a comma.  Returns the members in written order; the caller
folds them into a dict. -/
def parseMembers : Nat → List Char → Option (List (String × JValue) × List Char)
  | 0, _ => none
  | f + 1, cs =>
    match cs with
    | [] => none
    | c :: rest =>
      if c = quoteChar then
        match parseStrBody f rest with
        | some (kcs, r₁) =>
          match skipWs r₁ with
          | c₂ :: r₃ =>
            if c₂ = ':' then
              match parseValue f (skipWs r₃) with
              | some (v, r₄) =>
                match skipWs r₄ with
                | c₃ :: r₆ =>
                  if c₃ = rbrace then some ([(String.mk kcs, v)], r₆)
                  else if c₃ = ',' then
                    match parseMembers f (skipWs r₆) with
                    | some (kvs, r₇) => some ((String.mk kcs, v) :: kvs, r₇)
                    | none => none
                  else none
                | [] => none
              | none => none
            else none
          | [] => none
        | none => none
      else none

end

/-- Model of `json.loads`: parse one document, allowing surrounding
whitespace, requiring the whole input to be consumed. -/
def loads (s : String) : Option JValue :=
  match parseValue (s.toList.length + 1) (skipWs s.toList) with
  | some (v, rest) => if (skipWs rest).isEmpty then some v else none
  | none => none

/-! ## Character and digit lemmas -/

theorem charToNat_ofNatAux (n : Nat) (h : n.isValidChar) : (Char.ofNatAux n h).toNat = n := by
  simp [Char.ofNatAux, Char.toNat, UInt32.toNat, BitVec.toNat_ofNatLt]

theorem charToNat_ofNat (n : Nat) (h : n.isValidChar) : (Char.ofNat n).toNat = n := by
  unfold Char.ofNat
  rw [dif_pos h]
  exact charToNat_ofNatAux n h

theorem char_eq_of_toNat {a b : Char} (h : a.toNat = b.toNat) : a = b :=
  Char.ext (UInt32.ext h)

theorem char_ne_of_toNat {a b : Char} (h : a.toNat ≠ b.toNat) : a ≠ b :=
  fun he => h (by rw [he])

/-- Compare a character against a literal through its code point. -/
theorem char_ne_lit {a : Char} {n : Nat} (b : Char) (hb : b.toNat = n)
    (h : a.toNat ≠ n) : a ≠ b :=
  fun he => h (by rw [he, hb])

theorem toNat_digitChar {d : Nat} (h : d < 10) : (digitChar d).toNat = 48 + d :=
  charToNat_ofNat _ (Or.inl (by omega))

theorem isDigitChar_digitChar {d : Nat} (h : d < 10) : isDigitChar (digitChar d) = true := by
  simp [isDigitChar, toNat_digitChar h]
  omega

theorem digitVal_digitChar {d : Nat} (h : d < 10) : digitVal (digitChar d) = d := by
  simp [digitVal, toNat_digitChar h]

theorem isDigitChar_elim {c : Char} (h : isDigitChar c = true) :
    48 ≤ c.toNat ∧ c.toNat ≤ 57 := by
  simp [isDigitChar] at h
  omega

theorem natDigits_all_digits (n : Nat) : ∀ c ∈ natDigits n, isDigitChar c = true := by
  intro c hc
  unfold natDigits at hc
  split at hc
  · simp at hc
    subst hc
    exact isDigitChar_digitChar (by omega)
  · simp only [List.mem_map, List.mem_reverse] at hc
    obtain ⟨d, hd, rfl⟩ := hc
    exact isDigitChar_digitChar (Nat.digits_lt_base (by omega) hd)

theorem natDigits_ne_nil (n : Nat) : natDigits n ≠ [] := by
  unfold natDigits
  split
  · simp
  · simp [Nat.digits_ne_nil_iff_ne_zero, *]

theorem digitsVal_msd (L : List Nat) (hL : ∀ d ∈ L, d < 10) (a : Nat) :
    (L.reverse.map digitChar).foldl (fun x c => 10 * x + digitVal c) a
      = a * 10 ^ L.length + Nat.ofDigits 10 L := by
  induction L generalizing a with
  | nil => simp [Nat.ofDigits]
  | cons d L ih =>
    have hd : d < 10 := hL d (by simp)
    have hL' : ∀ x ∈ L, x < 10 := fun x hx => hL x (by simp [hx])
    simp only [List.reverse_cons, List.map_append, List.foldl_append, List.map_cons,
      List.map_nil, List.foldl_cons, List.foldl_nil]
    rw [ih hL' a, digitVal_digitChar hd, Nat.ofDigits_cons]
    simp [List.length_cons, pow_succ]
    ring

theorem digitsVal_natDigits (n : Nat) : digitsVal (natDigits n) = n := by
  unfold natDigits digitsVal
  split
  · subst_eqs
    simp [digitVal_digitChar]
  · rw [digitsVal_msd _ (fun d hd => Nat.digits_lt_base (by omega) hd) 0]
    simp [Nat.ofDigits_digits]

/-- Leading zeros do not change the value of a digit string. -/
theorem digitsVal_replicate_zero (k : Nat) (ds : List Char) :
    digitsVal (List.replicate k (digitChar 0) ++ ds) = digitsVal ds := by
  induction k with
  | zero => simp
  | succ k ih =>
    simp only [List.replicate_succ, List.cons_append, digitsVal, List.foldl_cons] at *
    rw [digitVal_digitChar (by omega)]
    simpa using ih

theorem digitsVal_padZeros (ds : List Char) (w : Nat) :
    digitsVal (padZeros ds w) = digitsVal ds := by
  unfold padZeros
  exact digitsVal_replicate_zero _ ds

theorem padZeros_all_digits (ds : List Char) (w : Nat)
    (h : ∀ c ∈ ds, isDigitChar c = true) :
    ∀ c ∈ padZeros ds w, isDigitChar c = true := by
  intro c hc
  unfold padZeros at hc
  rw [List.mem_append] at hc
  rcases hc with hc | hc
  · rw [List.eq_of_mem_replicate hc]
    exact isDigitChar_digitChar (by omega)
  · exact h c hc

theorem padZeros_length (ds : List Char) (w : Nat) :
    (padZeros ds w).length = max w ds.length := by
  simp [padZeros]
  omega

/-- Head-condition: the list is empty or its head fails the predicate. -/
def headNot (p : Char → Bool) : List Char → Prop
  | [] => True
  | c :: _ => p c = false

theorem takeWhile_app {p : Char → Bool} {l₁ l₂ : List Char} (h1 : ∀ c ∈ l₁, p c = true)
    (h2 : headNot p l₂) :
    (l₁ ++ l₂).takeWhile p = l₁ ∧ (l₁ ++ l₂).dropWhile p = l₂ := by
  induction l₁ with
  | nil =>
    cases l₂ with
    | nil => simp
    | cons c r =>
      simp only [headNot] at h2
      simp [List.takeWhile_cons, List.dropWhile_cons, h2]
  | cons c l₁ ih =>
    have hc : p c = true := h1 c (by simp)
    have ih' := ih (fun x hx => h1 x (by simp [hx]))
    simp [List.takeWhile_cons, List.dropWhile_cons, hc, ih'.1, ih'.2]

theorem skipWs_cons {c : Char} {r : List Char} (h : isJsonWs c = false) :
    skipWs (c :: r) = c :: r := by
  simp [skipWs, List.dropWhile_cons, h]

theorem isJsonWs_false_of_digit {c : Char} (h : isDigitChar c = true) :
    isJsonWs c = false := by
  obtain ⟨h1, h2⟩ := isDigitChar_elim h
  simp only [isJsonWs, Bool.or_eq_false_iff, decide_eq_false_iff_not]
  exact ⟨⟨⟨char_ne_of_toNat (show c.toNat ≠ 32 by omega),
    char_ne_of_toNat (show c.toNat ≠ 9 by omega)⟩,
    char_ne_of_toNat (show c.toNat ≠ 10 by omega)⟩,
    char_ne_of_toNat (show c.toNat ≠ 13 by omega)⟩

/-! ## Number-token round-trip -/

/-- What may legally follow a serialized number so that the scanner stops
exactly at the boundary. -/
def numStop : List Char → Prop
  | [] => True
  | c :: _ => isDigitChar c = false ∧ c ≠ '.' ∧ c ≠ 'e' ∧ c ≠ 'E'

theorem numStop_headNot {r : List Char} (h : numStop r) : headNot isDigitChar r := by
  cases r with
  | nil => trivial
  | cons c t => exact h.1

theorem splitSign_neg (cs : List Char) : splitSign ('-' :: cs) = (true, cs) := by
  simp [splitSign]

theorem splitSign_digit {c : Char} (h : isDigitChar c = true) (cs : List Char) :
    splitSign (c :: cs) = (false, c :: cs) := by
  obtain ⟨h1, h2⟩ := isDigitChar_elim h
  simp [splitSign, char_ne_lit (a := c) (n := 45) '-' rfl (by omega)]

theorem splitInt_app {intDs rest : List Char}
    (hi : ∀ c ∈ intDs, isDigitChar c = true) (hne : intDs ≠ [])
    (hz : ∀ tl, intDs = digitChar 0 :: tl → tl = [])
    (hrest : headNot isDigitChar rest) :
    splitInt (intDs ++ rest) = some (intDs, rest) := by
  obtain ⟨c, tl, rfl⟩ := List.exists_cons_of_ne_nil hne
  have hc : isDigitChar c = true := hi c (by simp)
  have htw := @takeWhile_app isDigitChar tl rest
    (fun x hx => hi x (by simp [hx])) hrest
  by_cases h0 : c = digitChar 0
  · subst h0
    have : tl = [] := hz tl rfl
    subst this
    simp [splitInt, hc]
  · simp [splitInt, hc, h0, htw.1, htw.2]

theorem splitFrac_stop {rest : List Char} (h : numStop rest) :
    splitFrac rest = some ([], rest) := by
  cases rest with
  | nil => simp [splitFrac]
  | cons c r =>
    obtain ⟨_, hdot, _, _⟩ := h
    simp [splitFrac, hdot]

theorem splitFrac_app {fracDs rest : List Char} (hf : ∀ c ∈ fracDs, isDigitChar c = true)
    (hne : fracDs ≠ []) (hrest : headNot isDigitChar rest) :
    splitFrac ('.' :: (fracDs ++ rest)) = some (fracDs, rest) := by
  have htw := takeWhile_app hf hrest
  simp [splitFrac, htw.1, htw.2, hne]

theorem splitExp_stop {rest : List Char} (h : numStop rest) :
    splitExp rest = some (0, rest) := by
  cases rest with
  | nil => simp [splitExp]
  | cons c r =>
    obtain ⟨_, _, he, hE⟩ := h
    simp [splitExp, he, hE]

theorem mkNum_noexp (neg : Bool) (intDs fracDs : List Char) :
    mkNum neg intDs fracDs 0 =
      .fin (if neg then -(digitsVal (intDs ++ fracDs) : Int) else (digitsVal (intDs ++ fracDs) : Int))
        fracDs.length := by
  simp [mkNum]

theorem natDigits_zero : natDigits 0 = [digitChar 0] := by
  simp [natDigits]

theorem natDigits_head_pos {a : Nat} (ha : a ≠ 0) :
    ∀ tl, natDigits a ≠ digitChar 0 :: tl := by
  intro tl h
  unfold natDigits at h
  rw [if_neg ha] at h
  cases hrev : (Nat.digits 10 a).reverse with
  | nil =>
    rw [hrev] at h
    simp at h
  | cons d t =>
    rw [hrev] at h
    simp only [List.map_cons, List.cons.injEq] at h
    have hd_mem : d ∈ Nat.digits 10 a := by
      have : d ∈ (Nat.digits 10 a).reverse := by rw [hrev]; simp
      simpa using this
    have hd10 : d < 10 := Nat.digits_lt_base (by omega) hd_mem
    have hd0 : d = 0 := by
      have := congrArg Char.toNat h.1
      rw [toNat_digitChar hd10, toNat_digitChar (by omega)] at this
      omega
    have hlast : (Nat.digits 10 a).getLast? = some d := by
      rw [← List.head?_reverse, hrev]
      rfl
    have hne : Nat.digits 10 a ≠ [] := Nat.digits_ne_nil_iff_ne_zero.mpr ha
    have hnz := Nat.getLast_digit_ne_zero 10 ha
    rw [List.getLast?_eq_getLast _ hne] at hlast
    have hdl : (Nat.digits 10 a).getLast hne = d := Option.some_inj.mp hlast
    exact hnz (hdl.trans hd0)

theorem natDigits_single_zero :
    ∀ {a : Nat} (tl : List Char), natDigits a = digitChar 0 :: tl → tl = [] := by
  intro a tl h
  by_cases ha : a = 0
  · subst ha
    rw [natDigits_zero] at h
    exact (List.cons.injEq _ _ _ _ ▸ h).2.symm
  · exact absurd h (natDigits_head_pos ha tl)

theorem parseNumTok_core (neg : Bool) (intDs fracDs r : List Char)
    (hi : ∀ c ∈ intDs, isDigitChar c = true) (hne : intDs ≠ [])
    (hz : ∀ tl, intDs = digitChar 0 :: tl → tl = [])
    (hf : ∀ c ∈ fracDs, isDigitChar c = true)
    (hr : numStop r) :
    parseNumTok ((if neg then ['-'] else []) ++ intDs ++
        (if fracDs.isEmpty then [] else '.' :: fracDs) ++ r)
      = some (mkNum neg intDs fracDs 0, r) := by
  obtain ⟨c, tl, hcons⟩ := List.exists_cons_of_ne_nil hne
  have hcd : isDigitChar c = true := hi c (by rw [hcons]; simp)
  have hint : splitInt (intDs ++ ((if fracDs.isEmpty then [] else '.' :: fracDs) ++ r))
      = some (intDs, (if fracDs.isEmpty then [] else '.' :: fracDs) ++ r) := by
    apply splitInt_app hi hne hz
    by_cases hfe : fracDs.isEmpty
    · rw [if_pos hfe]
      simpa using numStop_headNot hr
    · rw [if_neg hfe]
      show isDigitChar '.' = false
      decide
  have hfrac : splitFrac ((if fracDs.isEmpty then [] else '.' :: fracDs) ++ r)
      = some (fracDs, r) := by
    by_cases hfe : fracDs.isEmpty
    · rw [if_pos hfe, List.nil_append, List.isEmpty_iff.mp hfe]
      exact splitFrac_stop hr
    · rw [if_neg hfe, List.cons_append]
      exact splitFrac_app hf (by simpa [List.isEmpty_iff] using hfe) (numStop_headNot hr)
  have hassemble : c :: (tl ++ ((if fracDs.isEmpty then [] else '.' :: fracDs) ++ r))
      = intDs ++ ((if fracDs.isEmpty then [] else '.' :: fracDs) ++ r) := by
    rw [hcons, List.cons_append]
  have hstream : intDs ++ ((if fracDs.isEmpty then [] else '.' :: fracDs) ++ r)
      = c :: (tl ++ ((if fracDs.isEmpty then [] else '.' :: fracDs) ++ r)) := by
    rw [hcons, List.cons_append]
  cases neg with
  | false =>
    unfold parseNumTok
    simp only [Bool.false_eq_true, if_false, List.nil_append, List.append_assoc]
    rw [hstream, splitSign_digit hcd]
    dsimp only
    rw [← hstream, hint]
    dsimp only
    rw [hfrac]
    dsimp only
    rw [splitExp_stop hr]
  | true =>
    unfold parseNumTok
    simp only [if_true, List.cons_append, List.nil_append, List.append_assoc]
    rw [splitSign_neg]
    dsimp only
    rw [hint]
    dsimp only
    rw [hfrac]
    dsimp only
    rw [splitExp_stop hr]

theorem parseNumTok_dumpNum (m : Int) (e : Nat) {r : List Char} (hr : numStop r) :
    parseNumTok (dumpNum (.fin m e) ++ r) = some (.fin m e, r) := by
  by_cases he : e = 0
  · subst he
    have hcore := fun neg => parseNumTok_core neg (natDigits m.natAbs) [] r
      (natDigits_all_digits _) (natDigits_ne_nil _)
      (fun tl h => natDigits_single_zero tl h) (by simp) hr
    by_cases hm : m < 0
    · have h₁ := hcore true
      simp only [List.isEmpty_nil, if_true, List.append_nil, List.append_assoc,
        List.cons_append, List.nil_append] at h₁
      simp only [dumpNum, ite_true, if_true, if_pos hm, List.append_assoc, List.cons_append,
        List.nil_append]
      rw [h₁, mkNum_noexp]
      simp only [List.append_nil, digitsVal_natDigits, if_true, List.length_nil]
      have : -(m.natAbs : Int) = m := by omega
      rw [this]
    · have h₁ := hcore false
      simp only [List.isEmpty_nil, if_true, List.append_nil, List.append_assoc,
        Bool.false_eq_true, if_false, List.nil_append] at h₁
      simp only [dumpNum, ite_true, if_true, if_neg hm, List.append_assoc, List.nil_append]
      rw [h₁, mkNum_noexp]
      simp only [List.append_nil, digitsVal_natDigits, Bool.false_eq_true, if_false,
        List.length_nil]
      have : (m.natAbs : Int) = m := by omega
      rw [this]
  · have hLge : e + 1 ≤ (padZeros (natDigits m.natAbs) (e + 1)).length := by
      rw [padZeros_length]
      omega
    set ds := padZeros (natDigits m.natAbs) (e + 1) with hds
    set L := ds.length with hL
    have hall : ∀ c ∈ ds, isDigitChar c = true := by
      rw [hds]
      exact padZeros_all_digits _ _ (natDigits_all_digits _)
    have hlen_take : (ds.take (L - e)).length = L - e := by
      rw [List.length_take]
      omega
    have hlen_drop : (ds.drop (L - e)).length = e := by
      rw [List.length_drop]
      omega
    have hi : ∀ c ∈ ds.take (L - e), isDigitChar c = true :=
      fun c hc => hall c (List.mem_of_mem_take hc)
    have hfd : ∀ c ∈ ds.drop (L - e), isDigitChar c = true :=
      fun c hc => hall c (List.mem_of_mem_drop hc)
    have hne : ds.take (L - e) ≠ [] := by
      apply List.ne_nil_of_length_pos
      omega
    have hfne : ds.drop (L - e) ≠ [] := by
      apply List.ne_nil_of_length_pos
      omega
    have hz : ∀ tl, ds.take (L - e) = digitChar 0 :: tl → tl = [] := by
      intro tl htl
      by_cases htl0 : tl = []
      · exact htl0
      · exfalso
        have hlen2 : 2 ≤ L - e := by
          have hlen := congrArg List.length htl
          rw [hlen_take] at hlen
          simp only [List.length_cons] at hlen
          have : tl.length ≠ 0 := fun h0 => htl0 (List.eq_nil_of_length_eq_zero h0)
          omega
        have hnd_len : e + 2 ≤ (natDigits m.natAbs).length := by
          rw [hds, padZeros_length] at hL
          omega
        have hds_eq : ds = natDigits m.natAbs := by
          rw [hds]
          unfold padZeros
          have h0 : e + 1 - (natDigits m.natAbs).length = 0 := by omega
          rw [h0]
          simp
        have ha0 : m.natAbs ≠ 0 := by
          intro h0
          rw [h0, natDigits_zero] at hnd_len
          simp at hnd_len
        obtain ⟨c₀, t₀, hc₀⟩ := List.exists_cons_of_ne_nil (natDigits_ne_nil m.natAbs)
        have htake : ds.take (L - e) = c₀ :: t₀.take (L - e - 1) := by
          rw [hds_eq, hc₀]
          cases hLe : L - e with
          | zero => omega
          | succ k => simp [List.take_cons]
        rw [htake] at htl
        have hc00 : c₀ = digitChar 0 := (List.cons.injEq _ _ _ _ ▸ htl).1
        exact natDigits_head_pos ha0 t₀ (hc00 ▸ hc₀)
    have hfe : (ds.drop (L - e)).isEmpty = false := by
      simpa [List.isEmpty_iff] using hfne
    have hcore := fun neg => parseNumTok_core neg (ds.take (L - e)) (ds.drop (L - e)) r
      hi hne hz hfd hr
    have hmant : digitsVal (ds.take (L - e) ++ ds.drop (L - e)) = m.natAbs := by
      rw [List.take_append_drop, hds, digitsVal_padZeros, digitsVal_natDigits]
    by_cases hm : m < 0
    · have h₁ := hcore true
      simp only [hfe, if_true, Bool.false_eq_true, if_false, List.append_assoc,
        List.cons_append, List.nil_append] at h₁
      simp only [dumpNum, if_neg he, if_pos hm, ← hds, ← hL, List.append_assoc,
        List.cons_append, List.nil_append]
      rw [h₁, mkNum_noexp]
      simp only [hmant, hlen_drop, if_true]
      have : -(m.natAbs : Int) = m := by omega
      rw [this]
    · have h₁ := hcore false
      simp only [hfe, Bool.false_eq_true, if_false, List.append_assoc,
        List.cons_append, List.nil_append] at h₁
      simp only [dumpNum, if_neg he, if_neg hm, ← hds, ← hL, List.append_assoc,
        List.cons_append, List.nil_append]
      rw [h₁, mkNum_noexp]
      simp only [hmant, hlen_drop, Bool.false_eq_true, if_false]
      have : (m.natAbs : Int) = m := by omega
      rw [this]

/-! ## String-escape round-trip -/

theorem char_valid_toNat (c : Char) :
    c.toNat < 55296 ∨ (57343 < c.toNat ∧ c.toNat < 1114112) := c.valid

theorem hexVal_hexDigitChar {d : Nat} (h : d < 16) : hexVal (hexDigitChar d) = some d := by
  interval_cases d <;> rfl

theorem parseHex4_hex4 {n : Nat} (h : n < 65536) (r : List Char) :
    parseHex4 (hex4 n ++ r) = some (n, r) := by
  unfold hex4 parseHex4
  simp only [List.cons_append, List.nil_append]
  rw [hexVal_hexDigitChar (by omega), hexVal_hexDigitChar (by omega),
    hexVal_hexDigitChar (by omega), hexVal_hexDigitChar (by omega)]
  dsimp only
  congr 2
  omega

theorem parseStrBody_shorthand_step (f : Nat) (e c₂ : Char) (he : escShorthand e = some c₂)
    (hu : e ≠ 'u') (tail : List Char) :
    parseStrBody (f + 1) (backslashChar :: e :: tail)
      = match parseStrBody f tail with
        | some (out, r) => some (c₂ :: out, r)
        | none => none := by
  conv_lhs => rw [parseStrBody.eq_def]
  dsimp only
  rw [if_neg (show backslashChar ≠ quoteChar by decide), if_pos rfl, if_neg hu, he]

theorem parseStrBody_lit_step (f : Nat) (c : Char) (h1 : c ≠ quoteChar)
    (h2 : c ≠ backslashChar) (h3 : 32 ≤ c.toNat) (tail : List Char) :
    parseStrBody (f + 1) (c :: tail)
      = match parseStrBody f tail with
        | some (out, r) => some (c :: out, r)
        | none => none := by
  conv_lhs => rw [parseStrBody.eq_def]
  dsimp only
  rw [if_neg h1, if_neg h2, if_neg (by omega : ¬ c.toNat < 32)]

theorem parseStrBody_u_step (f : Nat) (h : Nat) (hlt : h < 65536)
    (hns : h < 55296 ∨ 57343 < h) (tail : List Char) :
    parseStrBody (f + 1) (backslashChar :: 'u' :: (hex4 h ++ tail))
      = match parseStrBody f tail with
        | some (out, r) => some (Char.ofNat h :: out, r)
        | none => none := by
  conv_lhs => rw [parseStrBody.eq_def]
  dsimp only
  rw [if_neg (show backslashChar ≠ quoteChar by decide), if_pos rfl, if_pos rfl,
    parseHex4_hex4 hlt]
  try dsimp only
  rw [if_neg (by simp only [Bool.and_eq_true, decide_eq_true_eq]; omega)]
  try dsimp only
  rw [if_neg (by simp only [Bool.and_eq_true, decide_eq_true_eq]; omega)]

theorem parseStrBody_pair_step (f : Nat) (hi lo : Nat)
    (hhi : 55296 ≤ hi ∧ hi < 56320) (hlo : 56320 ≤ lo ∧ lo < 57344) (tail : List Char) :
    parseStrBody (f + 1)
        (backslashChar :: 'u' :: (hex4 hi ++ (backslashChar :: 'u' :: (hex4 lo ++ tail))))
      = match parseStrBody f tail with
        | some (out, r) =>
          some (Char.ofNat (65536 + (hi - 55296) * 1024 + (lo - 56320)) :: out, r)
        | none => none := by
  conv_lhs => rw [parseStrBody.eq_def]
  dsimp only
  rw [if_neg (show backslashChar ≠ quoteChar by decide), if_pos rfl, if_pos rfl,
    parseHex4_hex4 (by omega)]
  try dsimp only
  rw [if_pos (by simp only [Bool.and_eq_true, decide_eq_true_eq]; omega)]
  try dsimp only
  rw [if_pos (by simp only [Bool.and_eq_true, decide_eq_true_eq]; simp)]
  rw [parseHex4_hex4 (by omega)]
  try dsimp only
  rw [if_pos (by simp only [Bool.and_eq_true, decide_eq_true_eq]; omega)]

theorem parseStrBody_escapeList (cs : List Char) (r : List Char) :
    ∀ f, cs.length + 1 ≤ f →
      parseStrBody f (escapeList cs ++ (quoteChar :: r)) = some (cs, r) := by
  induction cs with
  | nil =>
    intro f hf
    cases f with
    | zero => omega
    | succ f' =>
      simp only [escapeList, List.map_nil, List.flatten_nil, List.nil_append]
      conv_lhs => rw [parseStrBody.eq_def]
      dsimp only
      rw [if_pos rfl]
  | cons c cs ih =>
    intro f hf
    cases f with
    | zero => simp only [List.length_cons] at hf; omega
    | succ f' =>
      have hf' : cs.length + 1 ≤ f' := by
        simp only [List.length_cons] at hf
        omega
      have hstream : escapeList (c :: cs) ++ (quoteChar :: r)
          = escapeChar c ++ (escapeList cs ++ (quoteChar :: r)) := by
        simp [escapeList]
      rw [hstream]
      by_cases h1 : c = quoteChar
      · subst h1
        rw [show escapeChar quoteChar = [backslashChar, quoteChar] from rfl]
        rw [List.cons_append, List.cons_append, List.nil_append]
        rw [parseStrBody_shorthand_step f' quoteChar quoteChar rfl (by decide)]
        rw [ih f' hf']
      · by_cases h2 : c = backslashChar
        · subst h2
          rw [show escapeChar backslashChar = [backslashChar, backslashChar] from rfl]
          rw [List.cons_append, List.cons_append, List.nil_append]
          rw [parseStrBody_shorthand_step f' backslashChar backslashChar rfl (by decide)]
          rw [ih f' hf']
        · by_cases h3 : c = '\n'
          · subst h3
            rw [show escapeChar '\n' = [backslashChar, 'n'] from rfl]
            rw [List.cons_append, List.cons_append, List.nil_append]
            rw [parseStrBody_shorthand_step f' 'n' '\n' rfl (by decide)]
            rw [ih f' hf']
          · by_cases h4 : c = '\r'
            · subst h4
              rw [show escapeChar '\r' = [backslashChar, 'r'] from rfl]
              rw [List.cons_append, List.cons_append, List.nil_append]
              rw [parseStrBody_shorthand_step f' 'r' '\r' rfl (by decide)]
              rw [ih f' hf']
            · by_cases h5 : c = '\t'
              · subst h5
                rw [show escapeChar '\t' = [backslashChar, 't'] from rfl]
                rw [List.cons_append, List.cons_append, List.nil_append]
                rw [parseStrBody_shorthand_step f' 't' '\t' rfl (by decide)]
                rw [ih f' hf']
              · by_cases h6 : c = Char.ofNat 8
                · subst h6
                  rw [show escapeChar (Char.ofNat 8) = [backslashChar, 'b'] from rfl]
                  rw [List.cons_append, List.cons_append, List.nil_append]
                  rw [parseStrBody_shorthand_step f' 'b' (Char.ofNat 8) rfl (by decide)]
                  rw [ih f' hf']
                · by_cases h7 : c = Char.ofNat 12
                  · subst h7
                    rw [show escapeChar (Char.ofNat 12) = [backslashChar, 'f'] from rfl]
                    rw [List.cons_append, List.cons_append, List.nil_append]
                    rw [parseStrBody_shorthand_step f' 'f' (Char.ofNat 12) rfl (by decide)]
                    rw [ih f' hf']
                  · by_cases h8 : c.toNat < 32 ∨ 126 < c.toNat
                    · have hesc : escapeChar c =
                          (if c.toNat < 65536 then backslashChar :: 'u' :: hex4 c.toNat
                           else backslashChar :: 'u' :: hex4 (55296 + (c.toNat - 65536) / 1024) ++
                             backslashChar :: 'u' :: hex4 (56320 + (c.toNat - 65536) % 1024)) := by
                        unfold escapeChar
                        rw [if_neg h1, if_neg h2, if_neg h3, if_neg h4, if_neg h5, if_neg h6,
                          if_neg h7,
                          if_pos (by simp only [Bool.or_eq_true, decide_eq_true_eq]; omega)]
                      by_cases h9 : c.toNat < 65536
                      · rw [hesc, if_pos h9]
                        have hval := char_valid_toNat c
                        rw [List.cons_append, List.cons_append]
                        rw [parseStrBody_u_step f' c.toNat h9 (by omega)]
                        rw [ih f' hf', Char.ofNat_toNat]
                      · rw [hesc, if_neg h9]
                        have hval := char_valid_toNat c
                        have hbig : c.toNat < 1114112 := by omega
                        simp only [List.cons_append, List.append_assoc, List.nil_append]
                        rw [parseStrBody_pair_step f' _ _
                          (by constructor <;> omega) (by constructor <;> omega)]
                        rw [ih f' hf']
                        have hcomb : 65536 + (55296 + (c.toNat - 65536) / 1024 - 55296) * 1024 +
                            (56320 + (c.toNat - 65536) % 1024 - 56320) = c.toNat := by
                          omega
                        rw [hcomb, Char.ofNat_toNat]
                    · have hesc : escapeChar c = [c] := by
                        unfold escapeChar
                        rw [if_neg h1, if_neg h2, if_neg h3, if_neg h4, if_neg h5, if_neg h6,
                          if_neg h7,
                          if_neg (by simp only [Bool.or_eq_true, decide_eq_true_eq]; omega)]
                      rw [hesc, List.cons_append, List.nil_append]
                      rw [parseStrBody_lit_step f' c h1 h2 (by omega)]
                      rw [ih f' hf']

/-! ## Value round-trip: fuel accounting and head shapes -/

-- Fuel sufficient for the scanner on a serialized value: one unit per scanner
-- step, with the string scanner consuming one unit per character.
theorem one_le_sizeOf_list {α : Type} [SizeOf α] (l : List α) : 1 ≤ sizeOf l := by
  cases l <;> simp_arith

theorem one_le_sizeOf_jv (v : JValue) : 1 ≤ sizeOf v := by
  cases v <;> simp_arith

mutual

def jfuelV : JValue → Nat
  | .null => 1
  | .bool _ => 1
  | .num _ => 1
  | .str s => s.toList.length + 2
  | .arr [] => 1
  | .arr (x :: xs) => 1 + jfuelElems x xs
  | .obj [] => 1
  | .obj ((k, v) :: kvs) => 1 + jfuelMembers k v kvs
termination_by v => sizeOf v
decreasing_by all_goals simp <;> omega

def jfuelElems (x : JValue) (xs : List JValue) : Nat :=
  1 + max (jfuelV x) (jfuelElemsTail xs)
termination_by sizeOf x + sizeOf xs
decreasing_by
  all_goals have h1 := one_le_sizeOf_list xs
  all_goals have h2 := one_le_sizeOf_jv x
  all_goals omega

def jfuelElemsTail : List JValue → Nat
  | [] => 0
  | y :: ys => jfuelElems y ys
termination_by xs => sizeOf xs
decreasing_by all_goals simp <;> omega

def jfuelMembers (k : String) (v : JValue) (kvs : List (String × JValue)) : Nat :=
  1 + max (k.toList.length + 1) (max (jfuelV v) (jfuelMembersTail kvs))
termination_by sizeOf v + sizeOf kvs
decreasing_by
  all_goals have h1 := one_le_sizeOf_list kvs
  all_goals have h2 := one_le_sizeOf_jv v
  all_goals omega

def jfuelMembersTail : List (String × JValue) → Nat
  | [] => 0
  | (k₂, v₂) :: kvs => jfuelMembers k₂ v₂ kvs
termination_by kvs => sizeOf kvs
decreasing_by all_goals simp <;> omega

end

theorem dumpNum_fin_body (m : Int) (e : Nat) :
    ∃ d t, dumpNum (.fin m e) = (if m < 0 then ['-'] else []) ++ d :: t ∧
      isDigitChar d = true := by
  by_cases he : e = 0
  · subst he
    obtain ⟨d, t, hdt⟩ := List.exists_cons_of_ne_nil (natDigits_ne_nil m.natAbs)
    refine ⟨d, t, ?_, ?_⟩
    · simp only [dumpNum, ite_true, if_true, hdt]
    · exact natDigits_all_digits _ d (by rw [hdt]; simp)
  · have hLge : e + 1 ≤ (padZeros (natDigits m.natAbs) (e + 1)).length := by
      rw [padZeros_length]
      omega
    set ds := padZeros (natDigits m.natAbs) (e + 1) with hds
    have hne : ds.take (ds.length - e) ≠ [] := by
      apply List.ne_nil_of_length_pos
      rw [List.length_take]
      omega
    obtain ⟨d, t, hdt⟩ := List.exists_cons_of_ne_nil hne
    refine ⟨d, t ++ '.' :: ds.drop (ds.length - e), ?_, ?_⟩
    · simp only [dumpNum, if_neg he, ← hds, hdt, List.cons_append, List.append_assoc]
    · have : d ∈ ds.take (ds.length - e) := by rw [hdt]; simp
      exact padZeros_all_digits _ _ (natDigits_all_digits _) d (List.mem_of_mem_take this)

/-- The first character of any serialized value: never whitespace, never a
closing bracket or brace. -/
theorem dumpV_head (v : JValue) :
    ∃ c t, dumpV v = c :: t ∧ isJsonWs c = false ∧ c ≠ ']' ∧ c ≠ rbrace := by
  have hgood : ∀ c : Char, c.toNat ≠ 32 → c.toNat ≠ 9 → c.toNat ≠ 10 → c.toNat ≠ 13 →
      c.toNat ≠ 93 → c.toNat ≠ 125 → isJsonWs c = false ∧ c ≠ ']' ∧ c ≠ rbrace := by
    intro c h32 h9 h10 h13 h93 h125
    refine ⟨?_, char_ne_lit ']' rfl h93, char_ne_lit rbrace rfl h125⟩
    unfold isJsonWs
    rw [Bool.or_eq_false_iff, Bool.or_eq_false_iff, Bool.or_eq_false_iff]
    refine ⟨⟨⟨?_, ?_⟩, ?_⟩, ?_⟩ <;>
      · rw [decide_eq_false_iff_not]
        first
          | exact char_ne_lit ' ' rfl h32
          | exact char_ne_lit '\t' rfl h9
          | exact char_ne_lit '\n' rfl h10
          | exact char_ne_lit '\r' rfl h13
  cases v with
  | null => exact ⟨'n', _, rfl, hgood _ (by decide) (by decide) (by decide) (by decide)
      (by decide) (by decide)⟩
  | bool b =>
    cases b with
    | true => exact ⟨'t', _, rfl, hgood _ (by decide) (by decide) (by decide) (by decide)
        (by decide) (by decide)⟩
    | false => exact ⟨'f', _, rfl, hgood _ (by decide) (by decide) (by decide) (by decide)
        (by decide) (by decide)⟩
  | num x =>
    cases x with
    | fin m e =>
      obtain ⟨d, t, hdt, hdig⟩ := dumpNum_fin_body m e
      obtain ⟨h1, h2⟩ := isDigitChar_elim hdig
      by_cases hm : m < 0
      · rw [if_pos hm] at hdt
        exact ⟨'-', _, hdt, hgood _ (by decide) (by decide) (by decide) (by decide)
          (by decide) (by decide)⟩
      · rw [if_neg hm, List.nil_append] at hdt
        exact ⟨d, t, hdt, isJsonWs_false_of_digit hdig,
          char_ne_lit (n := 93) ']' rfl (by omega),
          char_ne_lit (n := 125) rbrace rfl (by omega)⟩
    | nan => exact ⟨'N', _, rfl, hgood _ (by decide) (by decide) (by decide) (by decide)
        (by decide) (by decide)⟩
    | inf => exact ⟨'I', _, rfl, hgood _ (by decide) (by decide) (by decide) (by decide)
        (by decide) (by decide)⟩
    | ninf => exact ⟨'-', _, rfl, hgood _ (by decide) (by decide) (by decide) (by decide)
        (by decide) (by decide)⟩
  | str s => exact ⟨quoteChar, _, rfl, hgood _ (by decide) (by decide) (by decide)
      (by decide) (by decide) (by decide)⟩
  | arr xs =>
    cases xs with
    | nil => exact ⟨'[', _, rfl, hgood _ (by decide) (by decide) (by decide) (by decide)
        (by decide) (by decide)⟩
    | cons x rest => exact ⟨'[', _, rfl, hgood _ (by decide) (by decide) (by decide)
        (by decide) (by decide) (by decide)⟩
  | obj kvs =>
    cases kvs with
    | nil => exact ⟨lbrace, _, rfl, hgood _ (by decide) (by decide) (by decide) (by decide)
        (by decide) (by decide)⟩
    | cons kv rest =>
      obtain ⟨k, v⟩ := kv
      exact ⟨lbrace, _, rfl, hgood _ (by decide) (by decide) (by decide) (by decide)
        (by decide) (by decide)⟩

theorem skipWs_dumpV (v : JValue) (r : List Char) :
    skipWs (dumpV v ++ r) = dumpV v ++ r := by
  obtain ⟨c, t, hct, hws, _, _⟩ := dumpV_head v
  rw [hct, List.cons_append, skipWs_cons hws]

theorem skipWs_space (cs : List Char) : skipWs (' ' :: cs) = skipWs cs := by
  rw [skipWs, skipWs, List.dropWhile_cons, if_pos (by decide)]

/-! ## Rebuilding a dict from parsed members -/

theorem dictSet_fresh (d : List (String × JValue)) (k : String) (v : JValue)
    (h : k ∉ d.map Prod.fst) : dictSet d k v = d ++ [(k, v)] := by
  induction d with
  | nil => rfl
  | cons kv rest ih =>
    obtain ⟨k₂, v₂⟩ := kv
    simp only [List.map_cons, List.mem_cons] at h
    push_neg at h
    simp only [dictSet]
    rw [if_neg (Ne.symm h.1), ih h.2]
    simp

theorem foldl_dictSet_acc (kvs : List (String × JValue)) :
    ∀ acc : List (String × JValue),
      (∀ k ∈ kvs.map Prod.fst, k ∉ acc.map Prod.fst) →
      (kvs.map Prod.fst).Nodup →
      kvs.foldl (fun d kv => dictSet d kv.1 kv.2) acc = acc ++ kvs := by
  induction kvs with
  | nil => intro acc _ _; simp
  | cons kv rest ih =>
    intro acc hdisj hnd
    obtain ⟨k, v⟩ := kv
    rw [List.map_cons] at hnd
    have hnd2 := List.nodup_cons.mp hnd
    simp only [List.foldl_cons]
    rw [dictSet_fresh acc k v (hdisj k (by simp))]
    rw [ih (acc ++ [(k, v)]) ?_ ?_]
    · simp
    · intro k₂ hk₂
      intro hmem
      simp only [List.map_append, List.mem_append, List.map_cons, List.map_nil] at hmem
      rcases hmem with hmem | hmem
      · exact hdisj k₂ (by simp [hk₂]) hmem
      · simp only [List.mem_singleton] at hmem
        subst hmem
        exact hnd2.1 hk₂
    · exact hnd2.2

theorem foldl_dictSet_self (kvs : List (String × JValue))
    (hnd : (kvs.map Prod.fst).Nodup) :
    kvs.foldl (fun d kv => dictSet d kv.1 kv.2) [] = kvs := by
  rw [foldl_dictSet_acc kvs [] (by simp) hnd]
  simp

/-! ## Word and number steps of the value scanner -/

theorem dropWord_append (w r : List Char) : dropWord w (w ++ r) = some r := by
  induction w with
  | nil => rfl
  | cons c w ih => simp [dropWord, ih]

theorem numStop_of_head {c : Char} {t : List Char} (h48 : c.toNat < 48 ∨ 57 < c.toNat)
    (hdot : c.toNat ≠ 46) (he : c.toNat ≠ 101) (hE : c.toNat ≠ 69) :
    numStop (c :: t) := by
  refine ⟨?_, ?_, ?_, ?_⟩
  · simp only [isDigitChar, Bool.and_eq_false_iff, decide_eq_false_iff_not]
    omega
  · exact char_ne_lit (n := 46) '.' rfl hdot
  · exact char_ne_lit (n := 101) 'e' rfl he
  · exact char_ne_lit (n := 69) 'E' rfl hE

/-- Dispatch of the value scanner at a number token: the head is a digit or a
minus sign followed by a digit. -/
theorem parseValue_num_step (f : Nat) {cs : List Char} {x : PyFloat} {r : List Char}
    (hd : (∃ c t, cs = c :: t ∧ isDigitChar c = true) ∨
          (∃ d t, cs = '-' :: d :: t ∧ isDigitChar d = true))
    (hnum : parseNumTok cs = some (x, r)) :
    parseValue (f + 1) cs = some (.num x, r) := by
  rcases hd with ⟨c, t, hcs, hdig⟩ | ⟨d, t, hcs, hdig⟩
  · obtain ⟨h1, h2⟩ := isDigitChar_elim hdig
    subst hcs
    conv_lhs => rw [parseValue.eq_def]
    dsimp only
    rw [if_neg (char_ne_lit (n := 34) quoteChar rfl (by omega)),
      if_neg (char_ne_lit (n := 123) lbrace rfl (by omega)),
      if_neg (char_ne_lit (n := 91) '[' rfl (by omega)),
      if_neg (char_ne_lit (n := 110) 'n' rfl (by omega)),
      if_neg (char_ne_lit (n := 116) 't' rfl (by omega)),
      if_neg (char_ne_lit (n := 102) 'f' rfl (by omega)),
      if_neg (char_ne_lit (n := 78) 'N' rfl (by omega)),
      if_neg (char_ne_lit (n := 73) 'I' rfl (by omega)),
      if_neg (char_ne_lit (n := 45) '-' rfl (by omega)),
      hnum]
  · obtain ⟨h1, h2⟩ := isDigitChar_elim hdig
    subst hcs
    conv_lhs => rw [parseValue.eq_def]
    dsimp only
    rw [if_neg (by decide : ¬ ('-' : Char) = quoteChar),
      if_neg (by decide : ¬ ('-' : Char) = lbrace),
      if_neg (by decide : ¬ ('-' : Char) = '['),
      if_neg (by decide : ¬ ('-' : Char) = 'n'),
      if_neg (by decide : ¬ ('-' : Char) = 't'),
      if_neg (by decide : ¬ ('-' : Char) = 'f'),
      if_neg (by decide : ¬ ('-' : Char) = 'N'),
      if_neg (by decide : ¬ ('-' : Char) = 'I'),
      if_pos rfl]
    rw [show dropWord infinityWord (d :: t) = none by
      simp [infinityWord, dropWord, char_ne_lit (a := d) (n := 73) 'I' rfl (by omega)]]
    rw [hnum]

/-! ## The serializer/scanner round-trip -/

mutual

theorem parseValue_dumpV : ∀ (v : JValue), uniqKeysV v → ∀ (r : List Char), numStop r →
    ∀ f, jfuelV v ≤ f → parseValue f (dumpV v ++ r) = some (v, r)
  | .null => by
    intro _ r hr f hf
    cases f with
    | zero => simp [jfuelV] at hf
    | succ f' => rfl
  | .bool true => by
    intro _ r hr f hf
    cases f with
    | zero => simp [jfuelV] at hf
    | succ f' => rfl
  | .bool false => by
    intro _ r hr f hf
    cases f with
    | zero => simp [jfuelV] at hf
    | succ f' => rfl
  | .num (.fin m e) => by
    intro _ r hr f hf
    cases f with
    | zero => simp [jfuelV] at hf
    | succ f' =>
      have hdv : dumpV (JValue.num (PyFloat.fin m e)) = dumpNum (PyFloat.fin m e) := rfl
      apply parseValue_num_step
      · obtain ⟨d, t, hdt, hdig⟩ := dumpNum_fin_body m e
        by_cases hm : m < 0
        · right
          refine ⟨d, t ++ r, ?_, hdig⟩
          rw [hdv, hdt, if_pos hm]
          simp
        · left
          refine ⟨d, t ++ r, ?_, hdig⟩
          rw [hdv, hdt, if_neg hm]
          simp
      · rw [hdv]
        exact parseNumTok_dumpNum m e hr
  | .num .nan => by
    intro _ r hr f hf
    cases f with
    | zero => simp [jfuelV] at hf
    | succ f' => rfl
  | .num .inf => by
    intro _ r hr f hf
    cases f with
    | zero => simp [jfuelV] at hf
    | succ f' => rfl
  | .num .ninf => by
    intro _ r hr f hf
    cases f with
    | zero => simp [jfuelV] at hf
    | succ f' => rfl
  | .str s => by
    intro _ r hr f hf
    cases f with
    | zero => simp [jfuelV] at hf
    | succ f' =>
      have hf' : s.toList.length + 1 ≤ f' := by
        simp only [jfuelV] at hf
        omega
      rw [show dumpV (.str s) ++ r = quoteChar :: (escapeList s.toList ++ (quoteChar :: r))
        from by simp [dumpV]]
      conv_lhs => rw [parseValue.eq_def]
      dsimp only
      rw [if_pos rfl, parseStrBody_escapeList s.toList r f' hf']
      rfl
  | .arr [] => by
    intro _ r hr f hf
    cases f with
    | zero => simp [jfuelV] at hf
    | succ f' => rfl
  | .arr (x :: xs) => by
    intro hu r hr f hf
    cases f with
    | zero => simp [jfuelV] at hf
    | succ f' =>
      have hfe : jfuelElems x xs ≤ f' := by
        simp only [jfuelV] at hf
        omega
      have hu' : uniqKeysV x ∧ uniqKeysL xs := hu
      rw [show dumpV (.arr (x :: xs)) ++ r
        = '[' :: (dumpV x ++ (dumpElems xs ++ (']' :: r))) from by simp [dumpV]]
      conv_lhs => rw [parseValue.eq_def]
      dsimp only
      rw [if_neg (by decide), if_neg (by decide), if_pos rfl, skipWs_dumpV x]
      obtain ⟨c, t, hct, hws, hnbr, _⟩ := dumpV_head x
      rw [hct, List.cons_append]
      dsimp only
      rw [if_neg hnbr, ← List.cons_append, ← hct,
        parseElems_dumpTail x xs hu'.1 hu'.2 r f' hfe]
  | .obj [] => by
    intro _ r hr f hf
    cases f with
    | zero => simp [jfuelV] at hf
    | succ f' => rfl
  | .obj ((k, v) :: kvs) => by
    intro hu r hr f hf
    cases f with
    | zero => simp [jfuelV] at hf
    | succ f' =>
      have hfm : jfuelMembers k v kvs ≤ f' := by
        simp only [jfuelV] at hf
        omega
      have hu' : (k :: kvs.map Prod.fst).Nodup ∧ uniqKeysV v ∧ uniqKeysM kvs :=
        ⟨hu.1, hu.2⟩
      rw [show dumpV (.obj ((k, v) :: kvs)) ++ r
        = lbrace :: (quoteChar :: (escapeList k.toList ++
            ([quoteChar, ':', ' '] ++ (dumpV v ++ (dumpMembers kvs ++ (rbrace :: r))))))
        from by simp [dumpV, dumpKey]]
      conv_lhs => rw [parseValue.eq_def]
      dsimp only
      rw [if_neg (by decide), if_pos rfl, skipWs_cons (by decide)]
      dsimp only
      rw [if_neg (by decide),
        parseMembers_dumpTail k v kvs hu'.2.1 hu'.2.2 r f' hfm]
      dsimp only
      rw [foldl_dictSet_self _ (by simpa using hu'.1)]
termination_by v => sizeOf v
decreasing_by
  all_goals try simp
  all_goals first
    | (have h1 := one_le_sizeOf_list xs; have h2 := one_le_sizeOf_jv x; omega)
    | (have h1 := one_le_sizeOf_list kvs; have h2 := one_le_sizeOf_jv v; omega)
    | omega

theorem parseElems_dumpTail : ∀ (x : JValue) (xs : List JValue),
    uniqKeysV x → uniqKeysL xs → ∀ (r : List Char) (f : Nat), jfuelElems x xs ≤ f →
    parseElems f (dumpV x ++ (dumpElems xs ++ (']' :: r))) = some (x :: xs, r)
  | x, xs => by
    intro hux huxs r f hf
    cases f with
    | zero => rw [jfuelElems] at hf; omega
    | succ f' =>
      rw [jfuelElems] at hf
      have hvx : jfuelV x ≤ f' := by omega
      have htail : jfuelElemsTail xs ≤ f' := by omega
      have hstop : numStop (dumpElems xs ++ (']' :: r)) := by
        cases xs with
        | nil => exact ⟨by decide, by decide, by decide, by decide⟩
        | cons y ys =>
          rw [show dumpElems (y :: ys) ++ (']' :: r)
            = ',' :: (' ' :: (dumpV y ++ (dumpElems ys ++ (']' :: r)))) from by
              simp [dumpElems]]
          exact ⟨by decide, by decide, by decide, by decide⟩
      conv_lhs => rw [parseElems.eq_def]
      dsimp only
      rw [parseValue_dumpV x hux _ hstop f' hvx]
      dsimp only
      cases xs with
      | nil =>
        rw [show dumpElems ([] : List JValue) ++ (']' :: r) = ']' :: r from by
          simp [dumpElems]]
        rw [skipWs_cons (by decide)]
        dsimp only
        rw [if_pos rfl]
      | cons y ys =>
        rw [jfuelElemsTail] at htail
        have huys : uniqKeysV y ∧ uniqKeysL ys := huxs
        rw [show dumpElems (y :: ys) ++ (']' :: r)
          = ',' :: (' ' :: (dumpV y ++ (dumpElems ys ++ (']' :: r)))) from by
            simp [dumpElems]]
        rw [skipWs_cons (by decide)]
        dsimp only
        rw [if_neg (by decide), if_pos rfl, skipWs_space, skipWs_dumpV y,
          parseElems_dumpTail y ys huys.1 huys.2 r f' htail]
termination_by x xs => sizeOf x + sizeOf xs
decreasing_by
  all_goals try simp
  all_goals first
    | (have h1 := one_le_sizeOf_list xs; have h2 := one_le_sizeOf_jv x; omega)
    | (have h1 := one_le_sizeOf_list ys; have h2 := one_le_sizeOf_jv y;
       have h3 := one_le_sizeOf_jv x; omega)
    | omega

theorem parseMembers_dumpTail : ∀ (k : String) (v : JValue)
    (kvs : List (String × JValue)), uniqKeysV v → uniqKeysM kvs →
    ∀ (r : List Char) (f : Nat), jfuelMembers k v kvs ≤ f →
    parseMembers f (quoteChar :: (escapeList k.toList ++
        ([quoteChar, ':', ' '] ++ (dumpV v ++ (dumpMembers kvs ++ (rbrace :: r))))))
      = some ((k, v) :: kvs, r)
  | k, v, kvs => by
    intro huv hum r f hf
    cases f with
    | zero => rw [jfuelMembers] at hf; omega
    | succ f' =>
      rw [jfuelMembers] at hf
      have hkey : k.toList.length + 1 ≤ f' := by omega
      have hval : jfuelV v ≤ f' := by omega
      have htail : jfuelMembersTail kvs ≤ f' := by omega
      have hstop : numStop (dumpMembers kvs ++ (rbrace :: r)) := by
        cases kvs with
        | nil => exact ⟨by decide, by decide, by decide, by decide⟩
        | cons kv kvs' =>
          obtain ⟨k₂, v₂⟩ := kv
          rw [show dumpMembers ((k₂, v₂) :: kvs') ++ (rbrace :: r)
            = ',' :: (' ' :: (dumpKey k₂ ++ dumpV v₂ ++ (dumpMembers kvs' ++ (rbrace :: r))))
            from by simp [dumpMembers]]
          exact ⟨by decide, by decide, by decide, by decide⟩
      conv_lhs => rw [parseMembers.eq_def]
      dsimp only
      rw [if_pos rfl]
      rw [show escapeList k.toList ++
          ([quoteChar, ':', ' '] ++ (dumpV v ++ (dumpMembers kvs ++ (rbrace :: r))))
        = escapeList k.toList ++
          (quoteChar :: (':' :: (' ' :: (dumpV v ++ (dumpMembers kvs ++ (rbrace :: r))))))
        from by simp]
      rw [parseStrBody_escapeList k.toList _ f' hkey]
      dsimp only
      rw [skipWs_cons (by decide)]
      dsimp only
      rw [if_pos rfl, skipWs_space, skipWs_dumpV v,
        parseValue_dumpV v huv _ hstop f' hval]
      dsimp only
      cases kvs with
      | nil =>
        rw [show dumpMembers ([] : List (String × JValue)) ++ (rbrace :: r) = rbrace :: r
          from by simp [dumpMembers]]
        rw [skipWs_cons (by decide)]
        dsimp only
        rw [if_pos rfl]
        rfl
      | cons kv kvs' =>
        obtain ⟨k₂, v₂⟩ := kv
        rw [jfuelMembersTail] at htail
        have hum' : uniqKeysV v₂ ∧ uniqKeysM kvs' := hum
        rw [show dumpMembers ((k₂, v₂) :: kvs') ++ (rbrace :: r)
          = ',' :: (' ' :: (quoteChar :: (escapeList k₂.toList ++
              ([quoteChar, ':', ' '] ++ (dumpV v₂ ++ (dumpMembers kvs' ++ (rbrace :: r)))))))
          from by simp [dumpMembers, dumpKey]]
        rw [skipWs_cons (by decide)]
        dsimp only
        rw [if_neg (by decide), if_pos rfl, skipWs_space, skipWs_cons (by decide),
          parseMembers_dumpTail k₂ v₂ kvs' hum'.1 hum'.2 r f' htail]
        rfl
termination_by k v kvs => sizeOf v + sizeOf kvs
decreasing_by
  all_goals try simp
  all_goals first
    | (have h1 := one_le_sizeOf_list kvs; have h2 := one_le_sizeOf_jv v; omega)
    | (have h1 := one_le_sizeOf_list kvs'; have h2 := one_le_sizeOf_jv v;
       have h3 := one_le_sizeOf_jv v₂; omega)
    | omega

end

/-! ## Fuel is covered by the serialized length -/

theorem escapeChar_length_pos (c : Char) : 1 ≤ (escapeChar c).length := by
  unfold escapeChar
  split_ifs <;> simp

theorem escapeList_length (l : List Char) : l.length ≤ (escapeList l).length := by
  induction l with
  | nil => simp [escapeList]
  | cons c cs ih =>
    have := escapeChar_length_pos c
    simp only [escapeList, List.map_cons, List.flatten_cons, List.length_append,
      List.length_cons] at *
    omega

mutual

theorem jfuelV_le_len : ∀ v : JValue, jfuelV v ≤ (dumpV v).length + 1
  | .null => by simp [jfuelV, dumpV, nullChars]
  | .bool true => by simp [jfuelV, dumpV, trueChars]
  | .bool false => by simp [jfuelV, dumpV, falseChars]
  | .num x => by simp [jfuelV, dumpV]
  | .str s => by
    have := escapeList_length s.toList
    simp only [jfuelV, dumpV, List.length_cons, List.length_append, List.length_cons,
      List.length_nil]
    omega
  | .arr [] => by simp [jfuelV, dumpV]
  | .arr (x :: xs) => by
    have h := jfuelElems_le_len x xs
    simp only [jfuelV, dumpV, List.length_cons, List.length_append, List.length_nil] at *
    omega
  | .obj [] => by simp [jfuelV, dumpV]
  | .obj ((k, v) :: kvs) => by
    have h := jfuelMembers_le_len k v kvs
    simp only [jfuelV, dumpV, List.length_cons, List.length_append, List.length_nil] at *
    omega
termination_by v => sizeOf v
decreasing_by all_goals simp <;> omega

theorem jfuelElems_le_len : ∀ (x : JValue) (xs : List JValue),
    jfuelElems x xs ≤ (dumpV x).length + (dumpElems xs).length + 2
  | x, xs => by
    have h1 := jfuelV_le_len x
    have h2 := jfuelElemsTail_le_len xs
    rw [jfuelElems]
    omega
termination_by x xs => sizeOf x + sizeOf xs
decreasing_by
  all_goals try simp
  all_goals have ha := one_le_sizeOf_list xs
  all_goals have hb := one_le_sizeOf_jv x
  all_goals omega

theorem jfuelElemsTail_le_len : ∀ xs : List JValue,
    jfuelElemsTail xs ≤ (dumpElems xs).length + 1
  | [] => by simp [jfuelElemsTail, dumpElems]
  | y :: ys => by
    have h := jfuelElems_le_len y ys
    simp only [jfuelElemsTail, dumpElems, List.length_cons, List.length_append] at *
    omega
termination_by xs => sizeOf xs
decreasing_by all_goals simp <;> omega

theorem jfuelMembers_le_len : ∀ (k : String) (v : JValue) (kvs : List (String × JValue)),
    jfuelMembers k v kvs ≤ (dumpKey k).length + (dumpV v).length + (dumpMembers kvs).length + 1
  | k, v, kvs => by
    have h1 := jfuelV_le_len v
    have h2 := jfuelMembersTail_le_len kvs
    have h3 := escapeList_length k.toList
    have h4 : (dumpKey k).length = (escapeList k.toList).length + 4 := by
      simp [dumpKey]
    rw [jfuelMembers]
    omega
termination_by k v kvs => sizeOf v + sizeOf kvs
decreasing_by
  all_goals try simp
  all_goals have ha := one_le_sizeOf_list kvs
  all_goals have hb := one_le_sizeOf_jv v
  all_goals omega

theorem jfuelMembersTail_le_len : ∀ kvs : List (String × JValue),
    jfuelMembersTail kvs ≤ (dumpMembers kvs).length + 1
  | [] => by simp [jfuelMembersTail, dumpMembers]
  | (k₂, v₂) :: kvs' => by
    have h := jfuelMembers_le_len k₂ v₂ kvs'
    simp only [jfuelMembersTail, dumpMembers, List.length_cons, List.length_append] at *
    omega
termination_by kvs => sizeOf kvs
decreasing_by all_goals simp <;> omega

end

/-- A serialized value with unique object keys reads back as itself. -/
theorem loads_dumps (v : JValue) (hu : uniqKeysV v) : loads (dumps v) = some v := by
  unfold loads dumps
  rw [show (String.mk (dumpV v)).toList = dumpV v from rfl]
  have hskip : skipWs (dumpV v) = dumpV v := by
    have := skipWs_dumpV v []
    simpa using this
  rw [hskip]
  have hrt := parseValue_dumpV v hu [] trivial ((dumpV v).length + 1)
    (jfuelV_le_len v)
  rw [List.append_nil] at hrt
  rw [hrt]
  rfl

/-! ## The scanner always produces dicts with unique keys -/

theorem dictSet_keys (d : List (String × JValue)) (k : String) (v : JValue) :
    (dictSet d k v).map Prod.fst
      = if k ∈ d.map Prod.fst then d.map Prod.fst else d.map Prod.fst ++ [k] := by
  induction d with
  | nil => simp [dictSet]
  | cons kv rest ih =>
    obtain ⟨k₂, v₂⟩ := kv
    by_cases he : k₂ = k
    · subst he
      simp [dictSet]
    · simp only [dictSet, if_neg he, List.map_cons, ih]
      by_cases hmem : k ∈ rest.map Prod.fst
      · simp [hmem, Ne.symm he]
      · simp [hmem, Ne.symm he]

theorem dictSet_keys_nodup {d : List (String × JValue)} (k : String) (v : JValue)
    (h : (d.map Prod.fst).Nodup) : ((dictSet d k v).map Prod.fst).Nodup := by
  rw [dictSet_keys]
  by_cases hmem : k ∈ d.map Prod.fst
  · rwa [if_pos hmem]
  · rw [if_neg hmem]
    simp [List.nodup_append, h, hmem]

theorem dictSet_uniqM {d : List (String × JValue)} {k : String} {v : JValue}
    (hd : uniqKeysM d) (hv : uniqKeysV v) : uniqKeysM (dictSet d k v) := by
  induction d with
  | nil => exact ⟨hv, trivial⟩
  | cons kv rest ih =>
    obtain ⟨k₂, v₂⟩ := kv
    have hd' : uniqKeysV v₂ ∧ uniqKeysM rest := hd
    by_cases he : k₂ = k
    · subst he
      simp only [dictSet, if_pos rfl]
      exact ⟨hv, hd'.2⟩
    · simp only [dictSet, if_neg he]
      exact ⟨hd'.1, ih hd'.2⟩

theorem foldl_dictSet_uniq (pairs : List (String × JValue)) :
    ∀ acc : List (String × JValue), (acc.map Prod.fst).Nodup → uniqKeysM acc →
      uniqKeysM pairs →
      ((pairs.foldl (fun d kv => dictSet d kv.1 kv.2) acc).map Prod.fst).Nodup ∧
        uniqKeysM (pairs.foldl (fun d kv => dictSet d kv.1 kv.2) acc) := by
  induction pairs with
  | nil => intro acc h1 h2 _; exact ⟨h1, h2⟩
  | cons kv rest ih =>
    intro acc h1 h2 h3
    obtain ⟨k, v⟩ := kv
    have h3' : uniqKeysV v ∧ uniqKeysM rest := h3
    simp only [List.foldl_cons]
    exact ih (dictSet acc k v) (dictSet_keys_nodup k v h1)
      (dictSet_uniqM h2 h3'.1) h3'.2

/-- Everything the value scanner returns satisfies the unique-keys invariant:
Python dicts cannot hold a key twice. -/
theorem parse_uniq (f : Nat) :
    (∀ cs v r, parseValue f cs = some (v, r) → uniqKeysV v) ∧
    (∀ cs xs r, parseElems f cs = some (xs, r) → uniqKeysL xs) ∧
    (∀ cs kvs r, parseMembers f cs = some (kvs, r) → uniqKeysM kvs) := by
  induction f with
  | zero =>
    refine ⟨?_, ?_, ?_⟩ <;> intro cs a r h <;>
      simp [parseValue, parseElems, parseMembers] at h
  | succ f ihf =>
    obtain ⟨ihV, ihE, ihM⟩ := ihf
    refine ⟨?_, ?_, ?_⟩
    · intro cs v r h
      rw [parseValue.eq_def] at h
      dsimp only at h
      split at h
      · exact absurd h (by simp)
      · split at h
        · -- string branch
          split at h
          · cases h
            trivial
          · exact absurd h (by simp)
        · split at h
          · -- object branch
            split at h
            · split at h
              · cases h
                exact ⟨by simp, trivial⟩
              · split at h
                · cases h
                  rename_i x pairs heq
                  have hm := ihM _ _ _ heq
                  have hres := foldl_dictSet_uniq pairs [] (by simp) trivial hm
                  exact ⟨hres.1, hres.2⟩
                · exact absurd h (by simp)
            · exact absurd h (by simp)
          · split at h
            · -- array branch
              split at h
              · split at h
                · cases h
                  trivial
                · split at h
                  · cases h
                    rename_i xs r₂ hmem
                    exact ihE _ _ _ hmem
                  · exact absurd h (by simp)
              · exact absurd h (by simp)
            · split at h
              · split at h
                · cases h
                  trivial
                · exact absurd h (by simp)
              · split at h
                · split at h
                  · cases h
                    trivial
                  · exact absurd h (by simp)
                · split at h
                  · split at h
                    · cases h
                      trivial
                    · exact absurd h (by simp)
                  · split at h
                    · split at h
                      · cases h
                        trivial
                      · exact absurd h (by simp)
                    · split at h
                      · split at h
                        · cases h
                          trivial
                        · exact absurd h (by simp)
                      · split at h
                        · split at h
                          · cases h
                            trivial
                          · split at h
                            · cases h
                              trivial
                            · exact absurd h (by simp)
                        · split at h
                          · cases h
                            trivial
                          · exact absurd h (by simp)
    · intro cs xs r h
      rw [parseElems.eq_def] at h
      dsimp only at h
      split at h
      · exact absurd h (by simp)
      · rename_i v r₁ hv
        have huv := ihV _ _ _ hv
        split at h
        · split at h
          · cases h
            exact ⟨huv, trivial⟩
          · split at h
            · split at h
              · cases h
                rename_i vs r₃ hrest
                exact ⟨huv, ihE _ _ _ hrest⟩
              · exact absurd h (by simp)
            · exact absurd h (by simp)
        · exact absurd h (by simp)
    · intro cs kvs r h
      rw [parseMembers.eq_def] at h
      dsimp only at h
      split at h
      · exact absurd h (by simp)
      · split at h
        · split at h
          · split at h
            · split at h
              · split at h
                · rename_i hv
                  have huv := ihV _ _ _ hv
                  split at h
                  · split at h
                    · cases h
                      exact ⟨huv, trivial⟩
                    · split at h
                      · split at h
                        · cases h
                          rename_i kvs₂ r₇ hrest
                          exact ⟨huv, ihM _ _ _ hrest⟩
                        · exact absurd h (by simp)
                      · exact absurd h (by simp)
                  · exact absurd h (by simp)
                · exact absurd h (by simp)
              · exact absurd h (by simp)
            · exact absurd h (by simp)
          · exact absurd h (by simp)
        · exact absurd h (by simp)

/-! ## Embedding of src/core/utils.py: `parse_number`, `safe_json_parse` and
string helpers -/

/-- Python whitespace for `str.strip()` (ASCII part; the claims never turn on
exotic Unicode whitespace). -/
def isPyWs (c : Char) : Bool :=
  c = ' ' || c = '\t' || c = '\n' || c = '\r' || c = Char.ofNat 11 || c = Char.ofNat 12

def pyStripL (cs : List Char) : List Char :=
  ((cs.dropWhile isPyWs).reverse.dropWhile isPyWs).reverse

/-- Python `str.strip()`. -/
def pyStrip (s : String) : String := String.mk (pyStripL s.toList)

/-- ASCII lowering, the effective part of Python `str.lower()` for this
repository's vocabulary (non-ASCII letters in it are unaffected by lowering). -/
def lowerChar (c : Char) : Char :=
  if 65 ≤ c.toNat && c.toNat ≤ 90 then Char.ofNat (c.toNat + 32) else c

def pyLower (s : String) : String := String.mk (s.toList.map lowerChar)

/-- Python `float(str)` on a literal: optional sign, `inf`/`infinity`/`nan`
case-insensitively, or decimal digits with optional fraction and exponent
(digit-group underscores are not modelled). -/
def pyFloatOfString (s : String) : Option PyFloat :=
  let cs := pyStripL s.toList
  let signSplit : Bool × List Char :=
    match cs with
    | c :: r => if c = '-' then (true, r) else if c = '+' then (false, r) else (false, cs)
    | [] => (false, [])
  let neg := signSplit.1
  let low := signSplit.2.map lowerChar
  if low = ("inf").toList || low = ("infinity").toList then
    some (if neg then .ninf else .inf)
  else if low = ("nan").toList then some .nan
  else
    let body := signSplit.2
    let intDs := body.takeWhile isDigitChar
    let rest₁ := body.dropWhile isDigitChar
    let fracSplit : Option (List Char × List Char) :=
      match rest₁ with
      | p :: r₂ =>
        if p = '.' then some (r₂.takeWhile isDigitChar, r₂.dropWhile isDigitChar)
        else some ([], rest₁)
      | [] => some ([], [])
    match fracSplit with
    | none => none
    | some (fracDs, rest₂) =>
      if intDs.isEmpty && fracDs.isEmpty then none
      else
        let expSplit : Option (Int × List Char) :=
          match rest₂ with
          | p :: r₃ =>
            if p = 'e' || p = 'E' then
              let esign : Bool × List Char :=
                match r₃ with
                | q :: r₄ =>
                  if q = '-' then (true, r₄)
                  else if q = '+' then (false, r₄)
                  else (false, q :: r₄)
                | [] => (false, [])
              let ds := esign.2.takeWhile isDigitChar
              if ds.isEmpty then none
              else
                let mag : Int := (digitsVal ds : Int)
                some (if esign.1 then -mag else mag, esign.2.dropWhile isDigitChar)
            else none
          | [] => some (0, [])
        match expSplit with
        | none => none
        | some (k, rest₃) =>
          if rest₃.isEmpty then some (mkNum neg intDs fracDs k) else none

/-- Keep a converted number unless it is an infinity (`core/utils.py`
`parse_number`: `num if num != inf and num != -inf else fallback`). -/
def keepUnlessInf (x fallback : PyFloat) : PyFloat :=
  if !(pyEqF x .inf) && !(pyEqF x .ninf) then x else fallback

/-- Model of `parse_number(value, fallback)`: `float(value)` with the fallback
on conversion failure, and infinities replaced by the fallback. -/
def parse_number (value : Option JValue) (fallback : PyFloat) : PyFloat :=
  match value with
  | none => fallback
  | some (.num x) => keepUnlessInf x fallback
  | some (.bool b) => keepUnlessInf (.fin (if b then 1 else 0) 0) fallback
  | some (.str s) =>
    match pyFloatOfString s with
    | some x => keepUnlessInf x fallback
    | none => fallback
  | some _ => fallback

/-- Model of `safe_json_parse`. -/
def safe_json_parse (s : String) : Option JValue := loads s

/-! ## Embedding of src/services/json_parser.py -/

/-- Find the first index at which the pattern occurs (`str.find`). -/
def findSubFrom (pat : List Char) : List Char → Nat → Option Nat
  | [], i => if pat.isEmpty then some i else none
  | c :: rest, i =>
    if pat.isPrefixOf (c :: rest) then some i else findSubFrom pat rest (i + 1)

def findSub (pat cs : List Char) : Option Nat := findSubFrom pat cs 0

/-- Find the last index at which the pattern occurs (`str.rfind`). -/
def rfindSub (pat cs : List Char) : Option Nat :=
  match findSub pat.reverse cs.reverse with
  | some i => some (cs.length - pat.length - i)
  | none => none

/-- Model of `_strip_json_code_fence`. -/
def stripJsonCodeFence (raw : String) : Option String :=
  if raw = "" then none
  else
    let text := pyStripL raw.toList
    if text.isEmpty then none
    else
      let fence : List Char := ['`', '`', '`']
      let text₂ :=
        if fence.isPrefixOf text then
          match findSub ['\n'] text with
          | some firstLineEnd =>
            let fenceLabel := pyLower (String.mk (pyStripL ((text.drop 3).take (firstLineEnd - 3))))
            if fenceLabel = "" || fenceLabel = "json" || fenceLabel = "javascript" then
              match rfindSub fence text with
              | some closing =>
                if firstLineEnd < closing then
                  pyStripL ((text.drop (firstLineEnd + 1)).take (closing - (firstLineEnd + 1)))
                else text
              | none => text
            else text
          | none => text
        else text
      if text₂.isEmpty then none else some (String.mk text₂)

/-- Whitespace of the Python regex class `\s` used by the repair step. -/
def isReWs (c : Char) : Bool :=
  c = ' ' || c = '\t' || c = '\n' || c = '\r' || c = Char.ofNat 11 || c = Char.ofNat 12

/-- Model of `re.sub(r",(\s*[}\]])", r"\1", text)`: drop every comma directly
preceding (up to whitespace) a closing brace or bracket, scanning left to
right. -/
def removeTrailingCommas : List Char → List Char
  | [] => []
  | c :: rest =>
    if c = ',' then
      match hsplit : rest.dropWhile isReWs with
      | b :: tail =>
        if b = rbrace || b = ']' then
          rest.takeWhile isReWs ++ b :: removeTrailingCommas tail
        else c :: removeTrailingCommas rest
      | [] => c :: removeTrailingCommas rest
    else c :: removeTrailingCommas rest
termination_by cs => cs.length
decreasing_by
  · have h1 : (r₂.dropWhile isReWs).length ≤ r₂.length :=
      (List.dropWhile_sublist isReWs).length_le
    rw [hsplit] at h1
    simp at h1 ⊢
    omega
  · simp
  · simp
  · simp

/-- Model of `_attempt_repair`: trim, cut to the first opening brace, append a
closing brace if missing, drop trailing commas, decode strictly. -/
def attemptRepair (raw : String) : Option JValue :=
  let text := pyStripL raw.toList
  let text₂ :=
    if (text.head? = some lbrace : Bool) then text
    else
      match findSub [lbrace] text with
      | some firstBrace => text.drop firstBrace
      | none => text
  let text₃ := if (text₂.getLast? = some rbrace : Bool) then text₂ else text₂ ++ [rbrace]
  let text₄ := removeTrailingCommas text₃
  loads (String.mk text₄)

/-- Model of `_parse_with_repair`.  A decoded JSON `null` is Python `None`,
which the source cannot tell apart from a parse failure, so it falls through
to the repair attempt. -/
def parseWithRepair (raw : String) : Option JValue :=
  match stripJsonCodeFence raw with
  | none => none
  | some s =>
    match safe_json_parse s with
    | some .null => attemptRepair s
    | some v => some v
    | none => attemptRepair s

def truthyOpt : Option JValue → Bool
  | none => false
  | some v => v.truthy

def scoreKeys : List String := ["primary_score", "sub_score", "process_score"]
def aesKeys : List String := ["aes_clarity", "aes_logic", "aes_relevance"]

/-- One run of the score-validation loop in `parse_pm01_raw_response` /
`parse_pm05_raw_response`: for each key, `parse_number(parsed.get(k), nan)`,
reject when `score == nan` (a comparison that is never true in Python) or the
score is below 1.0 or above 5.0, otherwise store `round(score, 1)`. -/
def validateNumKeys : List String → List (String × JValue) → Option (List (String × JValue))
  | [], kvs => some kvs
  | key :: rest, kvs =>
    let score := parse_number (jGet kvs key) .nan
    if pyEqF score .nan then none
    else if pyLt score (.fin 1 0) then none
    else if pyGt score (.fin 5 0) then none
    else validateNumKeys rest (dictSet kvs key (.num (pyRoundF score 1)))

/-- Body of `parse_pm01_raw_response` after the decode step succeeded with a
dict. -/
def pm01RawBody (question_number : Int) (kvs : List (String × JValue)) : Option JValue :=
  if !(JValue.obj kvs).truthy then none
  else
    match validateNumKeys scoreKeys kvs with
    | none => none
    | some kvs₂ =>
      match validateNumKeys aesKeys kvs₂ with
      | none => none
      | some kvs₃ =>
        if !(truthyOpt (jGet kvs₃ "evidence")) ||
           !(truthyOpt (jGet kvs₃ "judgment_reason")) then none
        else some (.obj (dictSet kvs₃ "question_number" (.num (.fin question_number 0))))

/-- Model of `JsonParser.parse_pm01_raw_response`. -/
def parse_pm01_raw_response (raw : String) (question_number : Int) : Option JValue :=
  match parseWithRepair raw with
  | some (.obj kvs) => pm01RawBody question_number kvs
  | _ => none

/-- Body of `parse_pm05_raw_response` after the decode step succeeded with a
dict. -/
def pm05RawBody (question_number : Int) (kvs : List (String × JValue)) : Option JValue :=
  if !(JValue.obj kvs).truthy then none
  else
    match validateNumKeys scoreKeys kvs with
    | none => none
    | some kvs₂ =>
      if !(truthyOpt (jGet kvs₂ "difference_note")) then none
      else some (.obj (dictSet kvs₂ "question_number" (.num (.fin question_number 0))))

/-- Model of `JsonParser.parse_pm05_raw_response`. -/
def parse_pm05_raw_response (raw : String) (question_number : Int) : Option JValue :=
  match parseWithRepair raw with
  | some (.obj kvs) => pm05RawBody question_number kvs
  | _ => none

def isOfficialLevel : JValue → Bool
  | .str s => s = "基礎" || s = "標準" || s = "高度"
  | _ => false

/-- The Python local `ai_use_level = parsed.get('ai_use_level', '')`. -/
def getAiUseLevel (kvs : List (String × JValue)) : JValue :=
  match jGet kvs "ai_use_level" with
  | some v => v
  | none => .str ""

/-- `if ai_use_level not in [...]: parsed['ai_use_level'] = '標準'`. -/
def fixAiUseLevel (kvs : List (String × JValue)) : List (String × JValue) :=
  if isOfficialLevel (getAiUseLevel kvs) then kvs
  else dictSet kvs "ai_use_level" (.str "標準")

/-- `if 'recommendations' not in parsed or not isinstance(..., list):
parsed['recommendations'] = []`. -/
def fixRecommendations (kvs : List (String × JValue)) : List (String × JValue) :=
  match jGet kvs "recommendations" with
  | some (.arr _) => kvs
  | _ => dictSet kvs "recommendations" (.arr [])

/-- Body of `parse_pm01_final_response` after the decode step succeeded with a
dict. -/
def pm01FinalBody (kvs : List (String × JValue)) : Option JValue :=
  if !(JValue.obj kvs).truthy then none
  else if !(truthyOpt (jGet kvs "overall_summary")) then none
  else some (.obj (fixRecommendations (fixAiUseLevel kvs)))

/-- Model of `JsonParser.parse_pm01_final_response`. -/
def parse_pm01_final_response (raw : String) : Option JValue :=
  match parseWithRepair raw with
  | some (.obj kvs) => pm01FinalBody kvs
  | _ => none

def jpStatuses : List String := ["妥当", "注意", "再評価"]

/-- The Python local `detected = parsed.get('detected_issues',
parsed.get('issues', []))`. -/
def getDetectedIssues (kvs : List (String × JValue)) : JValue :=
  match jGet kvs "detected_issues" with
  | some v => v
  | none =>
    match jGet kvs "issues" with
    | some v => v
    | none => .arr []

/-- `detected if isinstance(detected, list) else []`. -/
def coerceList : JValue → JValue
  | .arr xs => .arr xs
  | _ => .arr []

/-- The Python local `comment = parsed.get('comment', parsed.get('summary',
''))`. -/
def getComment (kvs : List (String × JValue)) : JValue :=
  match jGet kvs "comment" with
  | some v => v
  | none =>
    match jGet kvs "summary" with
    | some v => v
    | none => .str ""

/-- The comment check and assignment closing `parse_pm05_final_response`. -/
def pm05FinalComment (kvs₄ : List (String × JValue)) : Option JValue :=
  if !(getComment kvs₄).truthy then none
  else some (.obj (dictSet kvs₄ "comment" (getComment kvs₄)))

/-- The tail of `parse_pm05_final_response` after the status step:
`detected_issues` (also accepting `issues`) coerced to a list, then the
required `comment` (also accepting `summary`). -/
def pm05FinalRest (kvs₃ : List (String × JValue)) : Option JValue :=
  pm05FinalComment (dictSet kvs₃ "detected_issues" (coerceList (getDetectedIssues kvs₃)))

/-- The Python local `status = parsed.get('status', '')`. -/
def getStatusJ (kvs : List (String × JValue)) : JValue :=
  match jGet kvs "status" with
  | some v => v
  | none => .str ""

/-- `status_lower in status_map`. -/
def isMappedStatus (s : String) : Bool :=
  s = "valid" || s = "caution" || s = "re-evaluate" || s = "reevaluate"

/-- `status_map[status_lower]`. -/
def mapStatus (s : String) : String :=
  if s = "valid" then "妥当"
  else if s = "caution" then "注意"
  else "再評価"

/-- The status normalisation step of `parse_pm05_final_response`. -/
def pm05FinalStatusStep (kvs₂ : List (String × JValue)) : Option JValue :=
  match getStatusJ kvs₂ with
  | .str status =>
    if isMappedStatus (pyLower status) then
      pm05FinalRest (dictSet kvs₂ "status" (.str (mapStatus (pyLower status))))
    else if !(jpStatuses.contains status) then none
    else pm05FinalRest (dictSet kvs₂ "status" (.str status))
  | _ => none

/-- Body of `parse_pm05_final_response` after the decode step succeeded with a
dict. -/
def pm05FinalBody (kvs : List (String × JValue)) : Option JValue :=
  if !(JValue.obj kvs).truthy then none
  else
    if pyEqF (parse_number (jGet kvs "consistency_score") .nan) .nan then none
    else if pyLt (parse_number (jGet kvs "consistency_score") .nan) (.fin 0 0) then none
    else if pyGt (parse_number (jGet kvs "consistency_score") .nan) (.fin 1 0) then none
    else
      pm05FinalStatusStep (dictSet kvs "consistency_score"
        (.num (pyRoundF (parse_number (jGet kvs "consistency_score") .nan) 2)))

/-- Model of `JsonParser.parse_pm05_final_response`.  A non-string `status`
makes the source raise `AttributeError` at `status.lower()`; the model returns
`none` for those inputs (both are non-success). -/
def parse_pm05_final_response (raw : String) : Option JValue :=
  match parseWithRepair raw with
  | some (.obj kvs) => pm05FinalBody kvs
  | _ => none

/-! ## Dictionary and rounding lemmas for the validator fixpoints -/

theorem jGet_dictSet_self (d : List (String × JValue)) (k : String) (v : JValue) :
    jGet (dictSet d k v) k = some v := by
  induction d with
  | nil => simp [dictSet, jGet]
  | cons kv rest ih =>
    obtain ⟨k₂, v₂⟩ := kv
    by_cases he : k₂ = k
    · subst he
      simp [dictSet, jGet]
    · simp [dictSet, jGet, he, ih]

theorem jGet_dictSet_ne (d : List (String × JValue)) (k k' : String) (v : JValue)
    (h : k ≠ k') : jGet (dictSet d k v) k' = jGet d k' := by
  induction d with
  | nil => simp [dictSet, jGet, h]
  | cons kv rest ih =>
    obtain ⟨k₂, v₂⟩ := kv
    by_cases he : k₂ = k
    · subst he
      simp [dictSet, jGet, h]
    · simp [dictSet, jGet, he, ih]

theorem dictSet_get_self (d : List (String × JValue)) (k : String) (v : JValue)
    (h : jGet d k = some v) : dictSet d k v = d := by
  induction d with
  | nil => simp [jGet] at h
  | cons kv rest ih =>
    obtain ⟨k₂, v₂⟩ := kv
    by_cases he : k₂ = k
    · subst he
      simp [jGet] at h
      simp [dictSet, h]
    · simp [jGet, he] at h
      simp [dictSet, he, ih h]

theorem truthy_of_jGet {d : List (String × JValue)} {k : String} {v : JValue}
    (h : jGet d k = some v) : (JValue.obj d).truthy = true := by
  cases d with
  | nil => simp [jGet] at h
  | cons kv rest => simp [JValue.truthy]

/-- Everything `loads` accepts satisfies the unique-keys invariant. -/
theorem loads_uniq (s : String) (v : JValue) (h : loads s = some v) : uniqKeysV v := by
  unfold loads at h
  split at h
  · rename_i v' rest heq
    split at h
    · cases h
      exact (parse_uniq _).1 _ _ _ heq
    · exact absurd h (by simp)
  · exact absurd h (by simp)

theorem attemptRepair_eq_loads (raw : String) : ∃ s, attemptRepair raw = loads s :=
  ⟨_, rfl⟩

theorem parseWithRepair_uniq (raw : String) (v : JValue)
    (h : parseWithRepair raw = some v) : uniqKeysV v := by
  unfold parseWithRepair at h
  split at h
  · exact absurd h (by simp)
  · rename_i s heq
    split at h
    · obtain ⟨s', he⟩ := attemptRepair_eq_loads s
      rw [he] at h
      exact loads_uniq _ _ h
    · rename_i v' heq2
      cases h
      exact loads_uniq _ _ heq2
    · obtain ⟨s', he⟩ := attemptRepair_eq_loads s
      rw [he] at h
      exact loads_uniq _ _ h

theorem roundHalfEven_intCast (m : Int) : roundHalfEven (m : Rat) = m := by
  unfold roundHalfEven
  norm_num

theorem roundHalfEven_bounds (q : Rat) :
    q - 1 / 2 ≤ (roundHalfEven q : Rat) ∧ (roundHalfEven q : Rat) ≤ q + 1 / 2 := by
  unfold roundHalfEven
  dsimp only
  have hf : ((Int.floor q : Int) : Rat) ≤ q := Int.floor_le q
  have hf2 : q < (Int.floor q : Int) + 1 := Int.lt_floor_add_one q
  split_ifs with h1 h2 h3 <;> constructor <;> push_cast <;> linarith

/-- NaN is `==`-equal to nothing, itself included. -/
theorem pyEqF_nan_right (x : PyFloat) : pyEqF x .nan = false := by
  cases x <;> rfl

theorem pyLt_nan_left (y : PyFloat) : pyLt .nan y = false := by
  cases y <;> rfl

theorem pyLt_nan_right (x : PyFloat) : pyLt x .nan = false := by
  cases x <;> rfl

theorem keepUnlessInf_nan_shape (x : PyFloat) :
    (∃ m e, keepUnlessInf x .nan = .fin m e) ∨ keepUnlessInf x .nan = .nan := by
  cases x <;> simp [keepUnlessInf, pyEqF]

/-- `parse_number(·, nan)` returns a finite value or NaN, never an infinity. -/
theorem parse_number_nan_shape (ov : Option JValue) :
    (∃ m e, parse_number ov .nan = .fin m e) ∨ parse_number ov .nan = .nan := by
  unfold parse_number
  split
  · exact Or.inr rfl
  · exact keepUnlessInf_nan_shape _
  · exact keepUnlessInf_nan_shape _
  · split
    · exact keepUnlessInf_nan_shape _
    · exact Or.inr rfl
  · exact Or.inr rfl

theorem keepUnlessInf_fin (m : Int) (e : Nat) (fb : PyFloat) :
    keepUnlessInf (.fin m e) fb = .fin m e := rfl

theorem keepUnlessInf_nan (fb : PyFloat) : keepUnlessInf .nan fb = .nan := rfl

/-- `parse_number` is the identity on a stored finite numeric value. -/
theorem parse_number_num_fin (m : Int) (e : Nat) (fb : PyFloat) :
    parse_number (some (.num (.fin m e))) fb = .fin m e := rfl

theorem parse_number_num_nan (fb : PyFloat) :
    parse_number (some (.num .nan)) fb = .nan := rfl

theorem pyRoundF_nan (n : Nat) : pyRoundF .nan n = .nan := rfl

/-- The integer-pair rounding agrees with the rational one. -/
theorem roundHalfEvenInt_eq (a : Int) (d : Nat) (hd : 0 < d) :
    roundHalfEvenInt a d = roundHalfEven ((a : Rat) / (d : Nat)) := by
  have hdq : (0 : Rat) < (d : Nat) := by exact_mod_cast hd
  have hfl : Int.floor ((a : Rat) / ((d : Nat) : Rat)) = a / (d : Int) :=
    Rat.floor_intCast_div_natCast a d
  unfold roundHalfEvenInt roundHalfEven
  dsimp only
  rw [hfl]
  have hr : ((a - a / (d : Int) * (d : Int) : Int) : Rat) / ((d : Nat) : Rat)
      = (a : Rat) / ((d : Nat) : Rat) - ((a / (d : Int) : Int) : Rat) := by
    push_cast
    field_simp
    ring
  have c1 : (2 * (a - a / (d : Int) * (d : Int)) < (d : Int))
      ↔ ((a : Rat) / ((d : Nat) : Rat) - ((a / (d : Int) : Int) : Rat) < 1 / 2) := by
    rw [← hr, div_lt_iff hdq]
    constructor
    · intro h
      have h2 : ((2 * (a - a / (d : Int) * (d : Int)) : Int) : Rat) < ((d : Nat) : Rat) := by
        exact_mod_cast h
      push_cast at h2 ⊢
      linarith
    · intro h
      have h2 : ((2 * (a - a / (d : Int) * (d : Int)) : Int) : Rat) < ((d : Nat) : Rat) := by
        push_cast at h ⊢
        linarith
      exact_mod_cast h2
  have c2 : ((d : Int) < 2 * (a - a / (d : Int) * (d : Int)))
      ↔ (1 / 2 < (a : Rat) / ((d : Nat) : Rat) - ((a / (d : Int) : Int) : Rat)) := by
    rw [← hr, lt_div_iff hdq]
    constructor
    · intro h
      have h2 : ((d : Nat) : Rat) < ((2 * (a - a / (d : Int) * (d : Int)) : Int) : Rat) := by
        exact_mod_cast h
      push_cast at h2 ⊢
      linarith
    · intro h
      have h2 : ((d : Nat) : Rat) < ((2 * (a - a / (d : Int) * (d : Int)) : Int) : Rat) := by
        push_cast at h ⊢
        linarith
      exact_mod_cast h2
  by_cases h1 : 2 * (a - a / (d : Int) * (d : Int)) < (d : Int)
  · rw [if_pos h1, if_pos (c1.mp h1)]
  · rw [if_neg h1, if_neg (fun hc => h1 (c1.mpr hc))]
    by_cases h2 : (d : Int) < 2 * (a - a / (d : Int) * (d : Int))
    · rw [if_pos h2, if_pos (c2.mp h2)]
    · rw [if_neg h2, if_neg (fun hc => h2 (c2.mpr hc))]

theorem pyRoundF_fin (m : Int) (e n : Nat) :
    pyRoundF (.fin m e) n = .fin (roundHalfEven ((m : Rat) * 10 ^ n / 10 ^ e)) n := by
  show PyFloat.fin (roundHalfEvenInt (m * 10 ^ n) (10 ^ e)) n = _
  rw [roundHalfEvenInt_eq _ _ (by positivity)]
  have hc : ((m * 10 ^ n : Int) : Rat) / ((10 ^ e : Nat) : Rat)
      = (m : Rat) * 10 ^ n / 10 ^ e := by
    push_cast
    ring
  rw [hc]

/-- Rounding an exact `n`-digit decimal to `n` digits changes nothing. -/
theorem pyRoundF_idem (m : Int) (n : Nat) : pyRoundF (.fin m n) n = .fin m n := by
  rw [pyRoundF_fin]
  have h10 : ((10 : Rat) ^ n) ≠ 0 := by positivity
  rw [mul_div_assoc, div_self h10, mul_one, roundHalfEven_intCast]

theorem pyLt_fin_fin (m₁ : Int) (e₁ : Nat) (m₂ : Int) (e₂ : Nat) :
    pyLt (.fin m₁ e₁) (.fin m₂ e₂)
      = decide ((PyFloat.fin m₁ e₁).toRat < (PyFloat.fin m₂ e₂).toRat) := by
  have h : (m₁ * 10 ^ e₂ < m₂ * 10 ^ e₁)
      ↔ ((PyFloat.fin m₁ e₁).toRat < (PyFloat.fin m₂ e₂).toRat) := by
    simp only [PyFloat.toRat]
    rw [div_lt_div_iff (by positivity) (by positivity)]
    constructor
    · intro hl
      have h2 : ((m₁ * 10 ^ e₂ : Int) : Rat) < ((m₂ * 10 ^ e₁ : Int) : Rat) := by
        exact_mod_cast hl
      push_cast at h2 ⊢
      linarith
    · intro hl
      have h2 : ((m₁ * 10 ^ e₂ : Int) : Rat) < ((m₂ * 10 ^ e₁ : Int) : Rat) := by
        push_cast at hl ⊢
        linarith
      exact_mod_cast h2
  show decide (m₁ * 10 ^ e₂ < m₂ * 10 ^ e₁) = _
  exact decide_eq_decide.mpr h

theorem pyEqF_fin_fin (m₁ : Int) (e₁ : Nat) (m₂ : Int) (e₂ : Nat) :
    pyEqF (.fin m₁ e₁) (.fin m₂ e₂)
      = decide ((PyFloat.fin m₁ e₁).toRat = (PyFloat.fin m₂ e₂).toRat) := by
  have h : (m₁ * 10 ^ e₂ = m₂ * 10 ^ e₁)
      ↔ ((PyFloat.fin m₁ e₁).toRat = (PyFloat.fin m₂ e₂).toRat) := by
    simp only [PyFloat.toRat]
    rw [div_eq_div_iff (by positivity) (by positivity)]
    constructor
    · intro hl
      have h2 : ((m₁ * 10 ^ e₂ : Int) : Rat) = ((m₂ * 10 ^ e₁ : Int) : Rat) := by
        exact_mod_cast hl
      push_cast at h2 ⊢
      linarith
    · intro hl
      have h2 : ((m₁ * 10 ^ e₂ : Int) : Rat) = ((m₂ * 10 ^ e₁ : Int) : Rat) := by
        push_cast at hl ⊢
        linarith
      exact_mod_cast h2
  show decide (m₁ * 10 ^ e₂ = m₂ * 10 ^ e₁) = _
  exact decide_eq_decide.mpr h

/-- A value that passed a `lo ≤ · ≤ hi` check (with integer endpoints) still
passes it after rounding to `n` decimal digits. -/
theorem pyRoundF_range (m : Int) (e : Nat) (n : Nat) (lo hi : Int)
    (hlo : pyLt (.fin m e) (.fin lo 0) = false)
    (hhi : pyGt (.fin m e) (.fin hi 0) = false) :
    pyLt (pyRoundF (.fin m e) n) (.fin lo 0) = false ∧
      pyGt (pyRoundF (.fin m e) n) (.fin hi 0) = false := by
  rw [pyRoundF_fin]
  rw [pyLt_fin_fin, decide_eq_false_iff_not, not_lt] at hlo
  rw [pyGt, pyLt_fin_fin, decide_eq_false_iff_not, not_lt] at hhi
  simp only [PyFloat.toRat, pow_zero, div_one] at hlo hhi
  have hn : (0 : Rat) < 10 ^ n := by positivity
  have hqe : (m : Rat) * 10 ^ n / 10 ^ e = ((m : Rat) / 10 ^ e) * 10 ^ n := by ring
  have hb := roundHalfEven_bounds ((m : Rat) * 10 ^ n / 10 ^ e)
  have hqlo : (lo : Rat) * 10 ^ n ≤ (m : Rat) * 10 ^ n / 10 ^ e := by
    rw [hqe]
    exact mul_le_mul_of_nonneg_right hlo hn.le
  have hqhi : (m : Rat) * 10 ^ n / 10 ^ e ≤ (hi : Rat) * 10 ^ n := by
    rw [hqe]
    exact mul_le_mul_of_nonneg_right hhi hn.le
  have hMlo : lo * 10 ^ n ≤ roundHalfEven ((m : Rat) * 10 ^ n / 10 ^ e) := by
    by_contra hc
    push_neg at hc
    have hc2 : (roundHalfEven ((m : Rat) * 10 ^ n / 10 ^ e) : Rat)
        ≤ ((lo * 10 ^ n : Int) : Rat) - 1 := by
      exact_mod_cast Int.le_sub_one_of_lt hc
    push_cast at hc2
    linarith [hb.1]
  have hMhi : roundHalfEven ((m : Rat) * 10 ^ n / 10 ^ e) ≤ hi * 10 ^ n := by
    by_contra hc
    push_neg at hc
    have hc2 : ((hi * 10 ^ n : Int) : Rat) + 1
        ≤ (roundHalfEven ((m : Rat) * 10 ^ n / 10 ^ e) : Rat) := by
      exact_mod_cast Int.add_one_le_of_lt hc
    push_cast at hc2
    linarith [hb.2]
  have hcastlo : ((lo * 10 ^ n : Int) : Rat)
      ≤ (roundHalfEven ((m : Rat) * 10 ^ n / 10 ^ e) : Rat) := by exact_mod_cast hMlo
  have hcasthi : (roundHalfEven ((m : Rat) * 10 ^ n / 10 ^ e) : Rat)
      ≤ ((hi * 10 ^ n : Int) : Rat) := by exact_mod_cast hMhi
  push_cast at hcastlo hcasthi
  constructor
  · rw [pyLt_fin_fin, decide_eq_false_iff_not, not_lt]
    simp only [PyFloat.toRat, pow_zero, div_one]
    rw [le_div_iff hn]
    linarith
  · rw [pyGt, pyLt_fin_fin, decide_eq_false_iff_not, not_lt]
    simp only [PyFloat.toRat, pow_zero, div_one]
    rw [div_le_iff hn]
    linarith

/-- The score loop preserves key uniqueness. -/
theorem validateNumKeys_uniq : ∀ (keys : List String) (kvs out : List (String × JValue)),
    (kvs.map Prod.fst).Nodup → uniqKeysM kvs → validateNumKeys keys kvs = some out →
    (out.map Prod.fst).Nodup ∧ uniqKeysM out := by
  intro keys
  induction keys with
  | nil =>
    intro kvs out h1 h2 h
    cases h
    exact ⟨h1, h2⟩
  | cons key rest ih =>
    intro kvs out h1 h2 h
    rw [validateNumKeys.eq_def] at h
    dsimp only at h
    split at h
    · exact absurd h (by simp)
    · split at h
      · exact absurd h (by simp)
      · split at h
        · exact absurd h (by simp)
        · exact ih _ _ (dictSet_keys_nodup _ _ h1) (dictSet_uniqM h2 (by simp [uniqKeysV])) h

/-- Re-running the numeric-key validation loop on its own output is the
identity, and keys outside the loop keep their bindings. -/
theorem validateNumKeys_fix : ∀ (keys : List String), keys.Nodup →
    ∀ kvs out, validateNumKeys keys kvs = some out →
      (∀ k, k ∉ keys → jGet out k = jGet kvs k) ∧
      (∀ d, (∀ k, k ∈ keys → jGet d k = jGet out k) → validateNumKeys keys d = some d) := by
  intro keys
  induction keys with
  | nil =>
    intro _ kvs out h
    cases h
    exact ⟨fun _ _ => rfl, fun _ _ => rfl⟩
  | cons key rest ih =>
    intro hnd kvs out h
    rw [List.nodup_cons] at hnd
    rw [validateNumKeys.eq_def] at h
    dsimp only at h
    split at h
    · exact absurd h (by simp)
    · split at h
      · exact absurd h (by simp)
      · split at h
        · exact absurd h (by simp)
        · rename_i hnan hlo hhi
          rw [Bool.not_eq_true] at hnan hlo hhi
          obtain ⟨hpres, hfix⟩ := ih hnd.2 _ _ h
          have hkey : jGet out key
              = some (.num (pyRoundF (parse_number (jGet kvs key) .nan) 1)) := by
            rw [hpres key hnd.1, jGet_dictSet_self]
          refine ⟨?_, ?_⟩
          · intro k hk
            rw [List.mem_cons] at hk
            push_neg at hk
            rw [hpres k hk.2, jGet_dictSet_ne _ _ _ _ (Ne.symm hk.1)]
          · intro d hd
            have hdkey : jGet d key
                = some (.num (pyRoundF (parse_number (jGet kvs key) .nan) 1)) := by
              rw [hd key (List.mem_cons_self _ _), hkey]
            have hdrest : ∀ k, k ∈ rest → jGet d k = jGet out k := by
              intro k hk
              exact hd k (List.mem_cons_of_mem _ hk)
            rw [validateNumKeys.eq_def]
            dsimp only
            rcases parse_number_nan_shape (jGet kvs key) with ⟨m, e, hs⟩ | hs
            · rw [hs] at hdkey hlo hhi
              rw [hdkey, pyRoundF_fin, parse_number_num_fin]
              obtain ⟨hlo2, hhi2⟩ := pyRoundF_range m e 1 1 5 hlo hhi
              rw [pyRoundF_fin] at hlo2 hhi2
              rw [pyEqF_nan_right, hlo2, hhi2]
              simp only [Bool.false_eq_true, if_false]
              have hidem := pyRoundF_idem (roundHalfEven ((m : Rat) * 10 ^ 1 / 10 ^ e)) 1
              rw [hidem]
              rw [dictSet_get_self _ _ _ (by rw [hdkey, pyRoundF_fin])]
              exact hfix d hdrest
            · rw [hs] at hdkey
              rw [hdkey, pyRoundF_nan, parse_number_num_nan]
              rw [pyEqF_nan_right, pyLt_nan_left]
              have hgt : pyGt PyFloat.nan (.fin 5 0) = false := pyLt_nan_right _
              rw [pyGt] at hgt ⊢
              rw [hgt]
              simp only [Bool.false_eq_true, if_false]
              rw [pyRoundF_nan]
              rw [dictSet_get_self _ _ _ (by rw [hdkey, pyRoundF_nan])]
              exact hfix d hdrest

/-! ## A serialized object survives the fence stripper untouched -/

theorem dumpV_obj_shape (kvs : List (String × JValue)) :
    ∃ t, dumpV (.obj kvs) = lbrace :: (t ++ [rbrace]) := by
  cases kvs with
  | nil => exact ⟨[], rfl⟩
  | cons kv rest =>
    obtain ⟨k, v⟩ := kv
    exact ⟨dumpKey k ++ dumpV v ++ dumpMembers rest, by simp [dumpV]⟩

theorem pyStripL_brace (t : List Char) :
    pyStripL (lbrace :: (t ++ [rbrace])) = lbrace :: (t ++ [rbrace]) := by
  unfold pyStripL
  have h1 : ¬ (isPyWs lbrace = true) := by decide
  have h2 : ¬ (isPyWs rbrace = true) := by decide
  rw [List.dropWhile_cons_of_neg h1]
  rw [show (lbrace :: (t ++ [rbrace])).reverse = rbrace :: (t.reverse ++ [lbrace]) by simp]
  rw [List.dropWhile_cons_of_neg h2]
  simp

theorem stripFence_dumps_obj (kvs : List (String × JValue)) :
    stripJsonCodeFence (dumps (.obj kvs)) = some (dumps (.obj kvs)) := by
  obtain ⟨t, ht⟩ := dumpV_obj_shape kvs
  have htoList : (dumps (.obj kvs)).toList = lbrace :: (t ++ [rbrace]) := by
    rw [show (dumps (JValue.obj kvs)).toList = dumpV (.obj kvs) from rfl, ht]
  have hne : dumps (.obj kvs) ≠ "" := by
    intro hcon
    have h0 : (dumps (.obj kvs)).toList = [] := by rw [hcon]; rfl
    rw [htoList] at h0
    cases h0
  unfold stripJsonCodeFence
  rw [if_neg hne]
  dsimp only
  rw [htoList, pyStripL_brace]
  have hpre : (['`', '`', '`'] : List Char).isPrefixOf (lbrace :: (t ++ [rbrace])) = false := by
    simp [List.isPrefixOf, show (('`' : Char) == lbrace) = false from by decide]
  rw [hpre]
  simp only [Bool.false_eq_true, if_false, List.isEmpty_cons]
  rw [← htoList]
  rfl

theorem parseWithRepair_dumps_obj (kvs : List (String × JValue))
    (hu : uniqKeysV (.obj kvs)) :
    parseWithRepair (dumps (.obj kvs)) = some (.obj kvs) := by
  unfold parseWithRepair
  rw [stripFence_dumps_obj]
  have hl : safe_json_parse (dumps (.obj kvs)) = some (.obj kvs) := loads_dumps _ hu
  dsimp only
  rw [hl]

/-! ## Validator fixpoints: each parse body accepts its own output unchanged -/

theorem pm01RawBody_fix (qn : Int) (kvs : List (String × JValue)) (v : JValue)
    (hnd : (kvs.map Prod.fst).Nodup) (hu : uniqKeysM kvs)
    (h : pm01RawBody qn kvs = some v) :
    ∃ out, v = .obj out ∧ (out.map Prod.fst).Nodup ∧ uniqKeysM out ∧
      pm01RawBody qn out = some (.obj out) := by
  unfold pm01RawBody at h
  split at h
  · exact absurd h (by simp)
  · split at h
    · exact absurd h (by simp)
    · rename_i kvs₂ heq1
      split at h
      · exact absurd h (by simp)
      · rename_i kvs₃ heq2
        split at h
        · exact absurd h (by simp)
        · rename_i hev
          cases h
          obtain ⟨hpres1, hfixd1⟩ := validateNumKeys_fix scoreKeys (by decide) kvs kvs₂ heq1
          obtain ⟨hpres2, hfixd2⟩ := validateNumKeys_fix aesKeys (by decide) kvs₂ kvs₃ heq2
          have hup1 := validateNumKeys_uniq scoreKeys kvs kvs₂ hnd hu heq1
          have hup2 := validateNumKeys_uniq aesKeys kvs₂ kvs₃ hup1.1 hup1.2 heq2
          refine ⟨dictSet kvs₃ "question_number" (.num (.fin qn 0)), rfl,
            dictSet_keys_nodup _ _ hup2.1, dictSet_uniqM hup2.2 (by simp [uniqKeysV]), ?_⟩
          have hqn : jGet (dictSet kvs₃ "question_number" (.num (.fin qn 0)))
              "question_number" = some (.num (.fin qn 0)) := jGet_dictSet_self _ _ _
          have hother : ∀ k, "question_number" ≠ k →
              jGet (dictSet kvs₃ "question_number" (.num (.fin qn 0))) k = jGet kvs₃ k :=
            fun k hk => jGet_dictSet_ne _ _ _ _ hk
          unfold pm01RawBody
          rw [truthy_of_jGet hqn]
          simp only [Bool.not_true, Bool.false_eq_true, if_false]
          have hs : validateNumKeys scoreKeys
              (dictSet kvs₃ "question_number" (.num (.fin qn 0)))
              = some (dictSet kvs₃ "question_number" (.num (.fin qn 0))) := by
            refine hfixd1 _ ?_
            intro k hk
            simp only [scoreKeys, List.mem_cons, List.not_mem_nil, or_false] at hk
            rcases hk with rfl | rfl | rfl
            · rw [hother _ (by decide), hpres2 _ (by decide)]
            · rw [hother _ (by decide), hpres2 _ (by decide)]
            · rw [hother _ (by decide), hpres2 _ (by decide)]
          rw [hs]
          dsimp only
          have ha : validateNumKeys aesKeys
              (dictSet kvs₃ "question_number" (.num (.fin qn 0)))
              = some (dictSet kvs₃ "question_number" (.num (.fin qn 0))) := by
            refine hfixd2 _ ?_
            intro k hk
            simp only [aesKeys, List.mem_cons, List.not_mem_nil, or_false] at hk
            rcases hk with rfl | rfl | rfl
            · exact hother _ (by decide)
            · exact hother _ (by decide)
            · exact hother _ (by decide)
          rw [ha]
          dsimp only
          rw [hother "evidence" (by decide), hother "judgment_reason" (by decide)]
          rw [if_neg hev]
          rw [dictSet_get_self _ _ _ hqn]

theorem pm05RawBody_fix (qn : Int) (kvs : List (String × JValue)) (v : JValue)
    (hnd : (kvs.map Prod.fst).Nodup) (hu : uniqKeysM kvs)
    (h : pm05RawBody qn kvs = some v) :
    ∃ out, v = .obj out ∧ (out.map Prod.fst).Nodup ∧ uniqKeysM out ∧
      pm05RawBody qn out = some (.obj out) := by
  unfold pm05RawBody at h
  split at h
  · exact absurd h (by simp)
  · split at h
    · exact absurd h (by simp)
    · rename_i kvs₂ heq1
      split at h
      · exact absurd h (by simp)
      · rename_i hdn
        cases h
        obtain ⟨hpres1, hfixd1⟩ := validateNumKeys_fix scoreKeys (by decide) kvs kvs₂ heq1
        have hup1 := validateNumKeys_uniq scoreKeys kvs kvs₂ hnd hu heq1
        refine ⟨dictSet kvs₂ "question_number" (.num (.fin qn 0)), rfl,
          dictSet_keys_nodup _ _ hup1.1, dictSet_uniqM hup1.2 (by simp [uniqKeysV]), ?_⟩
        have hqn : jGet (dictSet kvs₂ "question_number" (.num (.fin qn 0)))
            "question_number" = some (.num (.fin qn 0)) := jGet_dictSet_self _ _ _
        have hother : ∀ k, "question_number" ≠ k →
            jGet (dictSet kvs₂ "question_number" (.num (.fin qn 0))) k = jGet kvs₂ k :=
          fun k hk => jGet_dictSet_ne _ _ _ _ hk
        unfold pm05RawBody
        rw [truthy_of_jGet hqn]
        simp only [Bool.not_true, Bool.false_eq_true, if_false]
        have hs : validateNumKeys scoreKeys
            (dictSet kvs₂ "question_number" (.num (.fin qn 0)))
            = some (dictSet kvs₂ "question_number" (.num (.fin qn 0))) := by
          refine hfixd1 _ ?_
          intro k hk
          simp only [scoreKeys, List.mem_cons, List.not_mem_nil, or_false] at hk
          rcases hk with rfl | rfl | rfl
          · exact hother _ (by decide)
          · exact hother _ (by decide)
          · exact hother _ (by decide)
        rw [hs]
        dsimp only
        rw [hother "difference_note" (by decide)]
        rw [if_neg hdn]
        rw [dictSet_get_self _ _ _ hqn]

/-- Looking a key up in a dict whose values all have unique keys yields a
value with unique keys. -/
theorem jGet_uniqV : ∀ (d : List (String × JValue)) (k : String) (v : JValue),
    uniqKeysM d → jGet d k = some v → uniqKeysV v := by
  intro d
  induction d with
  | nil => intro k v _ h; simp [jGet] at h
  | cons kv rest ih =>
    intro k v hu h
    obtain ⟨k₂, v₂⟩ := kv
    have hu' : uniqKeysV v₂ ∧ uniqKeysM rest := hu
    by_cases he : k₂ = k
    · subst he
      simp [jGet] at h
      subst h
      exact hu'.1
    · simp [jGet, he] at h
      exact ih k v hu'.2 h

theorem coerceList_shape (v : JValue) : ∃ xs, coerceList v = .arr xs := by
  cases v <;> exact ⟨_, rfl⟩

theorem coerceList_uniq (v : JValue) (h : uniqKeysV v) : uniqKeysV (coerceList v) := by
  cases v <;> simp [coerceList, uniqKeysV, uniqKeysL] <;> exact h

theorem getDetectedIssues_uniq (kvs : List (String × JValue)) (hu : uniqKeysM kvs) :
    uniqKeysV (getDetectedIssues kvs) := by
  unfold getDetectedIssues
  split
  · exact jGet_uniqV _ _ _ hu (by assumption)
  · split
    · exact jGet_uniqV _ _ _ hu (by assumption)
    · simp [uniqKeysV, uniqKeysL]

theorem getComment_uniq (kvs : List (String × JValue)) (hu : uniqKeysM kvs) :
    uniqKeysV (getComment kvs) := by
  unfold getComment
  split
  · exact jGet_uniqV _ _ _ hu (by assumption)
  · split
    · exact jGet_uniqV _ _ _ hu (by assumption)
    · simp [uniqKeysV]

/-- The `detected_issues`/`comment` tail accepts its own output unchanged. -/
theorem pm05FinalRest_fix (kvs₃ : List (String × JValue)) (v : JValue)
    (hnd : (kvs₃.map Prod.fst).Nodup) (hu : uniqKeysM kvs₃)
    (h : pm05FinalRest kvs₃ = some v) :
    ∃ out, v = .obj out ∧ (out.map Prod.fst).Nodup ∧ uniqKeysM out ∧
      (∀ k, k ≠ "detected_issues" → k ≠ "comment" → jGet out k = jGet kvs₃ k) ∧
      (∃ c, jGet out "comment" = some c ∧ c.truthy = true) ∧
      pm05FinalRest out = some (.obj out) := by
  unfold pm05FinalRest pm05FinalComment at h
  split at h
  · exact absurd h (by simp)
  · rename_i hcm
    cases h
    rw [Bool.not_eq_true] at hcm
    rw [Bool.not_eq_false'] at hcm
    obtain ⟨xs, hxs⟩ := coerceList_shape (getDetectedIssues kvs₃)
    set kvs₄ := dictSet kvs₃ "detected_issues" (coerceList (getDetectedIssues kvs₃)) with hkvs4
    set c := getComment kvs₄ with hc0
    set out := dictSet kvs₄ "comment" c with hout
    have hnd₄ : (kvs₄.map Prod.fst).Nodup := by
      rw [hkvs4]
      exact dictSet_keys_nodup _ _ hnd
    have hu₄ : uniqKeysM kvs₄ := by
      rw [hkvs4]
      exact dictSet_uniqM hu (coerceList_uniq _ (getDetectedIssues_uniq _ hu))
    have hgc : jGet out "comment" = some c := by
      rw [hout]
      exact jGet_dictSet_self _ _ _
    have hdi : jGet out "detected_issues" = some (.arr xs) := by
      rw [hout, jGet_dictSet_ne _ _ _ _ (by decide), hkvs4, jGet_dictSet_self, hxs]
    refine ⟨out, rfl, ?_, ?_, ?_, ⟨c, hgc, hcm⟩, ?_⟩
    · rw [hout]
      exact dictSet_keys_nodup _ _ hnd₄
    · rw [hout]
      exact dictSet_uniqM hu₄ (by rw [hc0]; exact getComment_uniq _ hu₄)
    · intro k hdik hcmk
      rw [hout, jGet_dictSet_ne _ _ _ _ (Ne.symm hcmk), hkvs4,
        jGet_dictSet_ne _ _ _ _ (Ne.symm hdik)]
    · unfold pm05FinalRest pm05FinalComment
      have hgdi : getDetectedIssues out = .arr xs := by
        unfold getDetectedIssues
        rw [hdi]
      rw [hgdi]
      rw [show coerceList (JValue.arr xs) = JValue.arr xs from rfl]
      rw [dictSet_get_self _ _ _ hdi]
      have hgco : getComment out = c := by
        unfold getComment
        rw [hgc]
      rw [hgco, hcm]
      simp only [Bool.not_true, Bool.false_eq_true, if_false]
      rw [dictSet_get_self _ _ _ hgc]

theorem fixAi_get_official (kvs : List (String × JValue)) :
    ∃ lv, jGet (fixAiUseLevel kvs) "ai_use_level" = some lv ∧ isOfficialLevel lv = true := by
  unfold fixAiUseLevel
  by_cases hoff : isOfficialLevel (getAiUseLevel kvs) = true
  · rw [if_pos hoff]
    unfold getAiUseLevel at hoff
    cases hjg : jGet kvs "ai_use_level" with
    | some w =>
      rw [hjg] at hoff
      exact ⟨w, rfl, hoff⟩
    | none =>
      rw [hjg] at hoff
      exact absurd hoff (by decide)
  · rw [if_neg hoff]
    exact ⟨.str "標準", jGet_dictSet_self _ _ _, by decide⟩

theorem fixAi_id (kvs : List (String × JValue)) (lv : JValue)
    (h : jGet kvs "ai_use_level" = some lv) (hoff : isOfficialLevel lv = true) :
    fixAiUseLevel kvs = kvs := by
  unfold fixAiUseLevel getAiUseLevel
  rw [h]
  dsimp only
  rw [if_pos hoff]

theorem fixAi_pres (kvs : List (String × JValue)) (k : String) (h : k ≠ "ai_use_level") :
    jGet (fixAiUseLevel kvs) k = jGet kvs k := by
  unfold fixAiUseLevel
  split
  · rfl
  · exact jGet_dictSet_ne _ _ _ _ (Ne.symm h)

theorem fixAi_nodup (kvs : List (String × JValue)) (h : (kvs.map Prod.fst).Nodup) :
    ((fixAiUseLevel kvs).map Prod.fst).Nodup := by
  unfold fixAiUseLevel
  split
  · exact h
  · exact dictSet_keys_nodup _ _ h

theorem fixAi_uniq (kvs : List (String × JValue)) (h : uniqKeysM kvs) :
    uniqKeysM (fixAiUseLevel kvs) := by
  unfold fixAiUseLevel
  split
  · exact h
  · exact dictSet_uniqM h (by simp [uniqKeysV])

theorem fixRec_get (kvs : List (String × JValue)) :
    ∃ xs, jGet (fixRecommendations kvs) "recommendations" = some (.arr xs) := by
  unfold fixRecommendations
  split
  · rename_i xs hjg
    exact ⟨xs, hjg⟩
  · exact ⟨[], jGet_dictSet_self _ _ _⟩

theorem fixRec_id (kvs : List (String × JValue)) (xs : List JValue)
    (h : jGet kvs "recommendations" = some (.arr xs)) : fixRecommendations kvs = kvs := by
  unfold fixRecommendations
  rw [h]

theorem fixRec_pres (kvs : List (String × JValue)) (k : String)
    (h : k ≠ "recommendations") : jGet (fixRecommendations kvs) k = jGet kvs k := by
  unfold fixRecommendations
  split
  · rfl
  · exact jGet_dictSet_ne _ _ _ _ (Ne.symm h)

theorem fixRec_nodup (kvs : List (String × JValue)) (h : (kvs.map Prod.fst).Nodup) :
    ((fixRecommendations kvs).map Prod.fst).Nodup := by
  unfold fixRecommendations
  split
  · exact h
  · exact dictSet_keys_nodup _ _ h

theorem fixRec_uniq (kvs : List (String × JValue)) (h : uniqKeysM kvs) :
    uniqKeysM (fixRecommendations kvs) := by
  unfold fixRecommendations
  split
  · exact h
  · exact dictSet_uniqM h (by simp [uniqKeysV, uniqKeysL])

theorem pm01FinalBody_fix (kvs : List (String × JValue)) (v : JValue)
    (hnd : (kvs.map Prod.fst).Nodup) (hu : uniqKeysM kvs)
    (h : pm01FinalBody kvs = some v) :
    ∃ out, v = .obj out ∧ (out.map Prod.fst).Nodup ∧ uniqKeysM out ∧
      pm01FinalBody out = some (.obj out) := by
  unfold pm01FinalBody at h
  split at h
  · exact absurd h (by simp)
  · split at h
    · exact absurd h (by simp)
    · rename_i hsum
      cases h
      rw [Bool.not_eq_true, Bool.not_eq_false'] at hsum
      have hsome : ∃ w, jGet kvs "overall_summary" = some w ∧ w.truthy = true := by
        cases hjg : jGet kvs "overall_summary" with
        | some w =>
          rw [hjg] at hsum
          simp only [truthyOpt] at hsum
          exact ⟨w, rfl, hsum⟩
        | none =>
          rw [hjg] at hsum
          simp only [truthyOpt] at hsum
          exact (Bool.false_ne_true hsum).elim
      obtain ⟨w, hw, hwt⟩ := hsome
      have hwout : jGet (fixRecommendations (fixAiUseLevel kvs)) "overall_summary"
          = some w := by
        rw [fixRec_pres _ _ (by decide), fixAi_pres _ _ (by decide), hw]
      obtain ⟨lv, hlv, hlvoff⟩ := fixAi_get_official kvs
      have hlvout : jGet (fixRecommendations (fixAiUseLevel kvs)) "ai_use_level"
          = some lv := by
        rw [fixRec_pres _ _ (by decide), hlv]
      obtain ⟨xs, hxs⟩ := fixRec_get (fixAiUseLevel kvs)
      refine ⟨fixRecommendations (fixAiUseLevel kvs), rfl,
        fixRec_nodup _ (fixAi_nodup _ hnd), fixRec_uniq _ (fixAi_uniq _ hu), ?_⟩
      unfold pm01FinalBody
      rw [truthy_of_jGet hwout, hwout]
      simp only [truthyOpt, hwt, Bool.not_true, Bool.false_eq_true, if_false]
      rw [fixAi_id _ _ hlvout hlvoff, fixRec_id _ _ hxs]

theorem mapStatus_jp (s : String) : jpStatuses.contains (mapStatus s) = true := by
  unfold mapStatus
  split_ifs <;> decide

/-- Common continuation of the pm05-final fixpoint after the status step. -/
theorem pm05Final_afterStatus (kvs₂ : List (String × JValue)) (s : PyFloat)
    (st : String) (v : JValue)
    (hnd₂ : (kvs₂.map Prod.fst).Nodup) (hu₂ : uniqKeysM kvs₂)
    (hcs₂ : jGet kvs₂ "consistency_score" = some (.num (pyRoundF s 2)))
    (hshape : (∃ m e, s = .fin m e) ∨ s = .nan)
    (hlo : pyLt s (.fin 0 0) = false) (hhi : pyGt s (.fin 1 0) = false)
    (hjp : jpStatuses.contains st = true)
    (h : pm05FinalRest (dictSet kvs₂ "status" (.str st)) = some v) :
    ∃ out, v = .obj out ∧ (out.map Prod.fst).Nodup ∧ uniqKeysM out ∧
      pm05FinalBody out = some (.obj out) := by
  obtain ⟨out, hv, hndo, huo, hpres, ⟨c, hgc, hct⟩, hfixrest⟩ :=
    pm05FinalRest_fix (dictSet kvs₂ "status" (.str st)) v
      (dictSet_keys_nodup _ _ hnd₂) (dictSet_uniqM hu₂ (by simp [uniqKeysV])) h
  subst hv
  have hcs : jGet out "consistency_score" = some (.num (pyRoundF s 2)) := by
    rw [hpres _ (by decide) (by decide), jGet_dictSet_ne _ _ _ _ (by decide), hcs₂]
  have hstout : jGet out "status" = some (.str st) := by
    rw [hpres _ (by decide) (by decide), jGet_dictSet_self]
  have hstatus : pm05FinalStatusStep out = some (.obj out) := by
    unfold pm05FinalStatusStep
    have hgst : getStatusJ out = .str st := by
      unfold getStatusJ
      rw [hstout]
    rw [hgst]
    dsimp only
    simp only [jpStatuses, List.contains_cons, List.contains_nil, Bool.or_false,
      Bool.or_eq_true, beq_iff_eq] at hjp
    have hrest : pm05FinalRest (dictSet out "status" (.str st)) = some (.obj out) := by
      rw [dictSet_get_self _ _ _ hstout]
      exact hfixrest
    rcases hjp with rfl | rfl | rfl
    · rw [show isMappedStatus (pyLower "妥当") = false from by decide]
      simp only [Bool.false_eq_true, if_false]
      rw [show (!(jpStatuses.contains "妥当")) = false from by decide]
      simp only [Bool.false_eq_true, if_false]
      exact hrest
    · rw [show isMappedStatus (pyLower "注意") = false from by decide]
      simp only [Bool.false_eq_true, if_false]
      rw [show (!(jpStatuses.contains "注意")) = false from by decide]
      simp only [Bool.false_eq_true, if_false]
      exact hrest
    · rw [show isMappedStatus (pyLower "再評価") = false from by decide]
      simp only [Bool.false_eq_true, if_false]
      rw [show (!(jpStatuses.contains "再評価")) = false from by decide]
      simp only [Bool.false_eq_true, if_false]
      exact hrest
  refine ⟨out, rfl, hndo, huo, ?_⟩
  unfold pm05FinalBody
  rw [truthy_of_jGet hgc]
  simp only [Bool.not_true, Bool.false_eq_true, if_false]
  rcases hshape with ⟨m, e, rfl⟩ | rfl
  · rw [hcs, pyRoundF_fin, parse_number_num_fin]
    obtain ⟨hlo2, hhi2⟩ := pyRoundF_range m e 2 0 1 hlo hhi
    rw [pyRoundF_fin] at hlo2 hhi2
    rw [pyEqF_nan_right, hlo2, hhi2]
    simp only [Bool.false_eq_true, if_false]
    rw [pyRoundF_idem]
    rw [dictSet_get_self _ _ _ (by rw [hcs, pyRoundF_fin])]
    exact hstatus
  · rw [hcs, pyRoundF_nan, parse_number_num_nan]
    rw [pyEqF_nan_right, pyLt_nan_left]
    have hgt : pyGt PyFloat.nan (.fin 1 0) = false := pyLt_nan_right _
    rw [pyGt] at hgt ⊢
    rw [hgt]
    simp only [Bool.false_eq_true, if_false]
    rw [pyRoundF_nan]
    rw [dictSet_get_self _ _ _ (by rw [hcs, pyRoundF_nan])]
    exact hstatus

theorem pm05FinalBody_fix (kvs : List (String × JValue)) (v : JValue)
    (hnd : (kvs.map Prod.fst).Nodup) (hu : uniqKeysM kvs)
    (h : pm05FinalBody kvs = some v) :
    ∃ out, v = .obj out ∧ (out.map Prod.fst).Nodup ∧ uniqKeysM out ∧
      pm05FinalBody out = some (.obj out) := by
  unfold pm05FinalBody at h
  split at h
  · exact absurd h (by simp)
  · split at h
    · exact absurd h (by simp)
    · split at h
      · exact absurd h (by simp)
      · split at h
        · exact absurd h (by simp)
        · rename_i hnan hlo hhi
          rw [Bool.not_eq_true] at hnan hlo hhi
          have hnd₂ : ((dictSet kvs "consistency_score"
              (.num (pyRoundF (parse_number (jGet kvs "consistency_score") .nan) 2))).map
                Prod.fst).Nodup := dictSet_keys_nodup _ _ hnd
          have hu₂ := dictSet_uniqM (k := "consistency_score")
            (v := .num (pyRoundF (parse_number (jGet kvs "consistency_score") .nan) 2))
            hu (by simp [uniqKeysV])
          have hcs₂ := jGet_dictSet_self kvs "consistency_score"
            (.num (pyRoundF (parse_number (jGet kvs "consistency_score") .nan) 2))
          unfold pm05FinalStatusStep at h
          split at h
          · rename_i status hgst
            split at h
            · exact pm05Final_afterStatus _ _ _ _ hnd₂ hu₂ hcs₂
                (parse_number_nan_shape _) hlo hhi (mapStatus_jp _) h
            · split at h
              · exact absurd h (by simp)
              · rename_i hcont
                rw [Bool.not_eq_true, Bool.not_eq_false'] at hcont
                exact pm05Final_afterStatus _ _ _ _ hnd₂ hu₂ hcs₂
                  (parse_number_nan_shape _) hlo hhi hcont h
          · exact absurd h (by simp)

/-! ## Claim theorems about the Response Repair Parser -/

/-- The evaluation kinds served by the Response Repair Parser. -/
inductive EvalKind where
  | pm01Raw (qn : Int)
  | pm05Raw (qn : Int)
  | pm01Final
  | pm05Final

/-- The parser entry point of each evaluation kind. -/
def parseByKind : EvalKind → String → Option JValue
  | .pm01Raw qn, raw => parse_pm01_raw_response raw qn
  | .pm05Raw qn, raw => parse_pm05_raw_response raw qn
  | .pm01Final, raw => parse_pm01_final_response raw
  | .pm05Final, raw => parse_pm05_final_response raw

/-- C6: the Response Repair Parser is deterministic and idempotent — for every
kind and every text on which parsing succeeds, serializing the returned record
with `json.dumps` and parsing it again with the same kind (and question number)
returns the same record. -/
theorem C6_parser_idempotent (k : EvalKind) (raw : String) (v : JValue)
    (h : parseByKind k raw = some v) : parseByKind k (dumps v) = some v := by
  cases k with
  | pm01Raw qn =>
    simp only [parseByKind] at h ⊢
    unfold parse_pm01_raw_response at h ⊢
    split at h
    · rename_i kvs heq
      have hu : (kvs.map Prod.fst).Nodup ∧ uniqKeysM kvs := parseWithRepair_uniq _ _ heq
      obtain ⟨out, hv, hndo, huo, hfix⟩ := pm01RawBody_fix qn kvs v hu.1 hu.2 h
      subst hv
      rw [parseWithRepair_dumps_obj out ⟨hndo, huo⟩]
      exact hfix
    · exact absurd h (by simp)
  | pm05Raw qn =>
    simp only [parseByKind] at h ⊢
    unfold parse_pm05_raw_response at h ⊢
    split at h
    · rename_i kvs heq
      have hu : (kvs.map Prod.fst).Nodup ∧ uniqKeysM kvs := parseWithRepair_uniq _ _ heq
      obtain ⟨out, hv, hndo, huo, hfix⟩ := pm05RawBody_fix qn kvs v hu.1 hu.2 h
      subst hv
      rw [parseWithRepair_dumps_obj out ⟨hndo, huo⟩]
      exact hfix
    · exact absurd h (by simp)
  | pm01Final =>
    simp only [parseByKind] at h ⊢
    unfold parse_pm01_final_response at h ⊢
    split at h
    · rename_i kvs heq
      have hu : (kvs.map Prod.fst).Nodup ∧ uniqKeysM kvs := parseWithRepair_uniq _ _ heq
      obtain ⟨out, hv, hndo, huo, hfix⟩ := pm01FinalBody_fix kvs v hu.1 hu.2 h
      subst hv
      rw [parseWithRepair_dumps_obj out ⟨hndo, huo⟩]
      exact hfix
    · exact absurd h (by simp)
  | pm05Final =>
    simp only [parseByKind] at h ⊢
    unfold parse_pm05_final_response at h ⊢
    split at h
    · rename_i kvs heq
      have hu : (kvs.map Prod.fst).Nodup ∧ uniqKeysM kvs := parseWithRepair_uniq _ _ heq
      obtain ⟨out, hv, hndo, huo, hfix⟩ := pm05FinalBody_fix kvs v hu.1 hu.2 h
      subst hv
      rw [parseWithRepair_dumps_obj out ⟨hndo, huo⟩]
      exact hfix
    · exact absurd h (by simp)

theorem C6_parser_idempotent_witness :
    parseByKind .pm01Final (dumps (JValue.obj [("overall_summary", .str "s"),
        ("ai_use_level", .str "標準"), ("recommendations", .arr [])]))
      = some (JValue.obj [("overall_summary", .str "s"),
        ("ai_use_level", .str "標準"), ("recommendations", .arr [])]) :=
  C6_parser_idempotent .pm01Final "\x7b\"overall_summary\": \"s\"\x7d" _ (by rfl)

/-- A stage-1 reply whose required `primary_score` field is missing
altogether. -/
def c1Input : String :=
  "\x7b\"sub_score\": 2, \"process_score\": 2, \"aes_clarity\": 2, \"aes_logic\": 2, \"aes_relevance\": 2, \"evidence\": \"e\", \"judgment_reason\": \"j\"\x7d"

/-- The record `parse_pm01_raw_response` actually returns for `c1Input`:
`float(parsed.get('primary_score'), nan)` falls back to NaN, the guard
`score == float('nan')` is always false in Python, and NaN fails neither
`score < 1.0` nor `score > 5.0`, so the record is accepted with
`primary_score = nan`. -/
def c1Record : List (String × JValue) :=
  [("sub_score", .num (.fin 20 1)), ("process_score", .num (.fin 20 1)),
   ("aes_clarity", .num (.fin 20 1)), ("aes_logic", .num (.fin 20 1)),
   ("aes_relevance", .num (.fin 20 1)), ("evidence", .str "e"),
   ("judgment_reason", .str "j"), ("primary_score", .num .nan),
   ("question_number", .num (.fin 1 0))]

set_option maxRecDepth 8000 in
/-- C1: refuted.  The spec requires every input whose required numeric field
is missing, non-numeric, or out of range to be rejected, but the parser
accepts `c1Input` — a reply with no `primary_score` at all — and returns a
record whose `primary_score` is NaN, a value outside [1.0, 5.0].  The culprit
is `score == float('nan')` in `parse_pm01_raw_response` (NaN compares unequal
to everything in Python, so the check never fires) combined with NaN failing
both range comparisons. -/
theorem C1_missing_score_accepted :
    jGet [("sub_score", JValue.num (.fin 2 0)), ("process_score", .num (.fin 2 0)),
        ("aes_clarity", .num (.fin 2 0)), ("aes_logic", .num (.fin 2 0)),
        ("aes_relevance", .num (.fin 2 0)), ("evidence", .str "e"),
        ("judgment_reason", .str "j")] "primary_score" = none ∧
    parseWithRepair c1Input
      = some (.obj [("sub_score", JValue.num (.fin 2 0)), ("process_score", .num (.fin 2 0)),
        ("aes_clarity", .num (.fin 2 0)), ("aes_logic", .num (.fin 2 0)),
        ("aes_relevance", .num (.fin 2 0)), ("evidence", .str "e"),
        ("judgment_reason", .str "j")]) ∧
    parse_pm01_raw_response c1Input 1 = some (.obj c1Record) ∧
    jGet c1Record "primary_score" = some (.num .nan) ∧
    (∀ m e, ¬ (PyFloat.nan = .fin m e)) :=
  ⟨rfl, by rfl, by rfl, rfl, fun _ _ h => PyFloat.noConfusion h⟩

/-- C10: `parse_pm01_final_response` rejects a decodable dict only when the
dict is empty or `overall_summary` is missing/empty; an invalid
`ai_use_level` or a missing/ill-typed `recommendations` never causes
rejection — every returned record carries an official `ai_use_level` and a
list-valued `recommendations`. -/
theorem C10_pm01_final_never_rejects_optional_fields (raw : String) :
    (parse_pm01_final_response raw = none ↔
      ∀ kvs, parseWithRepair raw = some (JValue.obj kvs) →
        (JValue.obj kvs).truthy = false ∨ truthyOpt (jGet kvs "overall_summary") = false)
    ∧ (∀ v, parse_pm01_final_response raw = some v →
        ∃ out, v = .obj out ∧
          (∃ lv, jGet out "ai_use_level" = some lv ∧ isOfficialLevel lv = true) ∧
          (∃ xs, jGet out "recommendations" = some (.arr xs))) := by
  constructor
  · constructor
    · intro h kvs heq
      unfold parse_pm01_final_response at h
      rw [heq] at h
      dsimp only at h
      unfold pm01FinalBody at h
      split at h
      · rename_i ht
        left
        simpa using ht
      · split at h
        · rename_i hs
          right
          simpa using hs
        · exact absurd h (by simp)
    · intro hall
      unfold parse_pm01_final_response
      cases hpw : parseWithRepair raw with
      | none => rfl
      | some p =>
        cases p with
        | obj kvs =>
          have hd := hall kvs hpw
          dsimp only
          unfold pm01FinalBody
          rcases hd with h1 | h2
          · rw [h1]
            rfl
          · cases htr : (JValue.obj kvs).truthy
            · rfl
            · rw [h2]
              rfl
        | null => rfl
        | bool b => rfl
        | num x => rfl
        | str s => rfl
        | arr xs => rfl
  · intro v hv
    unfold parse_pm01_final_response at hv
    split at hv
    · rename_i kvs heq
      unfold pm01FinalBody at hv
      split at hv
      · exact absurd hv (by simp)
      · split at hv
        · exact absurd hv (by simp)
        · cases hv
          refine ⟨fixRecommendations (fixAiUseLevel kvs), rfl, ?_, ?_⟩
          · obtain ⟨lv, hlv, hoff⟩ := fixAi_get_official kvs
            exact ⟨lv, by rw [fixRec_pres _ _ (by decide), hlv], hoff⟩
          · exact fixRec_get _
    · exact absurd hv (by simp)

theorem C10_pm01_final_never_rejects_optional_fields_witness :
    parse_pm01_final_response "\x7b\"overall_summary\": \"s\"\x7d" ≠ none := by
  intro hn
  have h := (C10_pm01_final_never_rejects_optional_fields
    "\x7b\"overall_summary\": \"s\"\x7d").1.mp hn
    [("overall_summary", JValue.str "s")] (by rfl)
  rcases h with h1 | h1
  · exact absurd h1 (by decide)
  · exact absurd h1 (by decide)

/-! ## Embedding of src/core/category_mapper.py -/

/-- Generic assoc-list lookup (`dict.get`). -/
def aGet {α : Type} : List (String × α) → String → Option α
  | [], _ => none
  | (k₂, v) :: rest, k => if k₂ = k then some v else aGet rest k

/-- Generic dict assignment, like `dictSet`. -/
def aSet {α : Type} : List (String × α) → String → α → List (String × α)
  | [], k, v => [(k, v)]
  | (k₂, v₂) :: rest, k, v =>
    if k₂ = k then (k₂, v) :: rest else (k₂, v₂) :: aSet rest k v

def OFFICIAL_PRIMARY_CATEGORIES : List String :=
  ["問題理解", "論理思考", "仮説構築", "AI指示", "AI検証/優先順位判断"]

def OFFICIAL_SUB_CATEGORIES : List String := ["情報整理", "因果推論"]

def OFFICIAL_PROCESS_ITEMS : List String :=
  ["clarity", "structure", "hypothesis", "prompt clarity", "consistency"]

def primaryMapping : List (String × String) :=
  [("問題理解", "問題理解"), ("論理思考", "論理思考"), ("論理構成", "論理思考"),
   ("仮説構築", "仮説構築"), ("AI指示", "AI指示"),
   ("AI成果検証力", "AI検証/優先順位判断"), ("優先順位判断", "AI検証/優先順位判断")]

def subMapping : List (String × String) :=
  [("情報整理", "情報整理"), ("因果推論", "因果推論"), ("前提設定", "因果推論"),
   ("要件定義力", "情報整理"), ("品質チェック力", "因果推論"), ("意思決定", "因果推論")]

def processMapping : List (String × String) :=
  [("clarity", "clarity"), ("structure", "structure"), ("hypothesis", "hypothesis"),
   ("prompt clarity", "prompt clarity"), ("prompt_clarity", "prompt clarity"),
   ("consistency", "consistency"), ("quality_check", "consistency")]

/-- The re-casing loop at the end of the `process` branch: find the official
item with the same lowercase form. -/
def recaseProcess (normalized : String) : String :=
  match OFFICIAL_PROCESS_ITEMS.find? (fun official => pyLower official = normalized) with
  | some official => official
  | none => normalized

/-- Model of `map_to_official_category`. -/
def map_to_official_category (category : String) (category_type : String) : Option String :=
  if category = "" then none
  else
    let category := pyStrip category
    if category_type = "primary" then
      match aGet primaryMapping category with
      | some v => some v
      | none =>
        if OFFICIAL_PRIMARY_CATEGORIES.contains category then some category else none
    else if category_type = "sub" then
      match aGet subMapping category with
      | some v => some v
      | none =>
        if OFFICIAL_SUB_CATEGORIES.contains category then some category else none
    else if category_type = "process" then
      match aGet processMapping (pyLower category) with
      | some v => some (recaseProcess v)
      | none =>
        if (OFFICIAL_PROCESS_ITEMS.map pyLower).contains (pyLower category) then
          some (recaseProcess (pyLower category))
        else none
    else none

/-! ## Embedding of src/services/scoring_engine.py: `aggregate_pm05_raw_scores`.

Every number reaching this function comes from `parse_number`, which never
returns an infinity, so float arithmetic here is modelled over `Option Rat`
(`none` is NaN).  Python's binary `0.6` / `0.2` weights are idealised as the
exact decimals they print as. -/

def ltN : Option Rat → Option Rat → Bool
  | some x, some y => decide (x < y)
  | _, _ => false

def gtN (a b : Option Rat) : Bool := ltN b a

def addN : Option Rat → Option Rat → Option Rat
  | some x, some y => some (x + y)
  | _, _ => none

def mulN : Option Rat → Rat → Option Rat
  | some x, c => some (x * c)
  | none, _ => none

def divN : Option Rat → Nat → Option Rat
  | some x, k => some (x / (k : Rat))
  | none, _ => none

/-- Python `min(a, b)`: `b` only when `b < a`, so NaN in second position is
never picked. -/
def minN (a b : Option Rat) : Option Rat := if ltN b a then b else a

/-- Python `max(a, b)`. -/
def maxN (a b : Option Rat) : Option Rat := if ltN a b then b else a

def roundN : Option Rat → Nat → Option Rat
  | some x, n => some (pyRound x n)
  | none, _ => none

/-- Python `sum(l)` (left fold starting at `0`). -/
def sumN (l : List (Option Rat)) : Option Rat := l.foldl addN (some 0)

def pyToN : PyFloat → Option Rat
  | .fin m e => some ((m : Rat) / 10 ^ e)
  | _ => none

/-- `parse_number(d.get(k, 0), 0)` as the aggregator reads every score. -/
def getNum (kvs : List (String × JValue)) (k : String) : Option Rat :=
  pyToN (parse_number (some (match jGet kvs k with
    | some v => v
    | none => .num (.fin 0 0))) (.fin 0 0))

/-- `max(1.0, min(5.0, x))`. -/
def clampN (x : Option Rat) : Option Rat := maxN (some 1) (minN (some 5) x)

/-- One row of the question sheet as the aggregator reads it. -/
structure Question where
  number : Int
  primary_category : String
  sub_category : String
  process_category : String

/-- One entry of the aggregator's `per_question` output. -/
structure PerQuestionScores where
  primary_score : Option Rat
  sub_score : Option Rat
  process_score : Option Rat
  aes_score : Option Rat
  aes_clarity : Option Rat
  aes_logic : Option Rat
  aes_relevance : Option Rat
  difference_note : JValue

/-- The loop state of `aggregate_pm05_raw_scores`. -/
structure AggState where
  per_question : List (String × PerQuestionScores)
  primary_scores : List (String × List (Option Rat))
  sub_scores : List (String × List (Option Rat))
  process_scores : List (String × List (Option Rat))
  aes_clarity_list : List (Option Rat)
  aes_logic_list : List (Option Rat)
  aes_relevance_list : List (Option Rat)

def AggState.empty : AggState := ⟨[], [], [], [], [], [], []⟩

/-- `if cat not in d: d[cat] = []` followed by `d[cat].append(v)`. -/
def bucketAppend : List (String × List (Option Rat)) → String → Option Rat
    → List (String × List (Option Rat))
  | [], k, v => [(k, [v])]
  | (k₂, l) :: rest, k, v =>
    if k₂ = k then (k₂, l ++ [v]) :: rest else (k₂, l) :: bucketAppend rest k v

/-- The body of the aggregation loop for one question. -/
def aggStep (pm05_raw_results pm01_raw_results : List (String × List (String × JValue)))
    (st : AggState) (question : Question) : AggState :=
  if question.number < 1 || 6 < question.number then st
  else
    let question_id := "Q" ++ toString question.number
    let pm05_data := (aGet pm05_raw_results question_id).getD []
    let pm01_data := (aGet pm01_raw_results question_id).getD []
    match map_to_official_category question.primary_category "primary",
        map_to_official_category question.sub_category "sub",
        map_to_official_category question.process_category "process" with
    | some primary_category, some sub_category, some process_item =>
      let primary := getNum pm05_data "primary_score"
      let sub := getNum pm05_data "sub_score"
      let process := getNum pm05_data "process_score"
      let aes_clarity := getNum pm01_data "aes_clarity"
      let aes_logic := getNum pm01_data "aes_logic"
      let aes_relevance := getNum pm01_data "aes_relevance"
      let primary_adjusted := clampN primary
      let sub_adjusted := clampN sub
      let process_adjusted := clampN process
      let aes_sum := addN (addN aes_clarity aes_logic) aes_relevance
      let aes_score := if gtN aes_sum (some 0) then divN aes_sum 3 else some 0
      { per_question := aSet st.per_question question_id
          { primary_score := roundN primary_adjusted 1
            sub_score := roundN sub_adjusted 1
            process_score := roundN process_adjusted 1
            aes_score := roundN aes_score 1
            aes_clarity := roundN aes_clarity 1
            aes_logic := roundN aes_logic 1
            aes_relevance := roundN aes_relevance 1
            difference_note := (jGet pm05_data "difference_note").getD (.str "") }
        primary_scores := bucketAppend st.primary_scores primary_category primary_adjusted
        sub_scores := bucketAppend st.sub_scores sub_category sub_adjusted
        process_scores := bucketAppend st.process_scores process_item process_adjusted
        aes_clarity_list :=
          if gtN aes_clarity (some 0) then st.aes_clarity_list ++ [aes_clarity]
          else st.aes_clarity_list
        aes_logic_list :=
          if gtN aes_logic (some 0) then st.aes_logic_list ++ [aes_logic]
          else st.aes_logic_list
        aes_relevance_list :=
          if gtN aes_relevance (some 0) then st.aes_relevance_list ++ [aes_relevance]
          else st.aes_relevance_list }
    | _, _, _ => st

/-- `primary_avg` / `sub_avg` / `process_avg`: every official category present,
zero-filled when its bucket is absent or empty, means rounded to 1 place. -/
def zeroFillAvg (officials : List String)
    (buckets : List (String × List (Option Rat))) : List (String × Option Rat) :=
  officials.map fun category =>
    (category,
      match aGet buckets category with
      | some l => if l.isEmpty then some 0 else roundN (divN (sumN l) l.length) 1
      | none => some 0)

/-- `_round_dict_values` on a flat float dict. -/
def roundDictValues (d : List (String × Option Rat)) (decimals : Nat) :
    List (String × Option Rat) :=
  d.map fun kv => (kv.1, roundN kv.2 decimals)

/-- `_round_dict_values` on the nested `per_question` dict (the
`difference_note` string is not a float and passes through). -/
def roundPerQuestion (d : List (String × PerQuestionScores)) (decimals : Nat) :
    List (String × PerQuestionScores) :=
  d.map fun kv => (kv.1,
    { primary_score := roundN kv.2.primary_score decimals
      sub_score := roundN kv.2.sub_score decimals
      process_score := roundN kv.2.process_score decimals
      aes_score := roundN kv.2.aes_score decimals
      aes_clarity := roundN kv.2.aes_clarity decimals
      aes_logic := roundN kv.2.aes_logic decimals
      aes_relevance := roundN kv.2.aes_relevance decimals
      difference_note := kv.2.difference_note })

/-- The aggregator's returned record. -/
structure AggregatedScoreSet where
  scores_primary : List (String × Option Rat)
  scores_sub : List (String × Option Rat)
  process : List (String × Option Rat)
  aes : List (String × Option Rat)
  total_score : Option Rat
  per_question : List (String × PerQuestionScores)

def PRIMARY_WEIGHT : Rat := 6 / 10
def SUB_WEIGHT : Rat := 2 / 10
def PROCESS_WEIGHT : Rat := 2 / 10

/-- Model of `ScoringEngine.aggregate_pm05_raw_scores`.  The `try`/`except`
wrapper returns `None` only if the body raises; no modelled path raises, so
the result is always `some`. -/
def aggregate_pm05_raw_scores
    (pm05_raw_results pm01_raw_results : List (String × List (String × JValue)))
    (questions : List Question) : Option AggregatedScoreSet :=
  let st := questions.foldl (aggStep pm05_raw_results pm01_raw_results) AggState.empty
  let primary_avg := zeroFillAvg OFFICIAL_PRIMARY_CATEGORIES st.primary_scores
  let sub_avg := zeroFillAvg OFFICIAL_SUB_CATEGORIES st.sub_scores
  let process_avg := zeroFillAvg OFFICIAL_PROCESS_ITEMS st.process_scores
  let avg_primary := if primary_avg.isEmpty then some 0
    else divN (sumN (primary_avg.map Prod.snd)) primary_avg.length
  let avg_sub := if sub_avg.isEmpty then some 0
    else divN (sumN (sub_avg.map Prod.snd)) sub_avg.length
  let avg_process := if process_avg.isEmpty then some 0
    else divN (sumN (process_avg.map Prod.snd)) process_avg.length
  let avg_aes_clarity := if st.aes_clarity_list.isEmpty then some 0
    else divN (sumN st.aes_clarity_list) st.aes_clarity_list.length
  let avg_aes_logic := if st.aes_logic_list.isEmpty then some 0
    else divN (sumN st.aes_logic_list) st.aes_logic_list.length
  let avg_aes_relevance := if st.aes_relevance_list.isEmpty then some 0
    else divN (sumN st.aes_relevance_list) st.aes_relevance_list.length
  let avg_aes := if !st.aes_clarity_list.isEmpty || !st.aes_logic_list.isEmpty
      || !st.aes_relevance_list.isEmpty then
    divN (addN (addN avg_aes_clarity avg_aes_logic) avg_aes_relevance) 3
    else some 0
  let avg_primary := roundN avg_primary 1
  let avg_sub := roundN avg_sub 1
  let avg_process := roundN avg_process 1
  let avg_aes_clarity := roundN avg_aes_clarity 1
  let avg_aes_logic := roundN avg_aes_logic 1
  let avg_aes_relevance := roundN avg_aes_relevance 1
  let _avg_aes := roundN avg_aes 1
  let weighted_total := addN (addN (mulN avg_primary PRIMARY_WEIGHT)
    (mulN avg_sub SUB_WEIGHT)) (mulN avg_process PROCESS_WEIGHT)
  let aes_output := [("aes_clarity", avg_aes_clarity), ("aes_logic", avg_aes_logic),
    ("aes_relevance", avg_aes_relevance)]
  some
    { scores_primary := roundDictValues primary_avg 1
      scores_sub := roundDictValues sub_avg 1
      process := roundDictValues process_avg 1
      aes := roundDictValues aes_output 1
      total_score := roundN weighted_total 1
      per_question := roundPerQuestion st.per_question 1 }

/-! ## Aggregator lemmas -/

theorem pyRound_zero (n : Nat) : pyRound 0 n = 0 := by
  unfold pyRound
  rw [zero_mul]
  rw [show roundHalfEven 0 = ((0 : Int) : Int) from by simpa using roundHalfEven_intCast 0]
  simp

theorem pyRound_idem (q : Rat) (n : Nat) : pyRound (pyRound q n) n = pyRound q n := by
  unfold pyRound
  rw [div_mul_cancel₀ _ (show ((10 : Rat)) ^ n ≠ 0 by positivity), roundHalfEven_intCast]

theorem roundN_zero (n : Nat) : roundN (some 0) n = some 0 := by
  simp only [roundN]
  rw [pyRound_zero]

theorem roundN_idem (x : Option Rat) (n : Nat) : roundN (roundN x n) n = roundN x n := by
  cases x with
  | none => rfl
  | some q =>
    simp only [roundN]
    rw [pyRound_idem]

/-- `_round_dict_values` is the identity on the zero-filled average dicts:
their entries are `0.0` or already rounded to one place. -/
theorem roundDict_zeroFill (off : List String) (b : List (String × List (Option Rat))) :
    roundDictValues (zeroFillAvg off b) 1 = zeroFillAvg off b := by
  unfold roundDictValues zeroFillAvg
  rw [List.map_map]
  apply List.map_congr_left
  intro c _
  dsimp only [Function.comp]
  cases h : aGet b c with
  | none =>
    dsimp only
    rw [roundN_zero]
  | some l =>
    dsimp only
    by_cases he : l.isEmpty
    · rw [if_pos he, roundN_zero]
    · rw [if_neg he, roundN_idem]

/-- Every value stored in a score bucket is a genuine number (never NaN):
the clamp `max(1.0, min(5.0, x))` returns `5.0` when `x` is NaN. -/
def bucketsAllSome (b : List (String × List (Option Rat))) : Prop :=
  ∀ kv ∈ b, ∀ x ∈ kv.2, ∃ q : Rat, x = some q

theorem clampN_some (x : Option Rat) : ∃ q : Rat, clampN x = some q := by
  unfold clampN maxN minN
  cases x with
  | none =>
    rw [show ltN none (some 5) = false from rfl]
    simp only [Bool.false_eq_true, if_false]
    split <;> exact ⟨_, rfl⟩
  | some y =>
    split <;> split <;> exact ⟨_, rfl⟩

theorem bucketAppend_allSome (b : List (String × List (Option Rat))) (k : String)
    (v : Option Rat) (hb : bucketsAllSome b) (hv : ∃ q : Rat, v = some q) :
    bucketsAllSome (bucketAppend b k v) := by
  induction b with
  | nil =>
    intro kv hkv x hx
    simp only [bucketAppend, List.mem_singleton] at hkv
    subst hkv
    simp only [List.mem_singleton] at hx
    subst hx
    exact hv
  | cons kv₂ rest ih =>
    obtain ⟨k₂, l⟩ := kv₂
    by_cases he : k₂ = k
    · intro kv hkv x hx
      simp only [bucketAppend, if_pos he] at hkv
      rcases List.mem_cons.mp hkv with rfl | hmem
      · simp only [List.mem_append, List.mem_singleton] at hx
        rcases hx with hx | hx
        · exact hb (k₂, l) (List.mem_cons_self _ _) x hx
        · subst hx
          exact hv
      · exact hb kv (List.mem_cons_of_mem _ hmem) x hx
    · intro kv hkv x hx
      simp only [bucketAppend, if_neg he] at hkv
      rcases List.mem_cons.mp hkv with rfl | hmem
      · exact hb (k₂, l) (List.mem_cons_self _ _) x hx
      · exact ih (fun kv h => hb kv (List.mem_cons_of_mem _ h)) kv hmem x hx

/-- The three score buckets never hold NaN, and they do not depend on the
stage-1 (`pm01`) inputs at all. -/
theorem aggStep_buckets (pm05 pm01 pm01' : List (String × List (String × JValue)))
    (st st' : AggState) (q : Question)
    (h1 : st.primary_scores = st'.primary_scores)
    (h2 : st.sub_scores = st'.sub_scores)
    (h3 : st.process_scores = st'.process_scores)
    (ha : bucketsAllSome st.primary_scores ∧ bucketsAllSome st.sub_scores ∧
      bucketsAllSome st.process_scores) :
    (aggStep pm05 pm01 st q).primary_scores = (aggStep pm05 pm01' st' q).primary_scores ∧
    (aggStep pm05 pm01 st q).sub_scores = (aggStep pm05 pm01' st' q).sub_scores ∧
    (aggStep pm05 pm01 st q).process_scores = (aggStep pm05 pm01' st' q).process_scores ∧
    (bucketsAllSome (aggStep pm05 pm01 st q).primary_scores ∧
      bucketsAllSome (aggStep pm05 pm01 st q).sub_scores ∧
      bucketsAllSome (aggStep pm05 pm01 st q).process_scores) := by
  unfold aggStep
  split
  · exact ⟨h1, h2, h3, ha⟩
  · split
    · dsimp only
      rw [h1, h2, h3]
      refine ⟨rfl, rfl, rfl, ?_, ?_, ?_⟩
      · rw [← h1]
        exact bucketAppend_allSome _ _ _ ha.1 (clampN_some _)
      · rw [← h2]
        exact bucketAppend_allSome _ _ _ ha.2.1 (clampN_some _)
      · rw [← h3]
        exact bucketAppend_allSome _ _ _ ha.2.2 (clampN_some _)
    · exact ⟨h1, h2, h3, ha⟩

theorem foldl_aggStep_buckets (pm05 pm01 pm01' : List (String × List (String × JValue)))
    (qs : List Question) :
    ∀ (st st' : AggState),
      st.primary_scores = st'.primary_scores →
      st.sub_scores = st'.sub_scores →
      st.process_scores = st'.process_scores →
      (bucketsAllSome st.primary_scores ∧ bucketsAllSome st.sub_scores ∧
        bucketsAllSome st.process_scores) →
      ((qs.foldl (aggStep pm05 pm01) st).primary_scores
          = (qs.foldl (aggStep pm05 pm01') st').primary_scores ∧
        (qs.foldl (aggStep pm05 pm01) st).sub_scores
          = (qs.foldl (aggStep pm05 pm01') st').sub_scores ∧
        (qs.foldl (aggStep pm05 pm01) st).process_scores
          = (qs.foldl (aggStep pm05 pm01') st').process_scores ∧
        (bucketsAllSome (qs.foldl (aggStep pm05 pm01) st).primary_scores ∧
          bucketsAllSome (qs.foldl (aggStep pm05 pm01) st).sub_scores ∧
          bucketsAllSome (qs.foldl (aggStep pm05 pm01) st).process_scores)) := by
  induction qs with
  | nil => intro st st' h1 h2 h3 ha; exact ⟨h1, h2, h3, ha⟩
  | cons q rest ih =>
    intro st st' h1 h2 h3 ha
    simp only [List.foldl_cons]
    obtain ⟨g1, g2, g3, ga⟩ := aggStep_buckets pm05 pm01 pm01' st st' q h1 h2 h3 ha
    exact ih _ _ g1 g2 g3 ga

theorem aGet_mem {α : Type} : ∀ (d : List (String × α)) (k : String) (v : α),
    aGet d k = some v → (k, v) ∈ d := by
  intro d
  induction d with
  | nil =>
    intro k v h
    simp [aGet] at h
  | cons kv rest ih =>
    intro k v h
    obtain ⟨k₂, v₂⟩ := kv
    unfold aGet at h
    split at h
    · cases h
      rename_i heq
      subst heq
      exact List.mem_cons_self _ _
    · exact List.mem_cons_of_mem _ (ih _ _ h)

theorem sumN_some (l : List (Option Rat)) (hl : ∀ x ∈ l, ∃ q : Rat, x = some q) :
    ∃ q : Rat, sumN l = some q := by
  unfold sumN
  suffices h : ∀ (a : Rat), ∃ q : Rat, l.foldl addN (some a) = some q from h 0
  induction l with
  | nil => intro a; exact ⟨a, rfl⟩
  | cons x rest ih =>
    intro a
    obtain ⟨qx, hqx⟩ := hl x (List.mem_cons_self _ _)
    simp only [List.foldl_cons]
    rw [hqx]
    exact ih (fun y hy => hl y (List.mem_cons_of_mem _ hy)) _

/-- All zero-filled averages over NaN-free buckets are genuine numbers. -/
theorem zeroFillAvg_some (off : List String) (b : List (String × List (Option Rat)))
    (hb : bucketsAllSome b) :
    ∀ kv ∈ zeroFillAvg off b, ∃ q : Rat, kv.2 = some q := by
  intro kv hkv
  unfold zeroFillAvg at hkv
  rw [List.mem_map] at hkv
  obtain ⟨c, _, rfl⟩ := hkv
  dsimp only
  cases h : aGet b c with
  | none => exact ⟨0, rfl⟩
  | some l =>
    dsimp only
    by_cases he : l.isEmpty
    · rw [if_pos he]
      exact ⟨0, rfl⟩
    · rw [if_neg he]
      have hl : ∀ x ∈ l, ∃ q : Rat, x = some q := by
        intro x hx
        exact hb (c, l) (aGet_mem b c l h) x hx
      obtain ⟨qs, hqs⟩ := sumN_some l hl
      rw [hqs]
      exact ⟨_, rfl⟩

theorem zeroFillAvg_keys (off : List String) (b : List (String × List (Option Rat))) :
    (zeroFillAvg off b).map Prod.fst = off := by
  unfold zeroFillAvg
  rw [List.map_map]
  exact List.map_id' off

/-- The spec's group mean: the mean of a category-mean dict's values, rounded
to one decimal place. -/
def specGroupMean (d : List (String × Option Rat)) : Option Rat :=
  roundN (divN (sumN (d.map Prod.snd)) d.length) 1

theorem bucketsAllSome_nil : bucketsAllSome [] := by
  intro kv hkv
  simp at hkv

theorem aGet_map_self {α : Type} (off : List String) (g : String → α) (c : String)
    (hc : c ∈ off) : aGet (off.map (fun x => (x, g x))) c = some (g c) := by
  induction off with
  | nil => simp at hc
  | cons k rest ih =>
    rcases List.mem_cons.mp hc with rfl | hmem
    · simp [aGet]
    · by_cases he : k = c
      · subst he
        simp [aGet]
      · simp only [List.map_cons, aGet, if_neg he]
        exact ih hmem

/-- C2: for every produced AggregatedScoreSet, `total_score` equals
`round(0.60 × primaryGroupMean + 0.20 × subGroupMean + 0.20 × processGroupMean, 1)`
where each group mean is the mean of the official category means of the
respective dict, rounded to one place; and the stage-1 AES inputs contribute
nothing to `total_score` (replacing them arbitrarily leaves it unchanged). -/
theorem C2_weighted_total
    (pm05 pm01 : List (String × List (String × JValue))) (qs : List Question)
    (r : AggregatedScoreSet)
    (h : aggregate_pm05_raw_scores pm05 pm01 qs = some r) :
    r.total_score
      = roundN (addN (addN (mulN (specGroupMean r.scores_primary) PRIMARY_WEIGHT)
          (mulN (specGroupMean r.scores_sub) SUB_WEIGHT))
          (mulN (specGroupMean r.process) PROCESS_WEIGHT)) 1
    ∧ ∀ pm01₂, ∃ r₂, aggregate_pm05_raw_scores pm05 pm01₂ qs = some r₂ ∧
        r₂.total_score = r.total_score := by
  unfold aggregate_pm05_raw_scores at h
  dsimp only at h
  cases h
  constructor
  · dsimp only
    rw [roundDict_zeroFill, roundDict_zeroFill, roundDict_zeroFill]
    unfold specGroupMean
    have hP : (zeroFillAvg OFFICIAL_PRIMARY_CATEGORIES
        ((qs.foldl (aggStep pm05 pm01) AggState.empty).primary_scores)).isEmpty = false := by
      simp [zeroFillAvg, OFFICIAL_PRIMARY_CATEGORIES]
    have hS : (zeroFillAvg OFFICIAL_SUB_CATEGORIES
        ((qs.foldl (aggStep pm05 pm01) AggState.empty).sub_scores)).isEmpty = false := by
      simp [zeroFillAvg, OFFICIAL_SUB_CATEGORIES]
    have hPr : (zeroFillAvg OFFICIAL_PROCESS_ITEMS
        ((qs.foldl (aggStep pm05 pm01) AggState.empty).process_scores)).isEmpty = false := by
      simp [zeroFillAvg, OFFICIAL_PROCESS_ITEMS]
    rw [hP, hS, hPr]
    simp only [Bool.false_eq_true, if_false]
  · intro pm01₂
    refine ⟨_, rfl, ?_⟩
    dsimp only
    obtain ⟨g1, g2, g3, _⟩ := foldl_aggStep_buckets pm05 pm01₂ pm01 qs
      AggState.empty AggState.empty rfl rfl rfl
      ⟨bucketsAllSome_nil, bucketsAllSome_nil, bucketsAllSome_nil⟩
    rw [g1, g2, g3]

/-- C5: every produced AggregatedScoreSet binds, in each of `scores_primary`,
`scores_sub` and `process`, exactly the official category keys (5 / 2 / 5),
each to a genuine number, with `0.0` for an official category whose bucket is
absent or empty. -/
theorem C5_zero_filled_official_keys
    (pm05 pm01 : List (String × List (String × JValue))) (qs : List Question)
    (r : AggregatedScoreSet)
    (h : aggregate_pm05_raw_scores pm05 pm01 qs = some r) :
    r.scores_primary.map Prod.fst = OFFICIAL_PRIMARY_CATEGORIES ∧
    r.scores_sub.map Prod.fst = OFFICIAL_SUB_CATEGORIES ∧
    r.process.map Prod.fst = OFFICIAL_PROCESS_ITEMS ∧
    (∀ kv ∈ r.scores_primary, ∃ q : Rat, kv.2 = some q) ∧
    (∀ kv ∈ r.scores_sub, ∃ q : Rat, kv.2 = some q) ∧
    (∀ kv ∈ r.process, ∃ q : Rat, kv.2 = some q) ∧
    (∀ c ∈ OFFICIAL_PRIMARY_CATEGORIES,
      aGet ((qs.foldl (aggStep pm05 pm01) AggState.empty).primary_scores) c = none →
      aGet r.scores_primary c = some (some 0)) := by
  unfold aggregate_pm05_raw_scores at h
  dsimp only at h
  cases h
  dsimp only
  rw [roundDict_zeroFill, roundDict_zeroFill, roundDict_zeroFill]
  obtain ⟨_, _, _, hall⟩ := foldl_aggStep_buckets pm05 pm01 pm01 qs
    AggState.empty AggState.empty rfl rfl rfl
    ⟨bucketsAllSome_nil, bucketsAllSome_nil, bucketsAllSome_nil⟩
  refine ⟨zeroFillAvg_keys _ _, zeroFillAvg_keys _ _, zeroFillAvg_keys _ _,
    zeroFillAvg_some _ _ hall.1, zeroFillAvg_some _ _ hall.2.1,
    zeroFillAvg_some _ _ hall.2.2, ?_⟩
  intro c hc hnone
  unfold zeroFillAvg
  rw [aGet_map_self _ _ _ hc, hnone]

/-- C3: refuted (corrected).  When no question's categories map to official
categories, `aggregate_pm05_raw_scores` does not return `None` as the spec
says: it returns a zero-filled AggregatedScoreSet with `total_score = 0.0`
and an empty `per_question` dict. -/
theorem C3_empty_buckets_counterexample :
    ∃ r, aggregate_pm05_raw_scores [] [] [⟨1, "zz", "zz", "zz"⟩] = some r ∧
      r.per_question = [] ∧
      r.scores_primary = OFFICIAL_PRIMARY_CATEGORIES.map (fun c => (c, some 0)) ∧
      r.total_score = some 0 := by
  have hfold : ([⟨1, "zz", "zz", "zz"⟩] : List Question).foldl (aggStep [] [])
      AggState.empty = AggState.empty := by rfl
  refine ⟨_, rfl, ?_, ?_, ?_⟩
  · dsimp only
    rw [hfold]
    rfl
  · dsimp only
    rw [hfold, roundDict_zeroFill]
    rfl
  · dsimp only
    rw [hfold]
    show roundN (addN (addN (mulN (roundN (divN (sumN ((zeroFillAvg
      OFFICIAL_PRIMARY_CATEGORIES []).map Prod.snd)) _) 1) PRIMARY_WEIGHT)
      (mulN (roundN (divN (sumN ((zeroFillAvg OFFICIAL_SUB_CATEGORIES []).map Prod.snd)) _) 1)
        SUB_WEIGHT))
      (mulN (roundN (divN (sumN ((zeroFillAvg OFFICIAL_PROCESS_ITEMS []).map Prod.snd)) _) 1)
        PROCESS_WEIGHT)) 1 = some 0
    norm_num [zeroFillAvg, OFFICIAL_PRIMARY_CATEGORIES, OFFICIAL_SUB_CATEGORIES,
      OFFICIAL_PROCESS_ITEMS, aGet, sumN, addN, divN, mulN, roundN, pyRound_zero,
      PRIMARY_WEIGHT, SUB_WEIGHT, PROCESS_WEIGHT, List.foldl]

/-- C3 (amended): `aggregate_pm05_raw_scores` never returns `None` — no path
in the function body raises, so the `except` branch is dead and every input
produces an AggregatedScoreSet. -/
theorem C3_never_none (pm05 pm01 : List (String × List (String × JValue)))
    (qs : List Question) :
    ∃ r, aggregate_pm05_raw_scores pm05 pm01 qs = some r :=
  ⟨_, rfl⟩

/-! ## Embedding of src/core/config.py: `get_config` (from the parsed
key-value map of the Config sheet) -/

/-- `int(float(raw))`: truncation toward zero, `none` when the float is not
finite (Python raises there). -/
def intOfPyFloat : PyFloat → Option Int
  | .fin m e => some (if 0 ≤ m then m / (10 ^ e : Int) else -((-m) / (10 ^ e : Int)))
  | _ => none

structure ConfigModel where
  respondentsSheet : String
  validationLogSheet : String
  diagnosisDetailSheet : String
  errorLogSheet : String
  questionSheet : String
  skillcriteriaSheet : String
  typecriteriaSheet : String
  defaultTimeZone : String
  llmProvider : String
  llmApiUrl : String
  llmModel : String
  llmApiKey : String
  maxRetries : Int
  promptPM1Raw : String
  promptPM1Final : String
  promptPM5Raw : String
  promptPM5Final : String
  promptOrg : String
  promptInd : String

/-- `get_string(key, required)`: an absent or empty value raises when
`required`, else defaults to `''`. -/
def getStringCfg (config_map : List (String × String)) (key : String)
    (required : Bool) : Except String String :=
  match aGet config_map key with
  | some raw =>
    if raw = "" then
      if required then .error ("Required configuration key " ++ key ++ " not found in Config sheet.")
      else .ok ""
    else .ok raw
  | none =>
    if required then .error ("Required configuration key " ++ key ++ " not found in Config sheet.")
    else .ok ""

/-- `get_number(key)`: `int(float(raw))`, raising on absent/invalid values. -/
def getNumberCfg (config_map : List (String × String)) (key : String) : Except String Int :=
  match aGet config_map key with
  | some raw =>
    if raw = "" then .error ("Required configuration key " ++ key ++ " not found in Config sheet.")
    else
      match pyFloatOfString raw with
      | some x =>
        match intOfPyFloat x with
        | some n => .ok n
        | none => .error ("Invalid number value for " ++ key ++ " in Config sheet: " ++ raw)
      | none => .error ("Invalid number value for " ++ key ++ " in Config sheet: " ++ raw)
  | none => .error ("Required configuration key " ++ key ++ " not found in Config sheet.")

/-- Model of `Config.get_config` from the parsed config map: all sheet/LLM
settings and `maxRetries` are required, the six prompt templates are read with
`required=False`. -/
def get_config (config_map : List (String × String)) : Except String ConfigModel := do
  let respondentsSheet ← getStringCfg config_map "respondentsSheet" true
  let validationLogSheet ← getStringCfg config_map "validationLogSheet" true
  let diagnosisDetailSheet ← getStringCfg config_map "diagnosisDetailSheet" true
  let errorLogSheet ← getStringCfg config_map "errorLogSheet" true
  let questionSheet ← getStringCfg config_map "questionSheet" true
  let skillcriteriaSheet ← getStringCfg config_map "skillcriteriaSheet" true
  let typecriteriaSheet ← getStringCfg config_map "typecriteriaSheet" true
  let defaultTimeZone ← getStringCfg config_map "defaultTimeZone" true
  let llmProvider ← getStringCfg config_map "llmProvider" true
  let llmApiUrl ← getStringCfg config_map "llmApiUrl" true
  let llmModel ← getStringCfg config_map "llmModel" true
  let llmApiKey ← getStringCfg config_map "llmApiKey" true
  let maxRetries ← getNumberCfg config_map "maxRetries"
  let promptPM1Raw ← getStringCfg config_map "promptPM1Raw" false
  let promptPM1Final ← getStringCfg config_map "promptPM1Final" false
  let promptPM5Raw ← getStringCfg config_map "promptPM5Raw" false
  let promptPM5Final ← getStringCfg config_map "promptPM5Final" false
  let promptOrg ← getStringCfg config_map "promptOrg" false
  let promptInd ← getStringCfg config_map "promptInd" false
  let config : ConfigModel := ⟨respondentsSheet, validationLogSheet, diagnosisDetailSheet,
    errorLogSheet, questionSheet, skillcriteriaSheet, typecriteriaSheet, defaultTimeZone,
    llmProvider, llmApiUrl, llmModel, llmApiKey, maxRetries, promptPM1Raw, promptPM1Final,
    promptPM5Raw, promptPM5Final, promptOrg, promptInd⟩
  if config.llmApiKey = "" then
    .error "API key not configured. Add llmApiKey to the Config sheet in your Google Spreadsheet."
  else pure config

/-- The prompt-template guard of `LLMService._build_pm01_raw_prompt`
(src/services/llm.py lines 156-159): an empty/missing `promptPM1Raw` raises
`ValueError` at prompt-build time — that is, inside a retry attempt — not at
configuration load.  The assembled prompt's other lines carry no validation,
so the model returns the configured instruction text. -/
def build_pm01_raw_prompt (config : ConfigModel) : Except String String :=
  if pyStrip config.promptPM1Raw = "" then
    .error "promptPM1Raw not configured in Config sheet. Required for STEP 1 (PM01 Raw Scoring)."
  else .ok (pyStrip config.promptPM1Raw)

/-! ## Embedding of the retry loop of src/main.py `run_pm01_raw` /
`run_pm05_raw` (one question) -/

/-- What one attempt of `llm_service.run_pm01_raw_scoring` can do, as the
`while` loop observes it: raise (any exception, e.g. the prompt-template
`ValueError`), return `None` (transport errors are swallowed inside
`_invoke_llm`, and parser rejections return `None`), or return a validated
record. -/
inductive AttemptOutcome where
  | raised
  | failed
  | ok (v : JValue)

structure LogEntry where
  category : String
  message : String
  attempt : Nat
deriving DecidableEq

def pm01FailLog (maxRetries : Nat) : LogEntry :=
  ⟨"PM01_RAW_FAILED", "raw scoring failed after " ++ toString maxRetries ++ " attempts",
    maxRetries⟩

/-- The `while attempt < max_retries` loop, with `remaining = max_retries -
attempt` made structural.  A raised attempt is caught; it appends the single
failure record only when it was the final attempt (`attempt >= max_retries`
after incrementing).  A `None` reply is silently skipped.  Returns the
question result and the error-log entries emitted. -/
def runAttemptsGo (outcome : Nat → AttemptOutcome) (maxRetries : Nat) :
    Nat → Nat → Option JValue × List LogEntry
  | _, 0 => (none, [])
  | attempt, remaining + 1 =>
    match outcome (attempt + 1) with
    | .ok v => (some v, [])
    | .failed => runAttemptsGo outcome maxRetries (attempt + 1) remaining
    | .raised =>
      if maxRetries ≤ attempt + 1 then
        let r := runAttemptsGo outcome maxRetries (attempt + 1) remaining
        (r.1, pm01FailLog maxRetries :: r.2)
      else runAttemptsGo outcome maxRetries (attempt + 1) remaining

def runAttempts (outcome : Nat → AttemptOutcome) (maxRetries : Nat) :
    Option JValue × List LogEntry :=
  runAttemptsGo outcome maxRetries 0 maxRetries

def isRaised : AttemptOutcome → Bool
  | .raised => true
  | _ => false

theorem isRaised_iff (x : AttemptOutcome) : isRaised x = true ↔ x = .raised := by
  cases x <;> simp [isRaised]

theorem runGo_fail (outcome : Nat → AttemptOutcome) (mr : Nat) :
    ∀ remaining attempt, attempt + remaining = mr →
    (∀ k, attempt < k → k ≤ mr → ∀ v, outcome k ≠ .ok v) →
    (runAttemptsGo outcome mr attempt remaining).1 = none ∧
    (runAttemptsGo outcome mr attempt remaining).2
      = if 0 < remaining ∧ isRaised (outcome mr) = true then [pm01FailLog mr] else [] := by
  intro remaining
  induction remaining with
  | zero =>
    intro attempt _ _
    simp [runAttemptsGo]
  | succ rem ih =>
    intro attempt htot hko
    rw [runAttemptsGo.eq_def]
    dsimp only
    cases ho : outcome (attempt + 1) with
    | ok v => exact absurd ho (hko _ (by omega) (by omega) v)
    | failed =>
      obtain ⟨ih1, ih2⟩ := ih (attempt + 1) (by omega)
        (fun k hk1 hk2 v => hko k (by omega) hk2 v)
      refine ⟨ih1, ?_⟩
      rw [ih2]
      rcases Nat.eq_zero_or_pos rem with hz | hp
      · subst hz
        have hmr : attempt + 1 = mr := by omega
        rw [hmr] at ho
        simp [ho, isRaised]
      · by_cases hr : isRaised (outcome mr) = true
        · simp [hr, hp]
        · simp [hr]
    | raised =>
      by_cases hle : mr ≤ attempt + 1
      · have hmr : attempt + 1 = mr := by omega
        have hrem : rem = 0 := by omega
        subst hrem
        rw [if_pos hle]
        dsimp only
        rw [hmr] at ho
        simp [runAttemptsGo, ho, isRaised]
      · rw [if_neg hle]
        obtain ⟨ih1, ih2⟩ := ih (attempt + 1) (by omega)
          (fun k hk1 hk2 v => hko k (by omega) hk2 v)
        refine ⟨ih1, ?_⟩
        rw [ih2]
        have hp : 0 < rem := by omega
        by_cases hr : isRaised (outcome mr) = true
        · simp [hr, hp]
        · simp [hr]

theorem runGo_ok (outcome : Nat → AttemptOutcome) (mr : Nat) :
    ∀ remaining attempt k v, attempt + remaining = mr →
    attempt < k → k ≤ mr → outcome k = .ok v →
    (∀ j w, attempt < j → j < k → outcome j ≠ .ok w) →
    runAttemptsGo outcome mr attempt remaining = (some v, []) := by
  intro remaining
  induction remaining with
  | zero =>
    intro attempt k v htot hk1 hk2 _ _
    omega
  | succ rem ih =>
    intro attempt k v htot hk1 hk2 hov hnoe
    rw [runAttemptsGo.eq_def]
    dsimp only
    cases ho : outcome (attempt + 1) with
    | ok w =>
      have hk : k = attempt + 1 := by
        by_contra hne
        exact hnoe (attempt + 1) w (by omega) (by omega) ho
      subst hk
      rw [ho] at hov
      cases hov
      rfl
    | failed =>
      have hk : attempt + 1 < k := by
        rcases Nat.lt_or_ge (attempt + 1) k with h | h
        · exact h
        · have : k = attempt + 1 := by omega
          subst this
          rw [ho] at hov
          cases hov
      exact ih (attempt + 1) k v (by omega) hk hk2 hov
        (fun j w hj1 hj2 => hnoe j w (by omega) hj2)
    | raised =>
      have hk : attempt + 1 < k := by
        rcases Nat.lt_or_ge (attempt + 1) k with h | h
        · exact h
        · have : k = attempt + 1 := by omega
          subst this
          rw [ho] at hov
          cases hov
      have hle : ¬ mr ≤ attempt + 1 := by omega
      rw [if_neg hle]
      exact ih (attempt + 1) k v (by omega) hk hk2 hov
        (fun j w hj1 hj2 => hnoe j w (by omega) hj2)

/-- C7: corrected.  For one question of the Evaluation Runner: when no attempt
returns a record, the runner returns `None`, and it emits exactly one failure
record if and only if the final attempt raised — attempts that merely return
`None` (swallowed transport errors, parser rejections) are skipped silently,
so an all-failed run without a final exception logs nothing, contrary to the
spec.  A successful parse on any attempt short-circuits with zero failure
records (that half of the claim holds). -/
theorem C7_failure_logging (outcome : Nat → AttemptOutcome) (mr : Nat) :
    ((∀ k, 1 ≤ k → k ≤ mr → ∀ v, outcome k ≠ .ok v) →
      (runAttempts outcome mr).1 = none ∧
      (runAttempts outcome mr).2
        = if 0 < mr ∧ isRaised (outcome mr) = true then [pm01FailLog mr] else []) ∧
    (∀ k v, 1 ≤ k → k ≤ mr → outcome k = .ok v →
      (∀ j w, 1 ≤ j → j < k → outcome j ≠ .ok w) →
      runAttempts outcome mr = (some v, [])) := by
  constructor
  · intro hko
    exact runGo_fail outcome mr mr 0 (by omega) (fun k hk1 hk2 v => hko k (by omega) hk2 v)
  · intro k v hk1 hk2 hov hnoe
    exact runGo_ok outcome mr mr 0 k v (by omega) (by omega) hk2 hov
      (fun j w hj1 hj2 => hnoe j w (by omega) hj2)

theorem C7_failure_logging_witness :
    runAttempts (fun k => if k = 2 then .ok (JValue.str "r") else .failed) 3
      = (some (JValue.str "r"), []) := by
  refine (C7_failure_logging _ 3).2 2 _ (by omega) (by omega) rfl ?_
  intro j w hj1 hj2
  interval_cases j
  simp

/-- C7 counterexample: three attempts that all fail without a final exception
(transport errors swallowed by `_invoke_llm`, or parser rejections) make the
runner return `None` with ZERO failure records; the single record appears only
when the final attempt raises. -/
theorem C7_counterexample :
    runAttempts (fun _ => AttemptOutcome.failed) 3 = (none, []) ∧
    runAttempts (fun _ => AttemptOutcome.raised) 3 = (none, [pm01FailLog 3]) :=
  ⟨rfl, rfl⟩

/-- A Config sheet with every required key present and no `promptPM1Raw`. -/
def c4Map : List (String × String) :=
  [("respondentsSheet", "R"), ("validationLogSheet", "V"), ("diagnosisDetailSheet", "D"),
   ("errorLogSheet", "E"), ("questionSheet", "Q"), ("skillcriteriaSheet", "S"),
   ("typecriteriaSheet", "T"), ("defaultTimeZone", "Asia/Tokyo"),
   ("llmProvider", "openai"), ("llmApiUrl", "u"), ("llmModel", "m"),
   ("llmApiKey", "k"), ("maxRetries", "3")]

def c4Cfg : ConfigModel :=
  ⟨"R", "V", "D", "E", "Q", "S", "T", "Asia/Tokyo", "openai", "u", "m", "k", 3,
   "", "", "", "", "", ""⟩

/-- C4: refuted (corrected).  A missing prompt template does not raise at
configuration load (`promptPM1Raw` is read with `required=False`); the
`ValueError` raises lazily inside each retry attempt when the prompt is
built, is caught by the runner's retry loop, is retried `maxRetries` times,
is logged exactly once after the final attempt, and the runner returns
`None` for the question — nothing aborts the batch or propagates uncaught. -/
theorem C4_prompt_error_is_lazy (config_map : List (String × String)) (cfg : ConfigModel)
    (hok : get_config config_map = .ok cfg) (hmiss : pyStrip cfg.promptPM1Raw = "") :
    (build_pm01_raw_prompt cfg = .error
      "promptPM1Raw not configured in Config sheet. Required for STEP 1 (PM01 Raw Scoring).") ∧
    (∀ mr : Nat, 0 < mr →
      runAttempts (fun _ => AttemptOutcome.raised) mr = (none, [pm01FailLog mr])) := by
  constructor
  · unfold build_pm01_raw_prompt
    rw [if_pos hmiss]
  · intro mr hmr
    obtain ⟨h1, h2⟩ := runGo_fail (fun _ => AttemptOutcome.raised) mr mr 0 (by omega)
      (fun k _ _ v h => AttemptOutcome.noConfusion h)
    have e2 : (runAttempts (fun _ => AttemptOutcome.raised) mr).2 = [pm01FailLog mr] := by
      rw [show (runAttempts (fun _ => AttemptOutcome.raised) mr).2
        = (runAttemptsGo (fun _ => AttemptOutcome.raised) mr 0 mr).2 from rfl, h2]
      rw [if_pos ⟨hmr, rfl⟩]
    calc runAttempts (fun _ => AttemptOutcome.raised) mr
        = ((runAttempts (fun _ => AttemptOutcome.raised) mr).1,
           (runAttempts (fun _ => AttemptOutcome.raised) mr).2) := rfl
      _ = (none, [pm01FailLog mr]) := by rw [e2]; rw [show (runAttempts
            (fun _ => AttemptOutcome.raised) mr).1 = (runAttemptsGo
            (fun _ => AttemptOutcome.raised) mr 0 mr).1 from rfl, h1]

theorem C4_prompt_error_is_lazy_witness :
    get_config c4Map = Except.ok c4Cfg ∧
    runAttempts (fun _ => AttemptOutcome.raised) 2 = (none, [pm01FailLog 2]) :=
  ⟨rfl, (C4_prompt_error_is_lazy c4Map c4Cfg rfl rfl).2 2 (by omega)⟩

/-- C4 counterexample: with `promptPM1Raw` absent, `get_config` succeeds —
no eager error before respondents are processed — and a question run whose
every attempt raises the prompt-template error retries, logs once and
returns `None` instead of propagating. -/
theorem C4_counterexample :
    get_config c4Map = Except.ok c4Cfg ∧
    c4Cfg.promptPM1Raw = "" ∧
    build_pm01_raw_prompt c4Cfg = Except.error
      "promptPM1Raw not configured in Config sheet. Required for STEP 1 (PM01 Raw Scoring)." ∧
    runAttempts (fun _ => AttemptOutcome.raised) 3 = (none, [pm01FailLog 3]) :=
  ⟨rfl, rfl, rfl, rfl⟩

theorem C2_weighted_total_witness :
    (aggregate_pm05_raw_scores [] [] []).elim False (fun r =>
      r.total_score
        = roundN (addN (addN (mulN (specGroupMean r.scores_primary) PRIMARY_WEIGHT)
            (mulN (specGroupMean r.scores_sub) SUB_WEIGHT))
            (mulN (specGroupMean r.process) PROCESS_WEIGHT)) 1) :=
  (C2_weighted_total [] [] [] _ rfl).1

theorem C5_zero_filled_official_keys_witness :
    (aggregate_pm05_raw_scores [] [] []).elim False (fun r =>
      r.scores_primary.map Prod.fst = OFFICIAL_PRIMARY_CATEGORIES) :=
  (C5_zero_filled_official_keys [] [] [] _ rfl).1

/-! ## Embedding of the status routing of src/main.py (lines 49-56 and
121-135) -/

def completed_statuses : List String :=
  ["pm5final完了", "pm5final完成", "診断完了", "診断完成"]

/-- `row.get('status', '').strip().lower()`. -/
def normStatus (status : String) : String := pyLower (pyStrip status)

def isCompletedStatus (status : String) : Bool :=
  completed_statuses.contains (normStatus status)

/-- The `start_from_step` cascade of the per-respondent loop. -/
def start_from_step (status : String) : Nat :=
  if normStatus status = "pm1raw完了" || normStatus status = "pm1raw完成" then 2
  else if normStatus status = "pm5raw完了" || normStatus status = "pm5raw完成" then 3
  else if normStatus status = "pm1final完了" || normStatus status = "pm1final完成" then 4
  else 1

/-- Where the pipeline takes a respondent with the given persisted status:
`none` when the completed-status filter excludes the row entirely, otherwise
the starting stage. -/
def pipelineEntry (status : String) : Option Nat :=
  if isCompletedStatus status then none else some (start_from_step status)

/-- C8: the pipeline's starting point is a function of the persisted status
after trimming and lowercasing — a completed-vocabulary status excludes the
respondent entirely; `PM1Raw完了` starts at stage 2, `PM5Raw完了` at stage 3,
`PM1Final完了` at stage 4; anything empty or unrecognized starts at stage 1. -/
theorem C8_status_routing (status : String) :
    (pipelineEntry status = none ↔
      completed_statuses.contains (normStatus status) = true) ∧
    (∀ n, pipelineEntry status = some n → n = start_from_step status) ∧
    pipelineEntry "PM5Final完了" = none ∧
    pipelineEntry " 診断完了 " = none ∧
    pipelineEntry "PM1Raw完了" = some 2 ∧
    pipelineEntry "pm5raw完成" = some 3 ∧
    pipelineEntry "PM1Final完了" = some 4 ∧
    pipelineEntry "" = some 1 ∧
    pipelineEntry "処理中" = some 1 := by
  refine ⟨?_, ?_, rfl, rfl, rfl, rfl, rfl, rfl, rfl⟩
  · unfold pipelineEntry isCompletedStatus
    by_cases h : completed_statuses.contains (normStatus status) = true
    · simp [h]
    · simp [h]
  · intro n hn
    unfold pipelineEntry at hn
    split at hn
    · exact absurd hn (by simp)
    · cases hn
      rfl

theorem C8_status_routing_witness : 2 = start_from_step "PM1Raw完了" :=
  (C8_status_routing "PM1Raw完了").2.1 2 (by rfl)

/-! ## Embedding of src/services/validation.py `validate_respondents` -/

/-- `is_empty` from src/core/utils.py on a sheet cell (`none` models an
absent cell / Python `None`; cells are strings as the sheets service
supplies them). -/
def is_empty (v : Option String) : Bool :=
  match v with
  | none => true
  | some s => pyStrip s = ""

/-- A respondent row as the validator sees it.  `answers = none` models a
cell whose value is not a list; an absent key defaults to `some []`. -/
structure RespondentRow where
  rowIndex : Int
  id : Option String
  name : Option String
  answers : Option (List String)

structure ValidationError where
  rowIndex : Int
  respondentId : String
  reason : String

/-- The per-row cascade of `validate_respondents`: required fields, the
answers list check, the exactly-six non-empty count, the 400-character
limit.  Returns the error appended for a rejected row, `none` for a valid
one. -/
def validateRow (row : RespondentRow) : Option ValidationError :=
  let missing_fields := (if is_empty row.id then ["id"] else [])
    ++ (if is_empty row.name then ["name"] else [])
  if !missing_fields.isEmpty then
    some ⟨row.rowIndex, (row.id.getD ""),
      "Missing fields: " ++ String.intercalate ", " missing_fields⟩
  else
    match row.answers with
    | none => some ⟨row.rowIndex, (row.id.getD ""), "Answers array is missing or invalid"⟩
    | some answers =>
      let non_empty_count := (answers.filter (fun a => !(is_empty (some a)))).length
      if non_empty_count ≠ 6 then
        some ⟨row.rowIndex, (row.id.getD ""),
          "Expected 6 non-empty answers, received " ++ toString non_empty_count⟩
      else
        let over_limit := answers.enum.filter (fun ia => 400 < ia.2.length)
        if !over_limit.isEmpty then
          some ⟨row.rowIndex, (row.id.getD ""),
            "Answers exceed max length: " ++ String.intercalate ", "
              (over_limit.map (fun ia =>
                "Q" ++ toString (ia.1 + 1) ++ " (" ++ toString ia.2.length ++ ")"))⟩
        else none

/-- Model of `ValidationService.validate_respondents`: the valid rows and
the error entries, in input order. -/
def validate_respondents : List RespondentRow → List RespondentRow × List ValidationError
  | [] => ([], [])
  | row :: rest =>
    match validateRow row with
    | some err =>
      let r := validate_respondents rest
      (r.1, err :: r.2)
    | none =>
      let r := validate_respondents rest
      (row :: r.1, r.2)

theorem over_limit_empty_iff (xs : List String) :
    ((xs.enum.filter (fun ia => 400 < ia.2.length)).isEmpty = true
      ↔ ∀ a ∈ xs, a.length ≤ 400) := by
  rw [List.isEmpty_iff, List.filter_eq_nil_iff]
  unfold List.enum
  constructor
  · intro h a ha
    have hmem : ∃ i, (i, a) ∈ List.enumFrom 0 xs := by
      clear h
      generalize 0 = n
      induction xs generalizing n with
      | nil => simp at ha
      | cons x rest ih =>
        rcases List.mem_cons.mp ha with rfl | hm
        · exact ⟨n, List.mem_cons_self _ _⟩
        · obtain ⟨i, hi⟩ := ih hm (n + 1)
          exact ⟨i, List.mem_cons_of_mem _ hi⟩
    obtain ⟨i, hi⟩ := hmem
    have := h (i, a) hi
    simpa using this
  · intro h ia hia
    have hmem : ia.2 ∈ xs := by
      clear h
      generalize hn : 0 = n at hia
      clear hn
      induction xs generalizing n with
      | nil => simp at hia
      | cons x rest ih =>
        rcases List.mem_cons.mp hia with rfl | hm
        · exact List.mem_cons_self _ _
        · exact List.mem_cons_of_mem _ (ih _ hm)
    have := h ia.2 hmem
    simp
    omega

/-- C9: `validate_respondents` accepts a row iff its `id` and `name` are
non-empty, its answers cell is a list whose count of non-empty entries is
exactly six (more than six non-empty answers rejects the row, it is not
truncated), and every answer is at most 400 characters; every rejected row
produces exactly one reasoned error entry and never reaches the valid
list. -/
theorem C9_validate_respondents (rows : List RespondentRow) (row : RespondentRow) :
    (validate_respondents rows).1 = rows.filter (fun r => (validateRow r).isNone) ∧
    (validate_respondents rows).2 = rows.filterMap validateRow ∧
    ((validateRow row).isNone = true ↔
      (is_empty row.id = false ∧ is_empty row.name = false ∧
       ∃ xs, row.answers = some xs ∧
         (xs.filter (fun a => !(is_empty (some a)))).length = 6 ∧
         ∀ a ∈ xs, a.length ≤ 400)) := by
  refine ⟨?_, ?_, ?_⟩
  · induction rows with
    | nil => rfl
    | cons r rest ih =>
      rw [validate_respondents.eq_def]
      dsimp only
      cases h : validateRow r with
      | some err => simp [List.filter_cons, h, ih]
      | none => simp [List.filter_cons, h, ih]
  · induction rows with
    | nil => rfl
    | cons r rest ih =>
      rw [validate_respondents.eq_def]
      dsimp only
      cases h : validateRow r with
      | some err => simp [List.filterMap_cons, h, ih]
      | none => simp [List.filterMap_cons, h, ih]
  · by_cases hid : is_empty row.id = true
    · constructor
      · intro h
        simp [validateRow, hid] at h
      · rintro ⟨hid2, _, _⟩
        rw [hid] at hid2
        cases hid2
    · rw [Bool.not_eq_true] at hid
      by_cases hname : is_empty row.name = true
      · constructor
        · intro h
          simp [validateRow, hid, hname] at h
        · rintro ⟨_, hn2, _⟩
          rw [hname] at hn2
          cases hn2
      · rw [Bool.not_eq_true] at hname
        cases ha : row.answers with
        | none =>
          constructor
          · intro h
            simp [validateRow, hid, hname, ha] at h
          · rintro ⟨_, _, xs₂, hxs₂, _⟩
            cases hxs₂
        | some xs =>
          by_cases hc : (xs.filter (fun a => !(is_empty (some a)))).length = 6
          · by_cases hover : (xs.enum.filter (fun ia => 400 < ia.2.length)).isEmpty = true
            · constructor
              · intro _
                exact ⟨hid, hname, xs, rfl, hc, (over_limit_empty_iff xs).mp hover⟩
              · intro _
                simp [validateRow, hid, hname, ha, hc, hover]
            · constructor
              · intro h
                simp [validateRow, hid, hname, ha, hc, hover] at h
              · rintro ⟨_, _, xs₂, hxs₂, _, hlen⟩
                cases hxs₂
                exact absurd ((over_limit_empty_iff xs).mpr hlen) hover
          · constructor
            · intro h
              simp [validateRow, hid, hname, ha, hc] at h
            · rintro ⟨_, _, xs₂, hxs₂, hcnt, _⟩
              cases hxs₂
              exact absurd hcnt hc

def c9Row : RespondentRow :=
  ⟨1, some "r1", some "Alice", some ["a", "b", "c", "d", "e", "f"]⟩

theorem C9_validate_respondents_witness : (validateRow c9Row).isNone = true :=
  (C9_validate_respondents [] c9Row).2.2.mpr
    ⟨rfl, rfl, ["a", "b", "c", "d", "e", "f"], rfl, rfl, by decide⟩

end AICATS
